import Mathlib

/-!
# A shallow embedding of the OpenAPI traverser

The development follows the Go sources `traverser/traverser.go`,
`traverser/parser.go` and `traverser/model.go`, and the two functions of
`main.go` that work on their results, `mergeSpecs` and `wrappedComment`.

* Go strings are Lean strings; the library functions of package `strings`
  that the parser calls are written out on the character list of a string.
* A decoded document is a `Val`: the dynamic values a YAML decoder hands to
  the accessor.  Mappings are association lists keyed by strings, the first
  binding of a key being the one a lookup sees.
* A Go `panic` and an exhausted call stack are the two ways a run can abort;
  they are the error side of `Except Abort`.  A returned `error` value is
  ordinary data (`Option ParseError`), returned next to the state built so far
  as in the Go signatures.
-/

namespace Traverser

/-! ## Package `strings`, `strconv`, `unicode` and `path/filepath` -/

/-- Removes the characters of the first list from the front of the second,
when the second starts with them. -/
def dropLeading : List Char → List Char → Option (List Char)
  | [], s => some s
  | _ :: _, [] => none
  | p :: ps, c :: cs => if p = c then dropLeading ps cs else none

/-- Go `strings.HasPrefix(s, p)`. -/
def HasPrefix (s p : String) : Bool :=
  (dropLeading p.data s.data).isSome

/-- Go `strings.TrimPrefix(s, p)`: `s` without the leading `p`, or `s` itself
when it does not start with `p`. -/
def TrimPrefix (s p : String) : String :=
  match dropLeading p.data s.data with
  | some r => ⟨r⟩
  | none => s

/-- Replaces the non-overlapping occurrences of a non-empty `old`, left to
right; the natural number bounds the number of steps. -/
def replaceChars (old new : List Char) : Nat → List Char → List Char
  | 0, s => s
  | _ + 1, [] => []
  | n + 1, c :: cs =>
    match dropLeading old (c :: cs) with
    | some rest => new ++ replaceChars old new n rest
    | none => c :: replaceChars old new n cs

/-- Go `strings.Replace(s, old, new, -1)`.  With an empty `old`, Go inserts
`new` in front of the string and after every character. -/
def Replace (s old new : String) : String :=
  match old.data with
  | [] => ⟨new.data ++ s.data.flatMap (fun c => c :: new.data)⟩
  | _ :: _ => ⟨replaceChars old.data new.data s.data.length s.data⟩

/-- Go `unicode.IsSpace`. -/
def isSpace (c : Char) : Bool :=
  let n := c.toNat
  (9 ≤ n && n ≤ 13) || n = 32 || n = 0x85 || n = 0xA0 || n = 0x1680 ||
  (0x2000 ≤ n && n ≤ 0x200A) || n = 0x2028 || n = 0x2029 || n = 0x202F ||
  n = 0x205F || n = 0x3000

/-- The separator test of Go `strings.Title`: below 128 everything except
letters, digits and the underscore separates words; above, a character that is
neither a letter nor a digit separates exactly when it is white space. -/
def isSeparator (c : Char) : Bool :=
  let n := c.toNat
  if n ≤ 0x7F then
    !((48 ≤ n && n ≤ 57) || (97 ≤ n && n ≤ 122) || (65 ≤ n && n ≤ 90) || n = 95)
  else isSpace c

/-- Upper case of a character.  The case tables are those of ASCII: a
character outside `a`..`z` is returned as it is. -/
def toUpperChar (c : Char) : Char :=
  if 97 ≤ c.toNat ∧ c.toNat ≤ 122 then Char.ofNat (c.toNat - 32) else c

/-- Lower case of a character, on the ASCII case tables. -/
def toLowerChar (c : Char) : Char :=
  if 65 ≤ c.toNat ∧ c.toNat ≤ 90 then Char.ofNat (c.toNat + 32) else c

/-- Go `strings.ToUpper`. -/
def ToUpper (s : String) : String := ⟨s.data.map toUpperChar⟩

/-- Go `strings.ToLower`. -/
def ToLower (s : String) : String := ⟨s.data.map toLowerChar⟩

/-- The loop of Go `strings.Title`: `prev` is the character seen last. -/
def titleChars : Char → List Char → List Char
  | _, [] => []
  | prev, c :: cs =>
    (if isSeparator prev then toUpperChar c else c) :: titleChars c cs

/-- Go `strings.Title`: the first letter of every word in title case. -/
def Title (s : String) : String := ⟨titleChars ' ' s.data⟩

/-- Go `strings.Join`. -/
def Join (xs : List String) (sep : String) : String :=
  sep.intercalate xs

/-- Value of a decimal digit. -/
def digitVal (c : Char) : Option Nat :=
  if 48 ≤ c.toNat ∧ c.toNat ≤ 57 then some (c.toNat - 48) else none

/-- The digit loop of `strconv`: `n = n*10 + digit`, failing at the first
character that is no digit. -/
def parseDigits : List Char → Nat → Option Nat
  | [], acc => some acc
  | c :: cs, acc =>
    match digitVal c with
    | some d => parseDigits cs (acc * 10 + d)
    | none => none

/-- Go `strconv.Atoi` on a 64-bit platform: the value and whether the error is
`nil`.  A syntax error gives 0, a range error the nearest bound. -/
def Atoi (s : String) : Int × Bool :=
  let (neg, ds) :=
    match s.data with
    | '-' :: r => (true, r)
    | '+' :: r => (false, r)
    | r => (false, r)
  match ds with
  | [] => (0, false)
  | _ :: _ =>
    match parseDigits ds 0 with
    | none => (0, false)
    | some v =>
      if neg then
        if v > 2 ^ 63 then (-(2 ^ 63 : Int), false) else (-(v : Int), true)
      else
        if v ≥ 2 ^ 63 then ((2 ^ 63 : Int) - 1, false) else ((v : Int), true)

/-- Byte-wise order of Go strings, strict: on well-formed UTF-8 it is the
lexicographic order on code points. -/
def ltChars : List Char → List Char → Bool
  | [], [] => false
  | [], _ :: _ => true
  | _ :: _, [] => false
  | a :: as, b :: bs =>
    if a.toNat < b.toNat then true
    else if b.toNat < a.toNat then false
    else ltChars as bs

/-- The order `sort.Strings` sorts by, non-strict. -/
def strLe (a b : String) : Prop := ltChars b.data a.data = false

instance strLe_decidable : DecidableRel strLe :=
  fun a b => inferInstanceAs (Decidable (ltChars b.data a.data = false))

/-- Go `sort.Strings`. -/
def sortStrings (xs : List String) : List String :=
  xs.insertionSort strLe

/-- Splits a list at every separator character, like `strings.Split`. -/
def splitOnChar (sep : Char) : List Char → List (List Char)
  | [] => [[]]
  | c :: cs =>
    match splitOnChar sep cs with
    | [] => [[]]
    | w :: ws => if c = sep then [] :: w :: ws else (c :: w) :: ws

/-- The element stack of `filepath.Clean`, innermost element first. -/
def cleanStep (rooted : Bool) (stack : List (List Char)) (el : List Char) :
    List (List Char) :=
  if el = [] ∨ el = ['.'] then stack
  else if el = ['.', '.'] then
    match stack with
    | [] => if rooted then [] else [el]
    | top :: rest => if top = ['.', '.'] then el :: stack else rest
  else el :: stack

/-- Go `filepath.Clean` for slash-separated paths without a volume name. -/
def Clean (p : List Char) : List Char :=
  match p with
  | [] => ['.']
  | c :: _ =>
    let rooted := c = '/'
    let stack := (splitOnChar '/' p).foldl (cleanStep rooted) []
    let body := (String.intercalate "/" (stack.reverse.map String.mk)).data
    if rooted then '/' :: body
    else if body = [] then ['.'] else body

/-- The part of a path up to and including its last slash. -/
def uptoLastSlash (p : List Char) : List Char :=
  (p.reverse.dropWhile (fun c => c ≠ '/')).reverse

/-- Go `filepath.Dir`. -/
def Dir (p : String) : String := ⟨Clean (uptoLastSlash p.data)⟩

/-- Go `filepath.Base`. -/
def Base (p : String) : String :=
  match p.data with
  | [] => "."
  | _ :: _ =>
    let stripped := (p.data.reverse.dropWhile (fun c => c = '/')).reverse
    let last := (stripped.reverse.takeWhile (fun c => c ≠ '/')).reverse
    if last = [] then "/" else ⟨last⟩

/-! ## The generic document accessor (`traverser.go`) -/

/-- A decoded document value: what the type switch of the accessor can tell
apart.  `map` is the Go type `Map` with its keys of dynamic type string. -/
inductive Val where
  | null
  | str (s : String)
  | bool (b : Bool)
  | int (n : Int)
  | int64 (n : Int)
  | int32 (n : Int)
  | uint64 (n : Nat)
  | uint32 (n : Nat)
  | float (bits : Nat)
  | seq (xs : List Val)
  | map (kvs : List (String × Val))

/-- Go type `Map`. -/
abbrev Map := List (String × Val)

/-- Go type `Any`: a wrapped dynamic value. -/
abbrev Any := Val

/-- Indexing a Go map: the first binding of the key. -/
def lookup (k : String) : Map → Option Val
  | [] => none
  | (k', v) :: rest => if k' = k then some v else lookup k rest

/-- The regular expression `idxRegex`, `^\[(\d+)\]$`: the digits between the
brackets when the segment has that shape. -/
def idxMatch (seg : String) : Option String :=
  match seg.data with
  | '[' :: rest =>
    match rest.reverse with
    | ']' :: ds =>
      if ds ≠ [] ∧ ds.all (fun c => (digitVal c).isSome) then some ⟨ds.reverse⟩
      else none
    | _ => none
  | _ => none

/-- Go `Any.Get`: walks the path segments; the flag tells whether the walk
arrived.  The recursive call on the rest of the path covers both ends of the
Go function, an empty rest returning `(next, true)`. -/
def Any.Get : Any → List String → Any × Bool
  | any, [] => (any, true)
  | any, seg :: rest =>
    match idxMatch seg with
    | some digits =>
      match any with
      | .seq s =>
        let idx := Atoi digits
        if idx.2 = false then (.null, false)
        else if idx.1 > (s.length : Int) - 1 then (.null, false)
        else
          match s.get? idx.1.toNat with
          | some next => Any.Get next rest
          | none => (.null, false)
      | _ => (.null, false)
    | none =>
      match any with
      | .map m =>
        match lookup seg m with
        | some next => Any.Get next rest
        | none => (.null, false)
      | _ => (.null, false)

/-- Go `Map.Get`: the first segment is always a key of the document. -/
def Map.Get (doc : Map) : List String → Any × Bool
  | [] => (.null, false)
  | seg :: rest =>
    match lookup seg doc with
    | some next => Any.Get next rest
    | none => (.null, false)

/-- The type assertion `data.(string)` with its zero value. -/
def asStr : Val → String
  | .str s => s
  | _ => ""

/-- The type assertion `data.(bool)` with its zero value. -/
def asBool : Val → Bool
  | .bool b => b
  | _ => false

/-- The type switch of `Any.Int64`. -/
def asInt64 : Val → Int
  | .int64 n => n
  | .int32 n => n
  | .int n => n
  | _ => 0

/-- The type switch of `Any.Uint64`; a signed value is converted modulo
`2^64`. -/
def asUint64 : Val → Nat
  | .int64 n => (n % 2 ^ 64).toNat
  | .int32 n => (n % 2 ^ 64).toNat
  | .int n => (n % 2 ^ 64).toNat
  | .uint64 n => n
  | .uint32 n => n
  | _ => 0

/-- The type assertion `data.([]interface{})`, an absent slice being empty. -/
def asSlice : Val → List Any
  | .seq xs => xs
  | _ => []

/-- The sorted keys of a value when it is a mapping. -/
def asKeys : Val → List String
  | .map m => sortStrings (m.map Prod.fst).dedup
  | _ => []

/-- Go `Any.Str`. -/
def Any.Str (any : Any) (path : List String) : String :=
  let r := Any.Get any path
  if r.2 then asStr r.1 else ""

/-- Go `Map.Str`. -/
def Map.Str (doc : Map) (path : List String) : String :=
  let r := Map.Get doc path
  if r.2 then asStr r.1 else ""

/-- Go `Any.Bool`. -/
def Any.Bool (any : Any) (path : List String) : Bool :=
  let r := Any.Get any path
  if r.2 then asBool r.1 else false

/-- Go `Any.Int64`. -/
def Any.Int64 (any : Any) (path : List String) : Int :=
  let r := Any.Get any path
  if r.2 then asInt64 r.1 else 0

/-- Go `Any.Uint64`. -/
def Any.Uint64 (any : Any) (path : List String) : Nat :=
  let r := Any.Get any path
  if r.2 then asUint64 r.1 else 0

/-- Go `Any.Slice`. -/
def Any.Slice (any : Any) (path : List String) : List Any :=
  let r := Any.Get any path
  if r.2 then asSlice r.1 else []

/-- Go `Map.Slice`. -/
def Map.Slice (doc : Map) (path : List String) : List Any :=
  let r := Map.Get doc path
  if r.2 then asSlice r.1 else []

/-- Go `Any.Keys`: the keys of the mapping at the path, sorted. -/
def Any.Keys (any : Any) (path : List String) : List String :=
  let r := Any.Get any path
  if r.2 then asKeys r.1 else []

/-- Go `Map.Keys`. -/
def Map.Keys (doc : Map) (path : List String) : List String :=
  let r := Map.Get doc path
  if r.2 then asKeys r.1 else []

/-! ## The model (`model.go`) -/

/-- Go struct `Contact`. -/
structure Contact where
  Name : String := ""
  URL : String := ""
  deriving DecidableEq

/-- Go struct `Server`. -/
structure Server where
  URL : String := ""
  Name : String := ""
  Description : String := ""
  deriving DecidableEq

/-- Go struct `Method`. -/
structure Method where
  APIName : String := ""
  GoName : String := ""
  JsName : String := ""
  Path : String := ""
  FrmwkPath : String := ""
  Summary : String := ""
  Description : String := ""
  HTTPMethod : String := ""
  InputType : String := ""
  OutputType : String := ""
  InputInBody : Bool := false
  SuccessfulStatus : Int := 0
  Source : String := ""
  deriving DecidableEq

/-- Go struct `RequiredIf`; `ToBe` holds a raw document value. -/
structure RequiredIf where
  Needs : String := ""
  ToBe : Val := .null

/-- Go struct `Param`.  The fields of type `interface{}` hold a document
value, `null` standing for the untyped `nil`. -/
structure Param where
  APIName : String := ""
  SpecName : String := ""
  GoName : String := ""
  JsName : String := ""
  GoType : String := ""
  JsType : String := ""
  IsArray : Bool := false
  ArrayItemGoType : String := ""
  ArrayItemJsType : String := ""
  Required : Bool := false
  AllowEmpty : Bool := false
  Description : String := ""
  Deprecated : Bool := false
  In : String := ""
  Tags : String := ""
  Default : Val := .null
  MinItems : Val := .null
  MaxItems : Val := .null
  Minimum : Val := .null
  Maximum : Val := .null
  UniqueItems : Bool := false
  MinLength : Val := .null
  MaxLength : Val := .null
  ValidURL : Bool := false
  RequiredIf : RequiredIf := {}

/-- Go struct `Discriminator`; the mapping is listed by ascending key. -/
structure Discriminator where
  APIName : String := ""
  GoName : String := ""
  JsName : String := ""
  Mapping : List (String × String) := []
  deriving DecidableEq

/-- Go struct `Schema`. -/
structure Schema where
  APIName : String := ""
  GoName : String := ""
  JsName : String := ""
  Description : String := ""
  ErrorFormat : String := ""
  Params : List Param := []
  OneOf : List String := []
  AnyOf : List String := []
  AllOf : List String := []
  Discriminator : Discriminator := {}
  Source : String := ""

/-- Go struct `ConstValue`. -/
structure ConstValue where
  APIName : String := ""
  GoName : String := ""
  JsName : String := ""
  Description : String := ""
  deriving DecidableEq

/-- Go struct `Const`. -/
structure Const where
  Name : String := ""
  Values : List ConstValue := []
  Source : String := ""
  deriving DecidableEq

/-- Go struct `Spec`. -/
structure Spec where
  Doc : String := ""
  Dir : String := ""
  Title : String := ""
  GoName : String := ""
  JsName : String := ""
  deriving DecidableEq

/-- Go struct `API`; `RefDocs` is the map from a referenced file to its
parsed document. -/
structure API where
  Title : String := ""
  Description : String := ""
  GoName : String := ""
  JsName : String := ""
  Version : String := ""
  Contact : Contact := {}
  Servers : List Server := []
  Methods : List Method := []
  Schemas : List Schema := []
  Consts : List Const := []
  RefDocs : List (String × API) := []
  Specs : List Spec := []

/-! ## The parser (`parser.go`) -/

/-- The two ways a run ends without returning: a Go `panic`, and a recursion
that outruns the depth the model was given. -/
inductive Abort where
  | panic (msg : String)
  | outOfFuel
  deriving DecidableEq

deriving instance DecidableEq for Except

/-- The `error` values the parser returns, by the format string that builds
them. -/
inductive ParseError where
  | invalidReference (ref path : String)
  | loadFailed (file : String) (cause : String)
  | refParseFailed (file : String) (cause : ParseError)
  | pathFailed (path : String) (cause : ParseError)
  deriving DecidableEq

/-- The file system as `loader.go` sees it: what `LoadYAML` and `LoadJSON`
return for a file name. -/
structure Loader where
  LoadYAML : String → Except String Map
  LoadJSON : String → Except String Map

/-- Go struct `parser`; `consts` is the map from constant name to constant. -/
structure parser where
  api : API
  doc : Map
  consts : List (String × Const)

/-- Assignment `m[k] = v` on a Go map kept as an association list. -/
def mapInsert {α : Type} (k : String) (v : α) : List (String × α) → List (String × α)
  | [] => [(k, v)]
  | (k', v') :: rest =>
    if k' = k then (k, v) :: rest else (k', v') :: mapInsert k v rest

/-- Membership test `_, ok := m[k]`. -/
def mapHas {α : Type} (k : String) : List (String × α) → Bool
  | [] => false
  | (k', _) :: rest => if k' = k then true else mapHas k rest

/-- Go `goName`. -/
def goName (name : String) : String :=
  Replace
    (Replace
      (Replace
        (Title (Replace (Replace name "_" " ") "-" " "))
        " " "")
      "Url" "URL")
    "Id" "ID"

/-- Go `jsConst`. -/
def jsConst (text : String) : String :=
  Replace (Replace (ToUpper text) " " "_") "-" ""

/-- Go `jsMethod`. -/
def jsMethod (text : String) : String :=
  Replace text "-" "_"

/-- The regular expression `externalRefRegex`, `^([^#]+)?(#.+)$`: the two
groups of a match.  The first group is what stands before the first `#`, the
second starts at that `#` and needs one more character and no line feed. -/
def externalRefMatch (ref : String) : Option (String × String) :=
  match ref.data.dropWhile (fun c => c ≠ '#') with
  | '#' :: f =>
    if f ≠ [] ∧ '\n' ∉ f then
      some (⟨ref.data.takeWhile (fun c => c ≠ '#')⟩, ⟨'#' :: f⟩)
    else none
  | _ => none

/-- The replacement `pathParamsRegex.ReplaceAllString(path, ":$1")` for the
expression `\x7b([^\x7d]+)\x7d`; the natural number bounds the steps. -/
def replacePathParams : Nat → List Char → List Char
  | 0, s => s
  | _ + 1, [] => []
  | n + 1, c :: cs =>
    if c = '\x7b' then
      match cs.takeWhile (fun d => d ≠ '\x7d'), cs.dropWhile (fun d => d ≠ '\x7d') with
      | g :: gs, '\x7d' :: rest => ':' :: (g :: gs) ++ replacePathParams n rest
      | _, _ => c :: replacePathParams n cs
    else c :: replacePathParams n cs

/-- The framework form of a path template. -/
def frmwkPath (path : String) : String :=
  ⟨replacePathParams path.data.length path.data⟩

mutual
/-- Nesting depth of a document value. -/
def Val.depth : Val → Nat
  | .seq xs => depthList xs + 1
  | .map kvs => depthKVs kvs + 1
  | _ => 0
/-- Largest depth in a sequence. -/
def depthList : List Val → Nat
  | [] => 0
  | x :: xs => max x.depth (depthList xs)
/-- Largest depth among the values of a mapping. -/
def depthKVs : List (String × Val) → Nat
  | [] => 0
  | (_, v) :: rest => max v.depth (depthKVs rest)
end

/-- Go `goType`, the recursion on the `items` node counted down by a natural
number. -/
def goTypeAux : Nat → String → Any → Bool → Except Abort (String × String)
  | 0, _, _, _ => .error .outOfFuel
  | fuel + 1, name, schema, req =>
    if schema.Str ["$ref"] ≠ "" then
      match externalRefMatch (schema.Str ["$ref"]) with
      | none => .error (.panic ("Invalid $ref format for " ++ name))
      | some (file, frag) =>
        let typeName := TrimPrefix frag "#/components/schemas/"
        let typeName :=
          if file ≠ "" then Base (Dir file) ++ "." ++ typeName else typeName
        if req ∨ (schema.Str ["type"] = "string" ∧ schema.Str ["format"] = "") then
          .ok (typeName, "")
        else .ok ("*" ++ typeName, "")
    else if schema.Str ["type"] = "string" then
      if schema.Str ["format"] = "date" ∨ schema.Str ["format"] = "date-time" then
        if req then .ok ("time.Time", "") else .ok ("*time.Time", "")
      else if schema.Str ["format"] = "password" then .ok ("[]byte", "byte")
      else if (schema.Slice ["enum"]).length > 0 then
        if schema.Str ["x-enum-name"] ≠ "" then .ok (schema.Str ["x-enum-name"], "")
        else .ok (goName name, "")
      else .ok ("string", "")
    else if schema.Str ["type"] = "integer" then .ok (schema.Str ["format"], "")
    else if schema.Str ["type"] = "number" then
      if schema.Str ["format"] = "float" then .ok ("float32", "")
      else .ok ("float64", "")
    else if schema.Str ["type"] = "boolean" then
      if req then .ok ("bool", "") else .ok ("*bool", "")
    else if schema.Str ["type"] = "object" then .ok ("map[string]interface\x7b\x7d", "")
    else if schema.Str ["type"] = "array" then
      match schema.Get ["items"] with
      | (items, true) =>
        match goTypeAux fuel name items true with
        | .ok r => .ok ("[]" ++ r.1, r.1)
        | .error e => .error e
      | (_, false) => .ok ("[]interface\x7b\x7d", "interface\x7b\x7d")
    else .ok ("interface\x7b\x7d", "")

/-- Go `goType`: the type expression of convention A and the element type of
an array.  The recursion gets the depth of the node, which it cannot use up. -/
def goType (name : String) (schema : Any) (req : Bool) : Except Abort (String × String) :=
  goTypeAux (schema.depth + 1) name schema req

/-- Go `jsType`: the type expression of convention B and the element type of
an array. -/
def jsType (name : String) (schema : Any) (req : Bool) : String × String :=
  if schema.Str ["$ref"] ≠ "" then
    let typeName := TrimPrefix (schema.Str ["$ref"]) "#/components/schemas/"
    if req ∨ (schema.Str ["type"] = "string" ∧ schema.Str ["format"] = "") then
      (typeName, "")
    else ("?" ++ typeName, "")
  else if schema.Str ["type"] = "string" then
    if schema.Str ["format"] = "date" ∨ schema.Str ["format"] = "date-time" then
      if req then ("Date", "") else ("?Date", "")
    else if schema.Str ["format"] = "password" then ("string", "")
    else if (schema.Slice ["enum"]).length > 0 then
      if schema.Str ["x-enum-name"] ≠ "" then (schema.Str ["x-enum-name"], "")
      else (goName name, "")
    else ("string", "")
  else if schema.Str ["type"] = "integer" ∨ schema.Str ["type"] = "number" then
    ("number", "")
  else if schema.Str ["type"] = "boolean" then ("boolean", "")
  else if schema.Str ["type"] = "array" then
    let el := TrimPrefix (schema.Str ["items", "$ref"]) "#/components/schemas/"
    ("Array<" ++ el ++ ">", el)
  else ("any", "")

/-- Go `parseParamValidations`: the defaults and bounds of a parameter, by its
convention-A type. -/
def parseParamValidations (param : Param) (schema : Any) : Param :=
  let param :=
    if param.GoType = "string" then
      let param :=
        if (schema.Get ["default"]).2 then
          { param with Default := .str (asStr (schema.Get ["default"]).1) }
        else param
      let param :=
        if (schema.Get ["minLength"]).2 then
          { param with MinLength := .int64 (asInt64 (schema.Get ["minLength"]).1) }
        else param
      if (schema.Get ["maxLength"]).2 then
        { param with MaxLength := .int64 (asInt64 (schema.Get ["maxLength"]).1) }
      else param
    else if param.GoType = "int64" ∨ param.GoType = "int32" ∨ param.GoType = "uint64" ∨
        param.GoType = "uint32" ∨ param.GoType = "uint16" ∨ param.GoType = "uint8" then
      let param :=
        if (schema.Get ["default"]).2 then
          { param with Default := .int64 (asInt64 (schema.Get ["default"]).1) }
        else param
      let param :=
        if (schema.Get ["minimum"]).2 then
          { param with Minimum := .int64 (asInt64 (schema.Get ["minimum"]).1) }
        else param
      if (schema.Get ["maximum"]).2 then
        { param with Maximum := .int64 (asInt64 (schema.Get ["maximum"]).1) }
      else param
    else param
  let param :=
    if (schema.Get ["x-required-if"]).2 then
      let reqIf := (schema.Get ["x-required-if"]).1
      { param with
        RequiredIf := { Needs := reqIf.Str ["needs"], ToBe := (reqIf.Get ["to_be"]).1 } }
    else param
  { param with ValidURL := schema.Bool ["x-valid-url"] }

/-- The struct tags of a parameter, between back quotes. -/
def paramTags (tags : List String) : String :=
  "`" ++ Join tags " " ++ "`"

/-- Go `parseParam`: a path, query or header parameter. -/
def parseParam (schema : Any) (noJSON : Bool) : Except Abort Param :=
  let param : Param :=
    { APIName := schema.Str ["name"]
      SpecName := "\x7b" ++ schema.Str ["name"] ++ "\x7d"
      Required := schema.Bool ["required"]
      AllowEmpty := schema.Bool ["allowEmptyValue"]
      Description := schema.Str ["description"]
      Deprecated := schema.Bool ["deprecated"]
      In := schema.Str ["in"]
      IsArray := schema.Str ["schema", "type"] = "array" }
  let param := { param with GoName := goName param.APIName, JsName := param.APIName }
  let tags : List String :=
    if noJSON then ["json:\"-\""]
    else if !param.Required then ["json:\"" ++ param.APIName ++ ",omitempty\""]
    else ["json:\"" ++ param.APIName ++ "\""]
  let tags := tags ++ ["lambda:\"" ++ param.In ++ "." ++ param.APIName ++ "\""]
  let param := { param with Tags := paramTags tags }
  let schema := (schema.Get ["schema"]).1
  match goType param.APIName schema param.Required with
  | .error e => .error e
  | .ok g =>
    let j := jsType param.APIName schema param.Required
    .ok (parseParamValidations
      { param with
        GoType := g.1, ArrayItemGoType := g.2, JsType := j.1, ArrayItemJsType := j.2 }
      schema)

/-- Go `parseProp`: a property of an object schema. -/
def parseProp (name : String) (schema : Any) (req : Bool) : Except Abort Param :=
  let param : Param :=
    { APIName := name
      Required := req
      Description := schema.Str ["description"]
      Deprecated := schema.Bool ["deprecated"]
      IsArray := schema.Str ["type"] = "array" }
  let tags : List String :=
    if !param.Required then ["json:\"" ++ param.APIName ++ ",omitempty\""]
    else ["json:\"" ++ param.APIName ++ "\""]
  let param :=
    { param with Tags := paramTags tags, GoName := goName param.APIName, JsName := param.APIName }
  let typed : Except Abort Param :=
    if schema.Bool ["x-delay"] then .ok { param with GoType := "json.RawMessage" }
    else if schema.Bool ["additionalProperties"] then
      .ok { param with GoType := "map[string]interface\x7b\x7d" }
    else
      match goType param.APIName schema param.Required with
      | .error e => .error e
      | .ok g => .ok { param with GoType := g.1, ArrayItemGoType := g.2 }
  match typed with
  | .error e => .error e
  | .ok param =>
    let j := jsType param.APIName schema param.Required
    .ok (parseParamValidations { param with JsType := j.1, ArrayItemJsType := j.2 } schema)

/-- Go `parser.parseConst`: registers the enumeration of a node that has a
non-empty `enum` list, under the Go name of the property.  (The name read from
`custom-enum` is overwritten before it is used.) -/
def parseConst (p : parser) (propName : String) (prop : Any) : parser :=
  let enum := prop.Slice ["enum"]
  if enum.length = 0 then p
  else
    let customEnum := prop.Get ["custom-enum"]
    let constVals : List ConstValue :=
      if customEnum.2 then
        (customEnum.1.Keys ["options"]).map fun opt =>
          { APIName := opt
            GoName := customEnum.1.Str ["options", opt, "go_name"]
            JsName := customEnum.1.Str ["options", opt, "js_name"]
            Description := customEnum.1.Str ["options", opt, "description"] }
      else enum.map fun val => { APIName := val.Str [] }
    let constName := goName propName
    { p with consts := mapInsert constName { Name := constName, Values := constVals } p.consts }

/-- A Go `for ... range` loop whose body may abort: the body runs on every
element in order and hands the state on. -/
def forEach {κ σ : Type} (body : σ → κ → Except Abort σ) : List κ → σ → Except Abort σ
  | [], st => .ok st
  | k :: ks, st =>
    match body st k with
    | .error e => .error e
    | .ok st => forEach body ks st

/-- The body of the property loop of `parseSchema`: a property may register a
constant and gives one `Param`, appended to those built so far. -/
def parsePropStep (s : Any) (required : List String) (st : parser × List Param)
    (propName : String) : Except Abort (parser × List Param) :=
  let prop := (s.Get ["properties", propName]).1
  let p := parseConst st.1 propName prop
  match parseProp propName prop (decide (propName ∈ required)) with
  | .error e => .error e
  | .ok param => .ok (p, st.2 ++ [param])

/-- The names a composition list (`anyOf`, `allOf`, `oneOf`) refers to. -/
def refNames (s : Any) (name : String) : List String :=
  (s.Slice [name]).map fun refSchem =>
    TrimPrefix (refSchem.Str ["$ref"]) "#/components/schemas/"

/-- The `Discriminator` that `parseSchema` builds: the zero value without a
`discriminator` node, an empty mapping when none is declared. -/
def buildDiscriminator (s : Any) : Discriminator :=
  let disc := s.Get ["discriminator"]
  if disc.2 then
    let mapping :=
      if (disc.1.Get ["mapping"]).2 then
        (disc.1.Keys ["mapping"]).map fun val => (val, disc.1.Str ["mapping", val])
      else []
    { APIName := disc.1.Str ["propertyName"]
      GoName := goName (disc.1.Str ["propertyName"])
      JsName := disc.1.Str ["propertyName"]
      Mapping := mapping }
  else {}

/-- The `Schema` that `parseSchema` builds from an object definition and the
parameters of its properties. -/
def buildSchema (name : String) (s : Any) (params : List Param) : Schema :=
  { APIName := name
    GoName := name
    JsName := name
    Description := s.Str ["description"]
    ErrorFormat := s.Str ["x-go-error"]
    Params := params
    AnyOf := refNames s "anyOf"
    AllOf := refNames s "allOf"
    OneOf := refNames s "oneOf"
    Discriminator := buildDiscriminator s }

/-- Go `parser.parseSchema`: builds the `Schema` of an object definition and
appends it. -/
def parseSchema (p : parser) (name : String) (s : Any) : Except Abort parser :=
  let required := (s.Slice ["required"]).map fun param => param.Str []
  match forEach (parsePropStep s required) (s.Keys ["properties"]) (p, []) with
  | .error e => .error e
  | .ok (p, params) =>
    .ok { p with api := { p.api with Schemas := p.api.Schemas ++ [buildSchema name s params] } }

/-- The body of the loop of `parser.parseSchemas` for one name. -/
def parseSchemaEntry (p : parser) (name : String) : Except Abort parser :=
  let s := (p.doc.Get ["components", "schemas", name]).1
  if s.Str ["type"] = "object" then parseSchema p name s
  else if s.Str ["type"] = "string" then .ok (parseConst p name s)
  else .ok p

/-- Go `parser.parseSchemas`: the loop over the sorted names. -/
def parseSchemas (p : parser) : Except Abort parser :=
  forEach parseSchemaEntry (p.doc.Keys ["components", "schemas"]) p

/-- Go `parser.parseServers`. -/
def parseServers (p : parser) : parser :=
  let servers : List Server :=
    (p.doc.Slice ["servers"]).map fun server =>
      { URL := server.Str ["url"]
        Name := Title (server.Str ["x-name"])
        Description := server.Str ["description"] }
  { p with api := { p.api with Servers := p.api.Servers ++ servers } }

/-- Go `inputType`. -/
def inputType (m : Any) : String :=
  let title := goName (m.Str ["operationId"])
  let inputName :=
    TrimPrefix (m.Str ["requestBody", "content", "application/json", "schema", "$ref"])
      "#/components/schemas/"
  if inputName = "" then title ++ "Input" else inputName

/-- Go `outputType`: every response key that starts with `2` overwrites the
name. -/
def outputType (m : Any) : String :=
  let title := goName (m.Str ["operationId"])
  (m.Keys ["responses"]).foldl
    (fun outputName status =>
      if HasPrefix status "2" then
        TrimPrefix (m.Str ["responses", status, "content", "application/json", "schema", "$ref"])
          "#/components/schemas/"
      else outputName)
    (title ++ "Output")

/-- The status loop of `parsePath`: every response key that starts with `2`
overwrites the status. -/
def successfulStatus (m : Any) : Int :=
  (m.Keys ["responses"]).foldl
    (fun status key => if HasPrefix key "2" then (Atoi key).1 else status)
    0

/-- Parses a list of parameter nodes, in order. -/
def parseParams (noJSON : Bool) : List Any → Except Abort (List Param)
  | [] => .ok []
  | x :: xs =>
    match parseParam x noJSON with
    | .error e => .error e
    | .ok param =>
      match parseParams noJSON xs with
      | .error e => .error e
      | .ok params => .ok (param :: params)

/-- The loop of `parsePath` that folds the shared parameters into every
schema named like the input type. -/
def mergeCommonParams (commonParams : List Any) (inputType : String) :
    List Schema → Except Abort (List Schema)
  | [] => .ok []
  | schema :: rest =>
    let merged : Except Abort Schema :=
      if schema.GoName = inputType then
        match parseParams true commonParams with
        | .error e => .error e
        | .ok params => .ok { schema with Params := schema.Params ++ params }
      else .ok schema
    match merged with
    | .error e => .error e
    | .ok schema =>
      match mergeCommonParams commonParams inputType rest with
      | .error e => .error e
      | .ok rest => .ok (schema :: rest)

/-- The `Method` that `parsePath` builds for an operation. -/
def buildMethod (path method : String) (m : Any) : Method :=
  { APIName := m.Str ["operationId"]
    GoName := goName (m.Str ["operationId"])
    JsName := jsMethod (m.Str ["operationId"])
    Path := path
    FrmwkPath := frmwkPath path
    HTTPMethod := ToUpper method
    Summary := m.Str ["summary"]
    Description := m.Str ["description"]
    InputType := inputType m
    OutputType := outputType m
    InputInBody := (m.Get ["requestBody"]).2
    SuccessfulStatus := successfulStatus m }

/-- The input `Schema` that `parsePath` synthesizes for an operation without a
request body. -/
def buildInputSchema (apiMethod : Method) (params : List Param) : Schema :=
  { APIName := apiMethod.APIName
    GoName := apiMethod.InputType
    JsName := apiMethod.InputType
    Params := params }

/-- The body of the loop of `parsePath` for one key of the path entry. -/
def parseMethod (p : parser) (path : String) (subDoc : Any) (commonParams : List Any)
    (method : String) : Except Abort parser :=
  let m := (subDoc.Get [method]).1
  if m.Str ["operationId"] = "" then .ok p
  else
    let apiMethod := buildMethod path method m
    let p := { p with api := { p.api with Methods := p.api.Methods ++ [apiMethod] } }
    if apiMethod.InputInBody then
      if commonParams.length > 0 then
        match mergeCommonParams commonParams apiMethod.InputType p.api.Schemas with
        | .error e => .error e
        | .ok schemas => .ok { p with api := { p.api with Schemas := schemas } }
      else .ok p
    else
      match parseParams false (commonParams ++ m.Slice ["parameters"]) with
      | .error e => .error e
      | .ok params =>
        .ok { p with
              api := { p.api with Schemas := p.api.Schemas ++ [buildInputSchema apiMethod params] } }

/-- What `ParseDoc` returns: the document built so far and the error, unless
the run aborts. -/
abbrev Parsed := Except Abort (API × Option ParseError)

/-- The branch of `parsePath` for a path entry that is a reference to another
file; `parseRef` is `ParseDoc` for the referenced document. -/
def parsePathRef (fs : Loader) (parseRef : Map → Parsed) (p : parser) (path ref : String) :
    Except Abort (parser × Option ParseError) :=
  match externalRefMatch ref with
  | none => .ok (p, some (.invalidReference ref path))
  | some (file, _) =>
    if mapHas file p.api.RefDocs then .ok (p, none)
    else
      let loaded := if HasPrefix file ".json" then fs.LoadJSON file else fs.LoadYAML file
      match loaded with
      | .error cause => .ok (p, some (.loadFailed file cause))
      | .ok refDoc =>
        match parseRef refDoc with
        | .error a => .error a
        | .ok (_, some e) => .ok (p, some (.refParseFailed file e))
        | .ok (refAPI, none) =>
          .ok ({ p with
                 api :=
                   { p.api with
                     RefDocs := mapInsert file refAPI p.api.RefDocs
                     Schemas := p.api.Schemas ++ refAPI.Schemas
                     Methods := p.api.Methods ++ refAPI.Methods
                     Consts := p.api.Consts ++ refAPI.Consts } }, none)

/-- Go `parser.parsePath`. -/
def parsePath (fs : Loader) (parseRef : Map → Parsed) (p : parser) (path : String)
    (subDoc : Any) : Except Abort (parser × Option ParseError) :=
  if subDoc.Str ["$ref"] ≠ "" then parsePathRef fs parseRef p path (subDoc.Str ["$ref"])
  else
    match forEach (fun p method => parseMethod p path subDoc (subDoc.Slice ["parameters"]) method)
        (subDoc.Keys []) p with
    | .error a => .error a
    | .ok p => .ok (p, none)

/-- The loop of `parser.parsePaths` over the sorted paths; it stops at the
first error. -/
def parsePathsLoop (fs : Loader) (parseRef : Map → Parsed) :
    List String → parser → Except Abort (parser × Option ParseError)
  | [], p => .ok (p, none)
  | path :: rest, p =>
    match parsePath fs parseRef p path (p.doc.Get ["paths", path]).1 with
    | .error a => .error a
    | .ok (p, some e) => .ok (p, some (.pathFailed path e))
    | .ok (p, none) => parsePathsLoop fs parseRef rest p

/-- Go `parser.parsePaths`. -/
def parsePaths (fs : Loader) (parseRef : Map → Parsed) (p : parser) :
    Except Abort (parser × Option ParseError) :=
  parsePathsLoop fs parseRef (p.doc.Keys ["paths"]) p

/-- The names `parseEnums` gives to a value that has none. -/
def nameValue (name : String) (val : ConstValue) : ConstValue :=
  let val := if val.GoName = "" then { val with GoName := name ++ goName val.APIName } else val
  if val.JsName = "" then { val with JsName := jsConst val.APIName } else val

/-- Go `parser.parseEnums`: the registered constants by ascending name, their
values named. -/
def parseEnums (p : parser) : parser :=
  let constNames := sortStrings (p.consts.map Prod.fst)
  let consts : List Const :=
    constNames.map fun name =>
      let c : Const := ((p.consts.lookup name).getD {})
      { c with Values := c.Values.map (nameValue name) }
  { p with api := { p.api with Consts := p.api.Consts ++ consts } }

/-- The body of `ParseDoc`, given `ParseDoc` for referenced documents. -/
def parseDocWith (fs : Loader) (parseRef : Map → Parsed) (doc : Map) : Parsed :=
  let title := doc.Str ["info", "title"]
  let api : API :=
    { Title := title
      Description := doc.Str ["info", "description"]
      GoName := Replace title " " ""
      JsName := ToLower (Replace title " " "")
      Version := doc.Str ["info", "version"]
      Contact :=
        { Name := doc.Str ["info", "contact", "name"]
          URL := doc.Str ["info", "contact", "url"] }
      RefDocs := [] }
  let p : parser := { api := api, doc := doc, consts := [] }
  let p := parseServers p
  match parseSchemas p with
  | .error a => .error a
  | .ok p =>
    match parsePaths fs parseRef p with
    | .error a => .error a
    | .ok (p, some e) => .ok (p.api, some e)
    | .ok (p, none) => .ok ((parseEnums p).api, none)

/-- Go `ParseDoc`.  The natural number is the depth of references to other
files the run may follow; one more reference aborts it, as the call stack
would. -/
def ParseDoc (fs : Loader) : Nat → Map → Parsed
  | 0, doc => parseDocWith fs (fun _ => .error .outOfFuel) doc
  | fuel + 1, doc => parseDocWith fs (ParseDoc fs fuel) doc

/-! ## What the parser never undoes -/

/-- A schema of that name has that parameter. -/
def HasParam (name : String) (P : Param) (l : List Schema) : Prop :=
  ∃ s ∈ l, s.GoName = name ∧ P ∈ s.Params

/-- The second parser state extends the first: the same document, every
method still there, and every parameter still in a schema of its name. -/
structure Ext (p q : parser) : Prop where
  doc : q.doc = p.doc
  methods : ∀ m ∈ p.api.Methods, m ∈ q.api.Methods
  params : ∀ name P, HasParam name P p.api.Schemas → HasParam name P q.api.Schemas

/-- What the property loop keeps: the document, the model, and the parameters
built so far. -/
def PropsExt (st st' : parser × List Param) : Prop :=
  st'.1.doc = st.1.doc ∧ st'.1.api = st.1.api ∧ ∀ P ∈ st.2, P ∈ st'.2

/-! ## Reading a result -/

/-- The methods of a run that returned without error. -/
def methodsOf (r : Parsed) : Option (List Method) :=
  match r with
  | .ok (api, none) => some api.Methods
  | _ => none

/-- Name, parameter names and convention-A parameter types of the schemas of a
run that returned without error. -/
def schemaTypesOf (r : Parsed) : Option (List (String × List (String × String))) :=
  match r with
  | .ok (api, none) =>
    some (api.Schemas.map fun s => (s.GoName, s.Params.map fun P => (P.APIName, P.GoType)))
  | _ => none

/-- The constants of a run that returned without error. -/
def constsOf (r : Parsed) : Option (List Const) :=
  match r with
  | .ok (api, none) => some api.Consts
  | _ => none

/-- The document a run returned, the empty document for a run that aborted. -/
def apiOf (r : Parsed) : API :=
  match r with
  | .ok (api, _) => api
  | .error _ => { RefDocs := [] }

/-- Whether a run returned without error. -/
def parsedOk (r : Parsed) : Bool :=
  match r with
  | .ok (_, none) => true
  | _ => false

/-- The state a step returned without error, the given state otherwise. -/
def stateOf (p : parser) (r : Except Abort (parser × Option ParseError)) : parser :=
  match r with
  | .ok (q, none) => q
  | _ => p

/-- Whether a step returned without error. -/
def returnedOk (r : Except Abort (parser × Option ParseError)) : Bool :=
  match r with
  | .ok (_, none) => true
  | _ => false

/-- Name and parameter names of the schemas of a parser state. -/
def schemaParamsIn (p : parser) : List (String × List String) :=
  p.api.Schemas.map fun s => (s.GoName, s.Params.map fun P => P.APIName)

/-! ## Example documents -/

/-- A file system without files. -/
def noFiles : Loader :=
  { LoadYAML := fun _ => .error "no such file"
    LoadJSON := fun _ => .error "no such file" }

/-- A file system whose every YAML file holds an empty mapping. -/
def emptyFiles : Loader :=
  { LoadYAML := fun _ => .ok []
    LoadJSON := fun _ => .error "no such file" }

/-- A content node whose `application/json` schema refers to a schema of the
document. -/
def jsonRef (x : String) : Any :=
  .map [("content", .map [("application/json",
    .map [("schema", .map [("$ref", .str ("#/components/schemas/" ++ x))])])])]

/-- The operation `CreateWidget`: a request body of type `WidgetInput` and a
`201` response of type `WidgetOutput`. -/
def createWidget : Any :=
  .map [("operationId", .str "CreateWidget"),
    ("requestBody", jsonRef "WidgetInput"),
    ("responses", .map [("201", jsonRef "WidgetOutput")])]

/-- A document with the operation `CreateWidget` under `post`. -/
def widgetDoc : Map :=
  [("paths", .map [("/widgets", .map [("post", createWidget)])])]

/-- The same operation in a path entry that is a reference to another file. -/
def widgetRefDoc : Map :=
  [("paths", .map [("/widgets",
    .map [("$ref", .str "shared.yaml#/paths/widgets"), ("post", createWidget)])])]

/-- A path or query parameter of type string. -/
def stringParam (name place : String) : Any :=
  .map [("name", .str name), ("in", .str place), ("required", .bool true),
    ("schema", .map [("type", .str "string")])]

/-- The operation `ListWidgets`: no request body, one parameter of its own. -/
def listWidgets : Any :=
  .map [("operationId", .str "ListWidgets"),
    ("parameters", .seq [stringParam "limit" "query"]),
    ("responses", .map [("200", jsonRef "WidgetList")])]

/-- A path entry with two shared parameters and the operation `ListWidgets`. -/
def sharedParamsItem : Any :=
  .map [("parameters", .seq [stringParam "tenant" "path", stringParam "region" "path"]),
    ("get", listWidgets)]

/-- The same path entry as a reference to another file. -/
def sharedParamsRefItem : Any :=
  .map [("$ref", .str "shared.yaml#/paths/widgets"),
    ("parameters", .seq [stringParam "tenant" "path", stringParam "region" "path"]),
    ("get", listWidgets)]

/-- The parser state at the start of a document. -/
def startOf (doc : Map) : parser :=
  { api := { RefDocs := [] }, doc := doc, consts := [] }

/-- An operation with the responses `200` and `201`. -/
def twoStatusOp : Any :=
  .map [("operationId", .str "PutWidget"),
    ("requestBody", jsonRef "WidgetInput"),
    ("responses", .map [("200", jsonRef "WidgetOutput"), ("201", jsonRef "WidgetOutput")])]

/-- A document with that operation under `put`. -/
def twoStatusDoc : Map :=
  [("paths", .map [("/widgets", .map [("put", twoStatusOp)])])]

/-- An operation whose only response is a bare `204`. -/
def deleteWidget : Any :=
  .map [("operationId", .str "DeleteWidget"),
    ("responses", .map [("204", .map [("description", .str "deleted")])])]

/-- A node that is just a reference to the schema `Widget`. -/
def widgetRef : Any :=
  .map [("$ref", .str "#/components/schemas/Widget")]

/-- A string node of format date-time. -/
def dateTimeNode : Any :=
  .map [("type", .str "string"), ("format", .str "date-time")]

/-- An array of strings. -/
def stringArray : Any :=
  .map [("type", .str "array"), ("items", .map [("type", .str "string")])]

/-- An array of arrays of strings. -/
def nestedArray : Any :=
  .map [("type", .str "array"), ("items", stringArray)]

/-- An array of booleans. -/
def boolArray : Any :=
  .map [("type", .str "array"), ("items", .map [("type", .str "boolean")])]

/-- A document that defines the string enumeration `Color` and an object
`Widget` with an optional property that refers to it. -/
def colorDoc : Map :=
  [("components", .map [("schemas", .map [
    ("Color", .map [("type", .str "string"), ("enum", .seq [.str "red", .str "green"])]),
    ("Widget", .map [("type", .str "object"),
      ("properties", .map [("color", .map [("$ref", .str "#/components/schemas/Color")])])])])])]

/-! ## Order of keys -/

/-- Strictly ascending in the order of `sort.Strings`. -/
def StrictAsc (l : List String) : Prop :=
  l.Pairwise fun a b => ltChars a.data b.data = true

/-! ## Where the type mapper aborts -/

/-- A reference that `externalRefRegex` matches: `P#F` with `P` free of `#`,
`F` non-empty and free of line feeds. -/
def WellFormedRef (ref : String) : Prop :=
  ∃ P F : List Char, ref.data = P ++ '#' :: F ∧ '#' ∉ P ∧ F ≠ [] ∧ '\n' ∉ F

/-- The nodes on which `goType` aborts: a malformed reference on the node, or
an array without reference whose items node is one of them. -/
inductive GoTypeAborts : Any → Prop where
  | ref (node : Any) : node.Str ["$ref"] ≠ "" → ¬ WellFormedRef (node.Str ["$ref"]) →
      GoTypeAborts node
  | items (node items : Any) : node.Str ["$ref"] = "" → node.Str ["type"] = "array" →
      node.Get ["items"] = (items, true) → GoTypeAborts items → GoTypeAborts node

/-- An array whose items node is a reference without `#`. -/
def badItemsArray : Any :=
  .map [("type", .str "array"), ("items", .map [("$ref", .str "Widget")])]

/-! ## The model of a document without path-level references -/

/-- No path entry of the document is a reference to another file. -/
def NoPathRefs (doc : Map) : Prop :=
  ∀ path ∈ doc.Keys ["paths"], (doc.Get ["paths", path]).1.Str ["$ref"] = ""

/-- One `Method` for every key of a path entry, in the order of `Keys`, whose
value has a non-empty operation identifier. -/
def methodsOfItem (path : String) (item : Any) : List Method :=
  (item.Keys []).flatMap fun key =>
    if (item.Get [key]).1.Str ["operationId"] = "" then []
    else [buildMethod path key (item.Get [key]).1]

/-- One `Method` for every operation of the document, path by path in the
order of `Keys`. -/
def methodsOfDoc (doc : Map) : List Method :=
  (doc.Keys ["paths"]).flatMap fun path => methodsOfItem path (doc.Get ["paths", path]).1

/-- The input type of every operation of a path entry that has no request
body, in the order of `Keys`. -/
def inputNamesOfItem (item : Any) : List String :=
  (item.Keys []).flatMap fun key =>
    if (item.Get [key]).1.Str ["operationId"] = "" then []
    else if ((item.Get [key]).1.Get ["requestBody"]).2 = true then []
    else [inputType (item.Get [key]).1]

/-- The input type of every operation of the document that has no request
body. -/
def inputNamesOfDoc (doc : Map) : List String :=
  (doc.Keys ["paths"]).flatMap fun path => inputNamesOfItem (doc.Get ["paths", path]).1

/-- The entries of `components.schemas` of type object, in the order of
`Keys`. -/
def objectNames (doc : Map) : List String :=
  (doc.Keys ["components", "schemas"]).filter fun name =>
    (doc.Get ["components", "schemas", name]).1.Str ["type"] = "object"

/-- The map of registered constants is keyed by the names of its constants,
each once. -/
def ConstsWF (cs : List (String × Const)) : Prop :=
  (cs.map Prod.fst).Nodup ∧ ∀ kc ∈ cs, kc.2.Name = kc.1

/-! ## More example documents -/

/-- A string schema whose enum lists `a_b`, `a-b` and `ab`. -/
def clashingEnum : Any :=
  .map [("type", .str "string"), ("enum", .seq [.str "a_b", .str "a-b", .str "ab"])]

/-- A document that defines that enumeration as `Status`. -/
def clashingEnumDoc : Map :=
  [("components", .map [("schemas", .map [("Status", clashingEnum)])])]

/-- A string schema whose enum lists `red` and `green`. -/
def colorEnum : Any :=
  .map [("type", .str "string"), ("enum", .seq [.str "red", .str "green"])]

/-- The identifiers of the values of the constants of a run that returned
without error: name of the constant, then per value the raw value and the two
identifiers. -/
def constNamesOf (r : Parsed) : Option (List (String × List (String × String × String))) :=
  match r with
  | .ok (api, none) =>
    some (api.Consts.map fun c =>
      (c.Name, c.Values.map fun v => (v.APIName, v.GoName, v.JsName)))
  | _ => none

/-! ## Registered constants -/

instance NoPathRefs_decidable (doc : Map) : Decidable (NoPathRefs doc) :=
  inferInstanceAs (Decidable (∀ path ∈ doc.Keys ["paths"],
    (doc.Get ["paths", path]).1.Str ["$ref"] = ""))

instance StrictAsc_decidable (l : List String) : Decidable (StrictAsc l) :=
  inferInstanceAs (Decidable (l.Pairwise fun (a b : String) => ltChars a.data b.data = true))

/-- A string entry with three enum values and a `custom-enum` that has one
option. -/
def customEnumDoc : Map :=
  [("components", .map [("schemas", .map [
    ("Status", .map [("type", .str "string"),
      ("enum", .seq [.str "active", .str "paused", .str "closed"]),
      ("custom-enum", .map [("name", .str "Status"),
        ("options", .map [("active", .map [("go_name", .str "StatusActive"),
          ("js_name", .str "ACTIVE")])])])])])])]

/-- A document with the string enumerations `Shade` and `Color` and an object
`Widget` whose property `size` has an enum. -/
def enumsDoc : Map :=
  [("components", .map [("schemas", .map [
    ("Shade", .map [("type", .str "string"), ("enum", .seq [.str "dark", .str "light"])]),
    ("Color", colorEnum),
    ("Widget", .map [("type", .str "object"),
      ("properties", .map [("size", .map [("type", .str "string"),
        ("enum", .seq [.str "small", .str "large"])])])])])])]

/-- A document with three operations on `/widgets` and one on `/gadgets`. -/
def crudDoc : Map :=
  [("paths", .map [
    ("/widgets", .map [("post", createWidget), ("get", listWidgets),
      ("delete", deleteWidget)]),
    ("/gadgets", .map [("get", .map [("operationId", .str "ListGadgets")])])])]

/-- A document that defines the object `ListWidgetsInput` and has the
operation `ListWidgets` without request body. -/
def sameNameDoc : Map :=
  [("components", .map [("schemas", .map [
    ("ListWidgetsInput", .map [("type", .str "object")])])]),
   ("paths", .map [("/widgets", .map [("get", listWidgets)])])]

/-- The names of the schemas of a run that returned without error. -/
def schemaNamesOf (r : Parsed) : Option (List String) :=
  match r with
  | .ok (api, none) => some (api.Schemas.map fun s => s.GoName)
  | _ => none

/-! ## Shared parameters -/

/-- Appends parameters to a schema of the given name and leaves every other
schema as it is. -/
def appendParams (name : String) (added : List Param) (sch : Schema) : Schema :=
  if sch.GoName = name then { sch with Params := sch.Params ++ added } else sch

/-- The number of operations of a path entry: its keys whose value has a
non-empty operation identifier. -/
def operationCount (item : Any) : Nat :=
  ((item.Keys []).filter fun key => (item.Get [key]).1.Str ["operationId"] ≠ "").length

/-- The parameters of a list that was parsed without abort. -/
def paramsOf (r : Except Abort (List Param)) : List Param :=
  match r with
  | .ok params => params
  | .error _ => []

/-- The parser state of an empty document that has built the given schemas. -/
def startWith (schemas : List Schema) : parser :=
  { api := { Schemas := schemas, RefDocs := [] }, doc := [], consts := [] }

/-- A path entry with two shared parameters and two operations whose request
body is `WidgetInput`. -/
def twoBodiesItem : Any :=
  .map [("parameters", .seq [stringParam "tenant" "path", stringParam "region" "path"]),
    ("post", createWidget), ("put", twoStatusOp)]

/-- The same path entry as a reference to another file. -/
def twoBodiesRefItem : Any :=
  .map [("$ref", .str "shared.yaml#/paths/widgets"),
    ("parameters", .seq [stringParam "tenant" "path", stringParam "region" "path"]),
    ("post", createWidget), ("put", twoStatusOp)]

/-- The schemas built before the path: `WidgetInput` with the parameter `name`
and `WidgetOutput` with the parameter `id`. -/
def widgetSchemas : List Schema :=
  [{ APIName := "WidgetInput", GoName := "WidgetInput", JsName := "WidgetInput",
     Params := [{ APIName := "name" }] },
   { APIName := "WidgetOutput", GoName := "WidgetOutput", JsName := "WidgetOutput",
     Params := [{ APIName := "id" }] }]

/-! ## The command (`main.go`): merging input documents -/

/-- Go `strings.HasSuffix(s, suffix)`. -/
def HasSuffix (s suffix : String) : Bool :=
  (dropLeading suffix.data.reverse s.data.reverse).isSome

/-- The `error` values of `loadAndParse`: the loader failed (`failed loading
spec`), or `ParseDoc` returned an error. -/
inductive SpecError where
  | loadingSpec (cause : String)
  | parsing (cause : ParseError)
  deriving DecidableEq

/-- The `error` value of `mergeSpecs`, `failed parsing <doc>`. -/
inductive MergeError where
  | failedParsing (doc : String) (cause : SpecError)
  deriving DecidableEq

/-- Go `loadAndParse`.  A path that ends neither in `.yaml` nor in `.json`
leaves the document `nil`, which is parsed like an empty mapping. -/
def loadAndParse (fs : Loader) (fuel : Nat) (path : String) :
    Except Abort (API × Option SpecError) :=
  let loaded : Except String Map :=
    if HasSuffix path ".yaml" then fs.LoadYAML path
    else if HasSuffix path ".json" then fs.LoadJSON path
    else .ok []
  match loaded with
  | .error cause => .ok ({ RefDocs := [] }, some (.loadingSpec cause))
  | .ok doc =>
    match ParseDoc fs fuel doc with
    | .error a => .error a
    | .ok (api, some e) => .ok (api, some (.parsing e))
    | .ok (api, none) => .ok (api, none)

/-- The body of the loop of `mergeSpecs` for the document `doc` at index `i`,
parsed as `this`. -/
def mergeOne (api : API) (i : Nat) (doc : String) (this : API) : API :=
  let schemas := this.Schemas.map fun schema => { schema with Source := doc }
  let methods := this.Methods.map fun method => { method with Source := doc }
  let consts := this.Consts.map fun c => { c with Source := doc }
  let api : API :=
    if i = 0 then
      { api with
        Title := this.Title
        Description := this.Description
        GoName := this.GoName
        JsName := this.JsName
        Version := this.Version
        Contact := this.Contact
        Servers := api.Servers ++ this.Servers }
    else api
  { api with
    Methods := api.Methods ++ methods
    Schemas := api.Schemas ++ schemas
    Consts := api.Consts ++ consts
    RefDocs := this.RefDocs.foldl (fun m kv => mapInsert kv.1 kv.2 m) api.RefDocs
    Specs := api.Specs ++
      [{ Doc := doc
         Dir := Base (Dir doc)
         Title := this.Title
         GoName := this.GoName
         JsName := this.JsName }] }

/-- The loop of `mergeSpecs` from index `i` on; it returns at the first
document that fails. -/
def mergeLoop (fs : Loader) (fuel : Nat) :
    Nat → List String → API → Except Abort (API × Option MergeError)
  | _, [], api => .ok (api, none)
  | i, doc :: rest, api =>
    match loadAndParse fs fuel doc with
    | .error a => .error a
    | .ok (_, some e) => .ok (api, some (.failedParsing doc e))
    | .ok (this, none) => mergeLoop fs fuel (i + 1) rest (mergeOne api i doc this)

/-- The inner loop of Go's insertion sort on the part sorted so far, which is
kept last element first: the new element is swapped with its predecessor as
long as it is less. -/
def sinkLeft {α : Type} (less : α → α → Bool) (x : α) : List α → List α
  | [] => [x]
  | y :: ys => if less x y then y :: sinkLeft less x ys else x :: y :: ys

/-- Go `sort.Slice` as it runs on a slice of at most twelve elements, where
it is the insertion sort of package `sort`: element after element is sunk
into the sorted part before it.  On a longer slice the library runs a
quicksort, which returns a permutation in the same order up to the places of
elements that compare equal; `sort.Slice` promises no more than that. -/
def sortSlice {α : Type} (less : α → α → Bool) (xs : List α) : List α :=
  (xs.foldl (fun sorted x => sinkLeft less x sorted) []).reverse

/-- Go `mergeSpecs`.  The natural number is the one of `ParseDoc`. -/
def mergeSpecs (fs : Loader) (fuel : Nat) (docs : List String) :
    Except Abort (API × Option MergeError) :=
  match mergeLoop fs fuel 0 docs { RefDocs := [] } with
  | .error a => .error a
  | .ok (api, some e) => .ok (api, some e)
  | .ok (api, none) =>
    .ok ({ api with
           Specs := sortSlice (fun a b => ltChars a.Dir.data b.Dir.data) api.Specs }, none)

/-! ## Reading a merge -/

/-- The document `loadAndParse` returned, the empty document for a run that
aborted. -/
def parsedAs (r : Except Abort (API × Option SpecError)) : API :=
  match r with
  | .ok (api, _) => api
  | .error _ => { RefDocs := [] }

/-- Whether `loadAndParse` returned without error. -/
def parses (r : Except Abort (API × Option SpecError)) : Bool :=
  match r with
  | .ok (_, none) => true
  | _ => false

/-- The document `mergeSpecs` returned, the empty document for a run that
aborted. -/
def mergedOf (r : Except Abort (API × Option MergeError)) : API :=
  match r with
  | .ok (api, _) => api
  | .error _ => { RefDocs := [] }

/-- The manifest entry `mergeSpecs` records for an input document. -/
def manifestEntry (fs : Loader) (fuel : Nat) (doc : String) : Spec :=
  { Doc := doc
    Dir := Base (Dir doc)
    Title := (parsedAs (loadAndParse fs fuel doc)).Title
    GoName := (parsedAs (loadAndParse fs fuel doc)).GoName
    JsName := (parsedAs (loadAndParse fs fuel doc)).JsName }

/-- The order of the manifest: ascending directory name. -/
def DirLe (a b : Spec) : Prop := strLe a.Dir b.Dir

instance DirLe_decidable : DecidableRel DirLe :=
  fun a b => inferInstanceAs (Decidable (strLe a.Dir b.Dir))

/-- A document that declares one server, of the given address. -/
def serverDoc (url : String) : Map :=
  [("info", .map [("title", .str url)]),
   ("servers", .seq [.map [("url", .str url)]])]

/-- A file system whose every YAML file declares one server, named after the
file. -/
def serverFiles : Loader :=
  { LoadYAML := fun path => .ok (serverDoc path)
    LoadJSON := fun _ => .error "no such file" }

/-- A file system with a document of widgets and a document of enumerations. -/
def twoFiles : Loader :=
  { LoadYAML := fun path =>
      if path = "api/widgets.yaml" then .ok crudDoc
      else if path = "types/enums.yaml" then .ok enumsDoc
      else .error "no such file"
    LoadJSON := fun _ => .error "no such file" }

/-! ## The command (`main.go`): comment reflow

`wrappedComment` cuts its text at byte offsets and looks at runes, so in this
section a Go string is the list of its bytes. -/

/-- A Go string as the bytes it holds. -/
abbrev Bytes := List Nat

/-- Go `utf8.RuneError`. -/
def RuneError : Char := Char.ofNat 0xFFFD

/-- Go `utf8.DecodeRuneInString`: the first rune of a string and its width in
bytes.  A byte that starts no well-formed encoding is the rune `RuneError` of
width 1. -/
def DecodeRune (p : Bytes) : Char × Nat :=
  match p with
  | [] => (RuneError, 0)
  | p0 :: rest =>
    if p0 < 0x80 then (Char.ofNat p0, 1)
    else if p0 < 0xC2 ∨ 0xF4 < p0 then (RuneError, 1)
    else
      let sz := if p0 < 0xE0 then 2 else if p0 < 0xF0 then 3 else 4
      let lo := if p0 = 0xE0 then 0xA0 else if p0 = 0xF0 then 0x90 else 0x80
      let hi := if p0 = 0xED then 0x9F else if p0 = 0xF4 then 0x8F else 0xBF
      match rest with
      | [] => (RuneError, 1)
      | b1 :: rest =>
        if b1 < lo ∨ hi < b1 then (RuneError, 1)
        else if sz ≤ 2 then (Char.ofNat (p0 % 32 * 64 + b1 % 64), 2)
        else
          match rest with
          | [] => (RuneError, 1)
          | b2 :: rest =>
            if b2 < 0x80 ∨ 0xBF < b2 then (RuneError, 1)
            else if sz ≤ 3 then (Char.ofNat (p0 % 16 * 4096 + b1 % 64 * 64 + b2 % 64), 3)
            else
              match rest with
              | [] => (RuneError, 1)
              | b3 :: _ =>
                if b3 < 0x80 ∨ 0xBF < b3 then (RuneError, 1)
                else
                  (Char.ofNat (p0 % 8 * 262144 + b1 % 64 * 4096 + b2 % 64 * 64 + b3 % 64), 4)

/-- The loop of the conversion `[]rune(s)`; the natural number bounds the
number of runes. -/
def runesAux : Nat → Bytes → List Char
  | 0, _ => []
  | _ + 1, [] => []
  | n + 1, b :: bs =>
    (DecodeRune (b :: bs)).1 :: runesAux n ((b :: bs).drop (DecodeRune (b :: bs)).2)

/-- Go `[]rune(s)`. -/
def runes (s : Bytes) : List Char := runesAux s.length s

/-- Go `s[:n]`, which panics when `n` is out of range. -/
def sliceTo (s : Bytes) (n : Int) : Except Abort Bytes :=
  if 0 ≤ n ∧ n ≤ s.length then .ok (s.take n.toNat)
  else .error (.panic "slice bounds out of range")

/-- Go `s[n:]`, which panics when `n` is out of range. -/
def sliceFrom (s : Bytes) (n : Int) : Except Abort Bytes :=
  if 0 ≤ n ∧ n ≤ s.length then .ok (s.drop n.toNat)
  else .error (.panic "slice bounds out of range")

/-- Go `rs[i]` on a slice of runes, which panics when `i` is out of range. -/
def runeAt (rs : List Char) (i : Int) : Except Abort Char :=
  if 0 ≤ i ∧ i < rs.length then .ok (rs.getD i.toNat RuneError)
  else .error (.panic "index out of range")

/-- The bytes of `"// "`. -/
def slashes : Bytes := [47, 47, 32]

/-- Go `strings.Join` on byte strings. -/
def joinBytes (xs : List Bytes) (sep : Bytes) : Bytes :=
  match xs with
  | [] => []
  | x :: rest => x ++ rest.flatMap fun y => sep ++ y

/-- Go `strings.TrimSuffix(s, "\n")`. -/
def trimNewline (s : Bytes) : Bytes :=
  if s.getLast? = some 10 then s.dropLast else s

/-- Go `strings.Replace(s, "\n", " ", -1)`. -/
def newlinesToSpaces (s : Bytes) : Bytes :=
  s.map fun b => if b = 10 then 32 else b

/-- The value a Go `int` holds after an operation whose exact result is `x`. -/
def wrap64 (x : Int) : Int := (x + 2 ^ 63) % 2 ^ 64 - 2 ^ 63

/-- The body of the loop of `wrappedComment`: the line it appends and the
text it leaves. -/
def wrapStep (indent : Bytes) (textLength : Int) (desc : Bytes) :
    Except Abort (Bytes × Bytes) := do
  let lastRune ← runeAt (runes (← sliceTo desc textLength)) (textLength - 1)
  let nextRune ← runeAt (runes (← sliceTo desc (textLength + 1))) textLength
  let desc ←
    if !isSpace lastRune && !isSpace nextRune then do
      let front ← sliceTo desc (textLength - 1)
      let back ← sliceFrom desc (textLength - 1)
      pure (front ++ [45] ++ back)
    else pure desc
  let line := indent ++ slashes ++ (← sliceTo desc textLength)
  let rest ← sliceFrom desc textLength
  pure (line, rest)

/-- The loop `for len(desc) > textLength` of `wrappedComment`; the natural
number bounds the number of iterations. -/
def wrapLoop (indent : Bytes) (textLength : Int) :
    Nat → Bytes → List Bytes → Except Abort (Bytes × List Bytes)
  | 0, desc, lines =>
    if (desc.length : Int) > textLength then .error .outOfFuel else .ok (desc, lines)
  | fuel + 1, desc, lines =>
    if (desc.length : Int) > textLength then
      match wrapStep indent textLength desc with
      | .error a => .error a
      | .ok (line, rest) => wrapLoop indent textLength fuel rest (lines ++ [line])
    else .ok (desc, lines)

/-- Go `wrappedComment`.  An iteration that does not abort leaves a shorter
text or the same text for ever, so the loop is given one iteration per byte
and one more. -/
def wrappedComment (lineLength : Int) (indent : Bytes) (args : List Bytes) :
    Except Abort Bytes :=
  let desc := joinBytes args []
  let desc := newlinesToSpaces (trimNewline desc)
  let textLength := wrap64 (wrap64 (lineLength - indent.length) - 3)
  match wrapLoop indent textLength (desc.length + 1) desc [] with
  | .error a => .error a
  | .ok (desc, lines) =>
    let lines := if desc.length > 0 then lines ++ [indent ++ slashes ++ desc] else lines
    .ok (joinBytes lines [10])

/-- The UTF-8 encoding of a code point, Go's conversion of a rune to a
string. -/
def encodeRune (r : Nat) : Bytes :=
  if r < 0x80 then [r]
  else if r < 0x800 then [0xC0 + r / 64, 0x80 + r % 64]
  else if r < 0x10000 then [0xE0 + r / 4096, 0x80 + r / 64 % 64, 0x80 + r % 64]
  else [0xF0 + r / 262144, 0x80 + r / 4096 % 64, 0x80 + r / 64 % 64, 0x80 + r % 64]

/-- The bytes of a string. -/
def bytesOf (s : String) : Bytes := s.data.flatMap fun c => encodeRune c.toNat

/-! ## The reflow in the words of the specification -/

/-- A piece of the text and whether a hyphen is put after it. -/
abbrev Piece := Bytes × Bool

/-- The body of a comment line: the piece, and the hyphen when one is put. -/
def pieceBody (p : Piece) : Bytes :=
  if p.2 then p.1 ++ [45] else p.1

/-- Whether a byte of ASCII text is white space. -/
def spaceByte (b : Nat) : Bool := isSpace (Char.ofNat b)

/-- The reflow of a text at text width `t`, as the specification describes it:
`Reflow t text pieces` says that the text not yet emitted is `text` and that it
is emitted as `pieces`.  A text of more than `t` bytes gives up its next `t`
bytes, or, exactly when its `t`-th and `(t+1)`-th bytes are both no white
space, its next `t - 1` bytes with a hyphen; a text of at most `t` bytes is the
final piece, and the empty text has no piece. -/
inductive Reflow (t : Nat) : Bytes → List Piece → Prop where
  | done : Reflow t [] []
  | final (text : Bytes) : text ≠ [] → text.length ≤ t → Reflow t text [(text, false)]
  | plain (text : Bytes) (a b : Nat) (ps : List Piece) : t < text.length →
      text.get? (t - 1) = some a → text.get? t = some b →
      ¬ (spaceByte a = false ∧ spaceByte b = false) →
      Reflow t (text.drop t) ps → Reflow t text ((text.take t, false) :: ps)
  | hyphen (text : Bytes) (a b : Nat) (ps : List Piece) : t < text.length →
      text.get? (t - 1) = some a → text.get? t = some b →
      spaceByte a = false ∧ spaceByte b = false →
      Reflow t (text.drop (t - 1)) ps → Reflow t text ((text.take (t - 1), true) :: ps)

/-- The text of the first test of `TestCommentDesc`. -/
def longText : String :=
  "this is a very long line that is expected to be wrapped according to the provided maximum line length lorem ipsum dolor sit amet"

/-- The comment the first test of `TestCommentDesc` expects. -/
def longComment : String :=
  "    // this is a very long line that is \n    // expected to be wrapped according \n    // to the provided maximum line len-\n    // gth lorem ipsum dolor sit amet"

/-! ## The schemas a path entry leaves -/

/-- Whether the key of a path entry holds an operation (a non-empty
operationId) with a request body whose input type is `name`: the operations
whose shared parameters `parsePath` folds into the schemas named `name`. -/
def mergesInto (item : Any) (name key : String) : Bool :=
  decide ((item.Get [key]).1.Str ["operationId"] ≠ "") &&
    ((item.Get [key]).1.Get ["requestBody"]).2 &&
    decide (inputType (item.Get [key]).1 = name)

/-- The number of those operations among the given keys. -/
def bodyCount (item : Any) (name : String) (keys : List String) : Nat :=
  (keys.filter (mergesInto item name)).length

/-- The shared parameters of a path entry as they are folded into a schema,
resolved without JSON tag. -/
def sharedParams (item : Any) : List Param :=
  paramsOf (parseParams true (item.Slice ["parameters"]))

/-- A schema after the operations under the given keys: the shared parameters
appended once for every operation that merges into its name. -/
def extendBy (item : Any) (keys : List String) (s : Schema) : Schema :=
  { s with
    Params := s.Params ++ (List.replicate (bodyCount item s.GoName keys) (sharedParams item)).flatten }

/-- Whether the key of a path entry holds an operation without request body. -/
def synthesizes (item : Any) (key : String) : Bool :=
  decide ((item.Get [key]).1.Str ["operationId"] ≠ "") &&
    !((item.Get [key]).1.Get ["requestBody"]).2

/-- The input schema synthesized for the operation under a key, as it is when
it is appended: the shared parameters, then the parameters of the operation. -/
def synthesizedInput (path : String) (item : Any) (key : String) : Schema :=
  buildInputSchema (buildMethod path key (item.Get [key]).1)
    (paramsOf (parseParams false
      (item.Slice ["parameters"] ++ (item.Get [key]).1.Slice ["parameters"])))

/-- The schemas synthesized for the operations under the given keys, as they
are after the last of them: each one extended by the operations after it. -/
def synthesizedBy (path : String) (item : Any) : List String → List Schema
  | [] => []
  | key :: keys =>
    (if synthesizes item key then [extendBy item keys (synthesizedInput path item key)] else [])
      ++ synthesizedBy path item keys

/-- A path entry with one shared parameter, the operation `Foo` without
request body under `delete`, and the operation `Bar` under `post` whose request
body refers to `FooInput`. -/
def laterBodyItem : Any :=
  .map [("parameters", .seq [stringParam "tenant" "path"]),
    ("delete", .map [("operationId", .str "Foo")]),
    ("post", .map [("operationId", .str "Bar"), ("requestBody", jsonRef "FooInput")])]

/-- A path entry with one shared parameter, `get` without request body and
`put` with a request body that refers to `WidgetInput`. -/
def mixedItem : Any :=
  .map [("parameters", .seq [stringParam "id" "path"]),
    ("get", listWidgets), ("put", twoStatusOp)]

/-- A path entry with one shared parameter and two operations with a request
body, `post` referring to `WidgetInput` and `put` to `WidgetOutput`. -/
def twoTargetsItem : Any :=
  .map [("parameters", .seq [stringParam "tenant" "path"]),
    ("post", createWidget),
    ("put", .map [("operationId", .str "ReplaceWidget"),
      ("requestBody", jsonRef "WidgetOutput")])]

/-- A path entry with one shared parameter and two operations with a request
body: `post` refers to `WidgetInput`, and the body of the operation `Widget`
under `put` is plain text and refers to no schema, so that its input type is
the default `WidgetInput`. -/
def defaultNameItem : Any :=
  .map [("parameters", .seq [stringParam "tenant" "path"]),
    ("post", createWidget),
    ("put", .map [("operationId", .str "Widget"),
      ("requestBody", .map [("content", .map [("text/plain", .map [])])])])]

/-! ## Registrations of one constant name -/

/-- The values `parseConst` registers for a node with a non-empty enum list:
the options of its `custom-enum` when it has one, the values of the enum list
otherwise. -/
def constValues (prop : Any) : List ConstValue :=
  if (prop.Get ["custom-enum"]).2 then
    ((prop.Get ["custom-enum"]).1.Keys ["options"]).map fun opt =>
      { APIName := opt
        GoName := (prop.Get ["custom-enum"]).1.Str ["options", opt, "go_name"]
        JsName := (prop.Get ["custom-enum"]).1.Str ["options", opt, "js_name"]
        Description := (prop.Get ["custom-enum"]).1.Str ["options", opt, "description"] }
  else (prop.Slice ["enum"]).map fun val => { APIName := val.Str [] }

/-- No node that `parseSchemas` visits after the entry `name` registers a
constant under the Go name of the entry: no later entry of type string with an
enum, and no property with an enum of a later entry of type object.  The
entries are visited in the order of `sort.Strings`. -/
def NoLaterRegistration (doc : Map) (name : String) : Prop :=
  ∀ n ∈ doc.Keys ["components", "schemas"], ltChars name.data n.data = true →
    ((doc.Get ["components", "schemas", n]).1.Str ["type"] = "string" →
      ((doc.Get ["components", "schemas", n]).1.Slice ["enum"]).length ≠ 0 →
      goName n ≠ goName name) ∧
    ((doc.Get ["components", "schemas", n]).1.Str ["type"] = "object" →
      ∀ pn ∈ (doc.Get ["components", "schemas", n]).1.Keys ["properties"],
        (((doc.Get ["components", "schemas", n]).1.Get ["properties", pn]).1.Slice
          ["enum"]).length ≠ 0 →
        goName pn ≠ goName name)

instance NoLaterRegistration_decidable (doc : Map) (name : String) :
    Decidable (NoLaterRegistration doc name) :=
  inferInstanceAs (Decidable (∀ n ∈ doc.Keys ["components", "schemas"],
    ltChars name.data n.data = true →
    ((doc.Get ["components", "schemas", n]).1.Str ["type"] = "string" →
      ((doc.Get ["components", "schemas", n]).1.Slice ["enum"]).length ≠ 0 →
      goName n ≠ goName name) ∧
    ((doc.Get ["components", "schemas", n]).1.Str ["type"] = "object" →
      ∀ pn ∈ (doc.Get ["components", "schemas", n]).1.Keys ["properties"],
        (((doc.Get ["components", "schemas", n]).1.Get ["properties", pn]).1.Slice
          ["enum"]).length ≠ 0 →
        goName pn ≠ goName name)))

/-- A document whose string entry `Color` lists `red` and `green`, and whose
later object entry `Widget` has a property `color` with the one enum value
`blue`. -/
def overwrittenEnumDoc : Map :=
  [("components", .map [("schemas", .map [
    ("Color", colorEnum),
    ("Widget", .map [("type", .str "object"),
      ("properties", .map [("color", .map [("type", .str "string"),
        ("enum", .seq [.str "blue"])])])])])])]

/-- A document whose object entry `Apple` has a property `color` with the one
enum value `blue`, and whose later string entry `Color` lists `red` and
`green`. -/
def earlierEnumDoc : Map :=
  [("components", .map [("schemas", .map [
    ("Apple", .map [("type", .str "object"),
      ("properties", .map [("color", .map [("type", .str "string"),
        ("enum", .seq [.str "blue"])])])]),
    ("Color", colorEnum)])])]

/-! ## Strings, references and the type mapper -/

theorem dropLeading_append (p s : List Char) : dropLeading p (p ++ s) = some s := by
  induction p with
  | nil => cases s <;> rfl
  | cons c cs ih => simp [dropLeading, ih]

theorem TrimPrefix_append (p x : String) : TrimPrefix (p ++ x) p = x := by
  unfold TrimPrefix
  rw [String.data_append, dropLeading_append]

theorem schemaRef_ne_empty (X : String) : "#/components/schemas/" ++ X ≠ "" := by
  intro h
  have h2 := congrArg String.data h
  rw [String.data_append] at h2
  have h3 : "#/components/schemas/".data = '#' :: "/components/schemas/".data := by decide
  rw [h3] at h2
  simp at h2

theorem externalRefMatch_hash (s : String) (f : List Char) (hs : s.data = '#' :: f)
    (hne : f ≠ []) (hnl : '\n' ∉ f) : externalRefMatch s = some ("", s) := by
  unfold externalRefMatch
  rw [hs]
  simp only [List.dropWhile, List.takeWhile, ne_eq, not_true_eq_false, decide_False, hne, hnl,
    not_false_eq_true, and_self, if_true]
  congr 1
  ext1
  · rfl
  · exact String.ext hs.symm

theorem schemaRef_data (X : String) :
    ("#/components/schemas/" ++ X).data = '#' :: ("/components/schemas/".data ++ X.data) := by
  rw [String.data_append]; rfl

theorem externalRefMatch_schemaRef (X : String) (hX : '\n' ∉ X.data) :
    externalRefMatch ("#/components/schemas/" ++ X) = some ("", "#/components/schemas/" ++ X) := by
  apply externalRefMatch_hash _ _ (schemaRef_data X)
  · intro h
    have := congrArg List.length h
    simp at this
  · intro h
    rcases List.mem_append.1 h with h | h
    · revert h; decide
    · exact hX h

theorem lookup_depth (k : String) : ∀ (kvs : Map) (v : Val), lookup k kvs = some v →
    v.depth ≤ depthKVs kvs := by
  intro kvs
  induction kvs with
  | nil => intro v h; simp [lookup] at h
  | cons kv rest ih =>
    intro v h
    obtain ⟨k1, v1⟩ := kv
    simp only [lookup] at h
    simp only [depthKVs]
    split_ifs at h with hk
    · cases h; exact le_max_left _ _
    · exact le_trans (ih v h) (le_max_right _ _)

theorem get_items_depth (schema items : Any) (h : schema.Get ["items"] = (items, true)) :
    items.depth + 1 ≤ schema.depth := by
  have hidx : idxMatch "items" = none := by decide
  cases schema <;> simp only [Any.Get, hidx] at h <;> try (cases h)
  rename_i kvs
  cases hl : lookup "items" kvs with
  | none => rw [hl] at h; cases h
  | some v =>
    rw [hl] at h
    simp only [Any.Get] at h
    cases h
    simp only [Val.depth]
    exact Nat.succ_le_succ (lookup_depth _ _ _ hl)

theorem goTypeAux_mono (name : String) : ∀ (n m : Nat) (s : Any) (req : Bool),
    goTypeAux n name s req ≠ .error .outOfFuel → n ≤ m →
    goTypeAux m name s req = goTypeAux n name s req := by
  intro n
  induction n with
  | zero => intro m s req h; exact absurd rfl h
  | succ n ih =>
    intro m s req h hle
    obtain ⟨m, rfl⟩ : ∃ k, m = k + 1 := ⟨m - 1, by omega⟩
    have hle2 : n ≤ m := by omega
    simp only [goTypeAux] at h ⊢
    split_ifs <;> try rfl
    all_goals (
      rcases hg : s.Get ["items"] with ⟨items, b⟩
      cases b
      · rfl
      · simp only []
        have hne : goTypeAux n name items true ≠ .error .outOfFuel := by
          intro hc
          apply h
          simp only [*, if_true, if_false, not_true_eq_false, not_false_eq_true, ne_eq]
          try simp_all
        rw [ih m items true hne hle2])

theorem goTypeAux_total (name : String) : ∀ (n : Nat) (s : Any) (req : Bool),
    s.depth + 1 ≤ n → goTypeAux n name s req ≠ .error .outOfFuel := by
  intro n
  induction n with
  | zero => intro s req h; omega
  | succ n ih =>
    intro s req hd
    simp only [goTypeAux]
    split_ifs <;> try (intro hc; cases hc)
    all_goals (first
      | (split <;> intro hc <;> cases hc)
      | (rcases hg : s.Get ["items"] with ⟨items, b⟩
         cases b
         · intro hc; cases hc
         · simp only []
           have hi := get_items_depth s items hg
           have hne := ih items true (by omega)
           cases hr : goTypeAux n name items true with
           | ok r => intro hc; cases hc
           | error e =>
             intro hc
             apply hne
             rw [hr]
             cases hc
             rfl))

theorem goType_ne_outOfFuel (name : String) (s : Any) (req : Bool) :
    goType name s req ≠ .error .outOfFuel :=
  goTypeAux_total name _ s req (le_refl _)

theorem goType_eq_aux (name : String) (s : Any) (req : Bool) (n : Nat) (h : s.depth + 1 ≤ n) :
    goTypeAux n name s req = goType name s req :=
  goTypeAux_mono name _ n s req (goType_ne_outOfFuel name s req) h

theorem goType_array_eq (name : String) (arr items : Any) (req : Bool)
    (hnoref : arr.Str ["$ref"] = "") (htype : arr.Str ["type"] = "array")
    (hitems : arr.Get ["items"] = (items, true)) :
    goType name arr req =
      match goType name items true with
      | .ok r => .ok ("[]" ++ r.1, r.1)
      | .error e => .error e := by
  have hd := get_items_depth arr items hitems
  have e : goTypeAux arr.depth name items true = goType name items true :=
    goType_eq_aux name items true _ hd
  unfold goType
  conv_lhs => unfold goTypeAux
  rw [← goType, hnoref, htype, hitems]
  simp only [ne_eq, not_true_eq_false, if_false, e]
  rfl

theorem goType_schemaRef (name X : String) (node : Any) (req : Bool) (hX : '\n' ∉ X.data)
    (href : node.Str ["$ref"] = "#/components/schemas/" ++ X) :
    goType name node req =
      .ok (if req = true ∨ (node.Str ["type"] = "string" ∧ node.Str ["format"] = "") then X
           else "*" ++ X, "") := by
  unfold goType goTypeAux
  rw [href, externalRefMatch_schemaRef X hX]
  simp only [ne_eq, schemaRef_ne_empty, not_false_eq_true, if_true, TrimPrefix_append,
    not_true_eq_false, if_false]
  split_ifs <;> rfl

theorem jsType_schemaRef (name X : String) (node : Any) (req : Bool)
    (href : node.Str ["$ref"] = "#/components/schemas/" ++ X) :
    jsType name node req =
      (if req = true ∨ (node.Str ["type"] = "string" ∧ node.Str ["format"] = "") then X
       else "?" ++ X, "") := by
  unfold jsType
  rw [href]
  simp only [ne_eq, schemaRef_ne_empty, not_false_eq_true, if_true, TrimPrefix_append]
  split_ifs <;> rfl

/-- Claim C5: a node whose `$ref` is `#/components/schemas/X` (X without line
feed) maps to `X` when the field is required, and when it is optional to the
nullable wrapper (`*X` in convention A, `?X` in convention B) unless the node
itself declares type string with no format, in which case it maps to `X`; the
array-element component is empty in every case. -/
theorem ref_type_expression (name X : String) (node : Any) (hX : '\n' ∉ X.data)
    (href : node.Str ["$ref"] = "#/components/schemas/" ++ X) :
    goType name node true = .ok (X, "") ∧
    goType name node false =
      .ok (if node.Str ["type"] = "string" ∧ node.Str ["format"] = "" then X else "*" ++ X, "") ∧
    jsType name node true = (X, "") ∧
    jsType name node false =
      (if node.Str ["type"] = "string" ∧ node.Str ["format"] = "" then X else "?" ++ X, "") := by
  refine ⟨?_, ?_, ?_, ?_⟩
  · rw [goType_schemaRef name X node true hX href]; simp
  · rw [goType_schemaRef name X node false hX href]; simp
  · rw [jsType_schemaRef name X node true href]; simp
  · rw [jsType_schemaRef name X node false href]; simp

/-- Claim C6: in convention A a boolean node, and a string node of format date
or date-time, without reference, map to the plain type (`bool`, `time.Time`)
when the field is required and to the pointer type (`*bool`, `*time.Time`)
when it is optional. -/
theorem goType_nullable_scalars (name base : String) (node : Any)
    (hnoref : node.Str ["$ref"] = "")
    (hkind : (node.Str ["type"] = "boolean" ∧ base = "bool") ∨
      (node.Str ["type"] = "string" ∧
        (node.Str ["format"] = "date" ∨ node.Str ["format"] = "date-time") ∧
        base = "time.Time")) :
    goType name node true = .ok (base, "") ∧
    goType name node false = .ok ("*" ++ base, "") := by
  have e1 : ("*" ++ "bool" : String) = "*bool" := by decide
  have e2 : ("*" ++ "time.Time" : String) = "*time.Time" := by decide
  rcases hkind with ⟨ht, rfl⟩ | ⟨ht, hf, rfl⟩
  · rw [e1]
    unfold goType goTypeAux
    rw [hnoref, ht]
    simp
  · rw [e2]
    unfold goType goTypeAux
    rw [hnoref, ht]
    rcases hf with hf | hf <;> rw [hf] <;> simp

/-- Claim C8: an array node without reference that has an items node maps, for
either value of the required flag, to `[]T` with element type `T`, where `T`
is what the items node maps to as a required field. -/
theorem goType_array_items (name : String) (arr items : Any) (req : Bool) (T e : String)
    (hnoref : arr.Str ["$ref"] = "") (htype : arr.Str ["type"] = "array")
    (hitems : arr.Get ["items"] = (items, true))
    (hT : goType name items true = .ok (T, e)) :
    goType name arr req = .ok ("[]" ++ T, T) := by
  rw [goType_array_eq name arr items req hnoref htype hitems, hT]

theorem foldl_overwrite {α β : Type} (P : α → Bool) (f : α → β) :
    ∀ (l : List α) (init : β),
      l.foldl (fun acc k => if P k then f k else acc) init =
        match (l.filter P).getLast? with
        | some k => f k
        | none => init := by
  intro l
  induction l using List.reverseRecOn with
  | nil => intro init; rfl
  | append_singleton l a ih =>
    intro init
    rw [List.foldl_append, List.filter_append]
    simp only [List.foldl_cons, List.foldl_nil]
    by_cases hP : P a = true
    · simp [hP, List.filter_cons]
    · simp only [hP, List.filter_cons, if_false, List.filter_nil, List.append_nil, Bool.false_eq_true]
      exact ih init

theorem digitVal_not_sign (c : Char) (d : Nat) (h : digitVal c = some d) :
    c ≠ '-' ∧ c ≠ '+' := by
  have h1 : digitVal '-' = none := by decide
  have h2 : digitVal '+' = none := by decide
  constructor <;> (intro hc; subst hc; simp_all)

theorem Atoi_numeral (key : String) (N : Nat) (hne : key.data ≠ [])
    (hnum : parseDigits key.data 0 = some N) (hN : N < 2 ^ 63) :
    Atoi key = ((N : Int), true) := by
  unfold Atoi
  cases hd : key.data with
  | nil => exact absurd hd hne
  | cons c cs =>
    rw [hd] at hnum
    have hdig : ∃ d, digitVal c = some d := by
      simp only [parseDigits] at hnum
      cases h : digitVal c with
      | none => rw [h] at hnum; cases hnum
      | some d => exact ⟨d, rfl⟩
    obtain ⟨d, hdv⟩ := hdig
    obtain ⟨h1, h2⟩ := digitVal_not_sign c d hdv
    have hm : (match c :: cs with
        | '-' :: r => (true, r)
        | '+' :: r => (false, r)
        | r => (false, r)) = (false, c :: cs) := by
      split
      · rename_i heq; cases heq; exact absurd rfl h1
      · rename_i heq; cases heq; exact absurd rfl h2
      · rfl
    simp only [hm, hnum]
    have : ¬ (N ≥ 2 ^ 63) := by omega
    simp only [this, if_false]
    rfl

/-! ## Loops and the schema resolver -/

theorem Ext.refl (p : parser) : Ext p p :=
  ⟨rfl, fun _ h => h, fun _ _ h => h⟩

theorem Ext.trans {p q r : parser} (h1 : Ext p q) (h2 : Ext q r) : Ext p r :=
  ⟨h2.doc.trans h1.doc, fun m h => h2.methods m (h1.methods m h),
    fun n P h => h2.params n P (h1.params n P h)⟩

theorem Ext.of_eq {p q : parser} (hd : q.doc = p.doc) (ha : q.api = p.api) : Ext p q :=
  ⟨hd, fun m h => by rw [ha]; exact h, fun n P h => by rw [ha]; exact h⟩

theorem HasParam.append_right {name : String} {P : Param} {l : List Schema} (l2 : List Schema)
    (h : HasParam name P l) : HasParam name P (l ++ l2) := by
  obtain ⟨s, hs, h1, h2⟩ := h
  exact ⟨s, List.mem_append_left _ hs, h1, h2⟩

theorem forEach_inv {κ σ : Type} (R : σ → σ → Prop) (hrefl : ∀ s, R s s)
    (htrans : ∀ a b c, R a b → R b c → R a c) (body : σ → κ → Except Abort σ)
    (hbody : ∀ s k s', body s k = .ok s' → R s s') :
    ∀ (ks : List κ) (s s' : σ), forEach body ks s = .ok s' → R s s' := by
  intro ks
  induction ks with
  | nil => intro s s' h; simp only [forEach] at h; cases h; exact hrefl s
  | cons k ks ih =>
    intro s s' h
    simp only [forEach] at h
    cases hb : body s k with
    | error e => rw [hb] at h; cases h
    | ok q =>
      rw [hb] at h
      exact htrans _ _ _ (hbody s k q hb) (ih q s' h)

theorem forEach_split {κ σ : Type} (body : σ → κ → Except Abort σ) :
    ∀ (ks : List κ) (s s' : σ) (k : κ), k ∈ ks → forEach body ks s = .ok s' →
      ∃ ks1 ks2 q q', ks = ks1 ++ k :: ks2 ∧ forEach body ks1 s = .ok q ∧
        body q k = .ok q' ∧ forEach body ks2 q' = .ok s' := by
  intro ks
  induction ks with
  | nil => intro s s' k hk; cases hk
  | cons a ks ih =>
    intro s s' k hk h
    simp only [forEach] at h
    cases hb : body s a with
    | error e => rw [hb] at h; cases h
    | ok q =>
      rw [hb] at h
      by_cases hak : k = a
      · subst hak
        exact ⟨[], ks, s, q, rfl, rfl, hb, h⟩
      · have hk2 : k ∈ ks := by
          rcases List.mem_cons.1 hk with h1 | h1
          · exact absurd h1 hak
          · exact h1
        obtain ⟨ks1, ks2, q1, q2, e1, e2, e3, e4⟩ := ih q s' k hk2 h
        refine ⟨a :: ks1, ks2, q1, q2, by rw [e1]; rfl, ?_, e3, e4⟩
        simp only [forEach, hb]
        exact e2

theorem parseConst_api (p : parser) (n : String) (v : Any) : (parseConst p n v).api = p.api := by
  unfold parseConst
  dsimp only
  split_ifs <;> rfl

theorem parseConst_doc (p : parser) (n : String) (v : Any) : (parseConst p n v).doc = p.doc := by
  unfold parseConst
  dsimp only
  split_ifs <;> rfl

theorem parsePropStep_ok (s : Any) (required : List String) (st st' : parser × List Param)
    (propName : String) (h : parsePropStep s required st propName = .ok st') :
    ∃ P, parseProp propName (s.Get ["properties", propName]).1 (decide (propName ∈ required))
        = .ok P ∧ st'.2 = st.2 ++ [P] ∧ st'.1 = parseConst st.1 propName (s.Get ["properties", propName]).1 := by
  unfold parsePropStep at h
  simp only [] at h
  cases hp : parseProp propName (s.Get ["properties", propName]).1 (decide (propName ∈ required)) with
  | error e => rw [hp] at h; cases h
  | ok P =>
    rw [hp] at h
    cases h
    exact ⟨P, rfl, rfl, rfl⟩

theorem parsePropStep_ext (s : Any) (required : List String) (st st' : parser × List Param)
    (propName : String) (h : parsePropStep s required st propName = .ok st') :
    PropsExt st st' := by
  obtain ⟨P, _, h2, h3⟩ := parsePropStep_ok s required st st' propName h
  refine ⟨?_, ?_, ?_⟩
  · rw [h3]; exact parseConst_doc _ _ _
  · rw [h3]; exact parseConst_api _ _ _
  · intro Q hQ; rw [h2]; exact List.mem_append_left _ hQ

theorem parseProps_ext (s : Any) (required : List String) (ks : List String)
    (st st' : parser × List Param)
    (h : forEach (parsePropStep s required) ks st = .ok st') : PropsExt st st' :=
  forEach_inv PropsExt (fun _ => ⟨rfl, rfl, fun _ h => h⟩)
    (fun _ _ _ h1 h2 => ⟨h2.1.trans h1.1, h2.2.1.trans h1.2.1, fun P hP => h2.2.2 P (h1.2.2 P hP)⟩)
    _ (fun a k b hb => parsePropStep_ext s required a b k hb) ks st st' h

theorem parseProps_mem (s : Any) (required : List String) (ks : List String)
    (st st' : parser × List Param) (propName : String) (hk : propName ∈ ks)
    (h : forEach (parsePropStep s required) ks st = .ok st') :
    ∃ P ∈ st'.2, parseProp propName (s.Get ["properties", propName]).1
      (decide (propName ∈ required)) = .ok P := by
  obtain ⟨ks1, ks2, q, q', _, _, e3, e4⟩ := forEach_split _ ks st st' propName hk h
  obtain ⟨P, hP, h2, _⟩ := parsePropStep_ok s required q q' propName e3
  refine ⟨P, ?_, hP⟩
  apply (parseProps_ext s required ks2 q' st' e4).2.2
  rw [h2]
  exact List.mem_append_right _ (List.mem_singleton.2 rfl)

theorem parseSchema_ok (p p' : parser) (name : String) (s : Any)
    (h : parseSchema p name s = .ok p') :
    p'.doc = p.doc ∧ p'.api.Methods = p.api.Methods ∧
    ∃ params : List Param, p'.api.Schemas = p.api.Schemas ++ [buildSchema name s params] ∧
      ∀ propName ∈ s.Keys ["properties"], ∃ P ∈ params,
        parseProp propName (s.Get ["properties", propName]).1
          (decide (propName ∈ (s.Slice ["required"]).map fun param => param.Str [])) = .ok P := by
  unfold parseSchema at h
  simp only [] at h
  cases hl : forEach (parsePropStep s ((s.Slice ["required"]).map fun param => param.Str []))
      (s.Keys ["properties"]) (p, []) with
  | error e => rw [hl] at h; cases h
  | ok st =>
    rw [hl] at h
    obtain ⟨q, params⟩ := st
    simp only [] at h
    cases h
    have hext := parseProps_ext _ _ _ _ _ hl
    refine ⟨hext.1, ?_, ?_⟩
    · show q.api.Methods = p.api.Methods
      rw [hext.2.1]
    · refine ⟨params, ?_, ?_⟩
      · show q.api.Schemas ++ [_] = p.api.Schemas ++ [_]
        rw [hext.2.1]
      · intro propName hk
        exact parseProps_mem _ _ _ _ _ propName hk hl

/-! ## The operation resolver -/

theorem parseSchema_ext (p p' : parser) (name : String) (s : Any)
    (h : parseSchema p name s = .ok p') : Ext p p' := by
  obtain ⟨hd, hm, params, hs, _⟩ := parseSchema_ok p p' name s h
  refine ⟨hd, fun m hmem => by rw [hm]; exact hmem, fun n P hP => ?_⟩
  rw [hs]
  exact hP.append_right _

theorem parseSchemaEntry_ext (p p' : parser) (name : String)
    (h : parseSchemaEntry p name = .ok p') : Ext p p' := by
  unfold parseSchemaEntry at h
  dsimp only at h
  split_ifs at h
  · exact parseSchema_ext _ _ _ _ h
  · cases h
    exact Ext.of_eq (parseConst_doc _ _ _) (parseConst_api _ _ _)
  · cases h
    exact Ext.refl _

theorem forEach_ext {κ : Type} (body : parser → κ → Except Abort parser)
    (hbody : ∀ s k s', body s k = .ok s' → Ext s s') (ks : List κ) (p p' : parser)
    (h : forEach body ks p = .ok p') : Ext p p' :=
  forEach_inv Ext Ext.refl (fun _ _ _ h1 h2 => h1.trans h2) body hbody ks p p' h

theorem parseSchemas_ext (p p' : parser) (h : parseSchemas p = .ok p') : Ext p p' :=
  forEach_ext _ (fun a k b hb => parseSchemaEntry_ext a b k hb) _ p p' h

theorem parseParams_forall2 (noJSON : Bool) : ∀ (l : List Any) (params : List Param),
    parseParams noJSON l = .ok params →
    List.Forall₂ (fun v P => parseParam v noJSON = .ok P) l params := by
  intro l
  induction l with
  | nil => intro params h; simp only [parseParams] at h; cases h; exact List.Forall₂.nil
  | cons v vs ih =>
    intro params h
    simp only [parseParams] at h
    cases hv : parseParam v noJSON with
    | error e => rw [hv] at h; cases h
    | ok P =>
      rw [hv] at h
      cases hr : parseParams noJSON vs with
      | error e => rw [hr] at h; cases h
      | ok ps =>
        rw [hr] at h
        cases h
        exact List.Forall₂.cons hv (ih ps hr)

theorem mergeCommonParams_hasParam (common : List Any) (t : String) :
    ∀ (l l' : List Schema), mergeCommonParams common t l = .ok l' →
      ∀ name P, HasParam name P l → HasParam name P l' := by
  intro l
  induction l with
  | nil => intro l' h; simp only [mergeCommonParams] at h; cases h; exact fun _ _ hP => hP
  | cons sc rest ih =>
    intro l' h name P hP
    simp only [mergeCommonParams] at h
    have key : ∃ sc' rest', l' = sc' :: rest' ∧ sc'.GoName = sc.GoName ∧
        (∀ Q ∈ sc.Params, Q ∈ sc'.Params) ∧ mergeCommonParams common t rest = .ok rest' := by
      by_cases hn : sc.GoName = t
      · rw [if_pos hn] at h
        cases hc : parseParams true common with
        | error e => rw [hc] at h; cases h
        | ok ps =>
          rw [hc] at h
          dsimp only at h
          cases hr : mergeCommonParams common t rest with
          | error e => rw [hr] at h; cases h
          | ok rest' =>
            rw [hr] at h
            cases h
            exact ⟨_, rest', rfl, rfl, fun Q hQ => List.mem_append_left _ hQ, rfl⟩
      · rw [if_neg hn] at h
        cases hr : mergeCommonParams common t rest with
        | error e => rw [hr] at h; cases h
        | ok rest' =>
          rw [hr] at h
          cases h
          exact ⟨_, rest', rfl, rfl, fun Q hQ => hQ, rfl⟩
    obtain ⟨sc', rest', rfl, hg, hps, hr⟩ := key
    obtain ⟨s0, hs0, h1, h2⟩ := hP
    rcases List.mem_cons.1 hs0 with heq | hin
    · subst heq
      exact ⟨sc', List.mem_cons_self _ _, hg.trans h1, hps P h2⟩
    · obtain ⟨s1, hs1, h3, h4⟩ := ih rest' hr name P ⟨s0, hin, h1, h2⟩
      exact ⟨s1, List.mem_cons_of_mem _ hs1, h3, h4⟩

/-- What the body of the loop of `parsePath` does to the state, by the three
ways through it. -/
theorem parseMethod_ok (p p' : parser) (path : String) (subDoc : Any) (common : List Any)
    (method : String) (h : parseMethod p path subDoc common method = .ok p') :
    p'.doc = p.doc ∧
    (((subDoc.Get [method]).1.Str ["operationId"] = "" ∧ p' = p) ∨
     ((subDoc.Get [method]).1.Str ["operationId"] ≠ "" ∧
      p'.api.Methods = p.api.Methods ++ [buildMethod path method (subDoc.Get [method]).1] ∧
      (((subDoc.Get [method]).1.Get ["requestBody"]).2 = true ∧
        (p'.api.Schemas = p.api.Schemas ∨
          mergeCommonParams common (inputType (subDoc.Get [method]).1) p.api.Schemas
            = .ok p'.api.Schemas) ∨
       (((subDoc.Get [method]).1.Get ["requestBody"]).2 = false ∧
        ∃ params, parseParams false (common ++ (subDoc.Get [method]).1.Slice ["parameters"])
            = .ok params ∧
          p'.api.Schemas = p.api.Schemas ++
            [buildInputSchema (buildMethod path method (subDoc.Get [method]).1) params])))) := by
  unfold parseMethod at h
  dsimp only at h
  by_cases hop : (subDoc.Get [method]).1.Str ["operationId"] = ""
  · rw [if_pos hop] at h
    cases h
    exact ⟨rfl, Or.inl ⟨hop, rfl⟩⟩
  · rw [if_neg hop] at h
    by_cases hb : (buildMethod path method (subDoc.Get [method]).1).InputInBody = true
    · rw [if_pos hb] at h
      split_ifs at h with hc
      · cases hm : mergeCommonParams common
            (buildMethod path method (subDoc.Get [method]).1).InputType
            (p.api.Schemas) with
        | error e =>
          simp only [hm] at h
          cases h
        | ok l =>
          simp only [hm] at h
          cases h
          exact ⟨rfl, Or.inr ⟨hop, rfl, Or.inl ⟨hb, Or.inr hm⟩⟩⟩
      · cases h
        exact ⟨rfl, Or.inr ⟨hop, rfl, Or.inl ⟨hb, Or.inl rfl⟩⟩⟩
    · rw [if_neg hb] at h
      cases hpp : parseParams false (common ++ (subDoc.Get [method]).1.Slice ["parameters"]) with
      | error e => rw [hpp] at h; cases h
      | ok params =>
        rw [hpp] at h
        cases h
        have hb2 : ((subDoc.Get [method]).1.Get ["requestBody"]).2 = false := by
          simpa [buildMethod] using hb
        exact ⟨rfl, Or.inr ⟨hop, rfl, Or.inr ⟨hb2, params, rfl, rfl⟩⟩⟩

theorem parseMethod_ext (p p' : parser) (path : String) (subDoc : Any) (common : List Any)
    (method : String) (h : parseMethod p path subDoc common method = .ok p') : Ext p p' := by
  obtain ⟨hd, hc⟩ := parseMethod_ok p p' path subDoc common method h
  rcases hc with ⟨_, rfl⟩ | ⟨_, hm, hs⟩
  · exact Ext.refl _
  · refine ⟨hd, fun m hmem => by rw [hm]; exact List.mem_append_left _ hmem, fun n P hP => ?_⟩
    rcases hs with ⟨_, hs | hs⟩ | ⟨_, params, _, hs⟩
    · rw [hs]; exact hP
    · exact mergeCommonParams_hasParam _ _ _ _ hs n P hP
    · rw [hs]; exact hP.append_right _

/-! ## Paths and the whole document -/

theorem parsePathRef_ext (fs : Loader) (parseRef : Map → Parsed) (p p' : parser)
    (path ref : String) (e : Option ParseError)
    (h : parsePathRef fs parseRef p path ref = .ok (p', e)) : Ext p p' := by
  unfold parsePathRef at h
  split at h
  · cases h; exact Ext.refl _
  · rename_i file frag hmatch
    by_cases hm : mapHas file p.api.RefDocs = true
    · rw [if_pos hm] at h
      cases h; exact Ext.refl _
    · rw [if_neg hm] at h
      dsimp only at h
      generalize (if HasPrefix file ".json" = true then fs.LoadJSON file else fs.LoadYAML file)
        = loaded at h
      cases loaded with
      | error cause => dsimp only at h; cases h; exact Ext.refl _
      | ok refDoc =>
        dsimp only at h
        split at h
        · cases h
        · cases h; exact Ext.refl _
        · cases h
          exact ⟨rfl, fun m hm => List.mem_append_left _ hm, fun n P hP => hP.append_right _⟩

theorem parsePath_ext (fs : Loader) (parseRef : Map → Parsed) (p p' : parser)
    (path : String) (subDoc : Any) (e : Option ParseError)
    (h : parsePath fs parseRef p path subDoc = .ok (p', e)) : Ext p p' := by
  unfold parsePath at h
  split_ifs at h
  · exact parsePathRef_ext _ _ _ _ _ _ _ h
  · split at h
    · cases h
    · rename_i q hq
      cases h
      exact forEach_ext _ (fun a k b hb => parseMethod_ext a b _ _ _ k hb) _ _ _ hq

theorem parsePathsLoop_ext (fs : Loader) (parseRef : Map → Parsed) :
    ∀ (ks : List String) (p p' : parser) (e : Option ParseError),
      parsePathsLoop fs parseRef ks p = .ok (p', e) → Ext p p' := by
  intro ks
  induction ks with
  | nil => intro p p' e h; simp only [parsePathsLoop] at h; cases h; exact Ext.refl _
  | cons k ks ih =>
    intro p p' e h
    simp only [parsePathsLoop] at h
    split at h
    · cases h
    · rename_i q e1 hq
      cases h
      exact parsePath_ext _ _ _ _ _ _ _ hq
    · rename_i q hq
      exact (parsePath_ext _ _ _ _ _ _ _ hq).trans (ih q p' e h)

/-- A run of the path loop that ends without error went through every path:
the state it reached the path in, and the state it left it in. -/
theorem parsePathsLoop_split (fs : Loader) (parseRef : Map → Parsed) :
    ∀ (ks : List String) (p p' : parser) (path : String), path ∈ ks →
      parsePathsLoop fs parseRef ks p = .ok (p', none) →
      ∃ q q', Ext p q ∧
        parsePath fs parseRef q path (q.doc.Get ["paths", path]).1 = .ok (q', none) ∧
        Ext q' p' := by
  intro ks
  induction ks with
  | nil => intro p p' path hk; cases hk
  | cons k ks ih =>
    intro p p' path hk h
    simp only [parsePathsLoop] at h
    split at h
    · cases h
    · cases h
    · rename_i q hq
      by_cases hpk : path = k
      · subst hpk
        exact ⟨p, q, Ext.refl _, hq, parsePathsLoop_ext _ _ _ _ _ _ h⟩
      · have hk2 : path ∈ ks := by
          rcases List.mem_cons.1 hk with h1 | h1
          · exact absurd h1 hpk
          · exact h1
        obtain ⟨q1, q2, e1, e2, e3⟩ := ih q p' path hk2 h
        exact ⟨q1, q2, (parsePath_ext _ _ _ _ _ _ _ hq).trans e1, e2, e3⟩

theorem parseEnums_doc (p : parser) : (parseEnums p).doc = p.doc := rfl

theorem parseEnums_methods (p : parser) : (parseEnums p).api.Methods = p.api.Methods := rfl

theorem parseEnums_schemas (p : parser) : (parseEnums p).api.Schemas = p.api.Schemas := rfl

theorem parseServers_doc (p : parser) : (parseServers p).doc = p.doc := rfl

theorem parseServers_schemas (p : parser) : (parseServers p).api.Schemas = p.api.Schemas := rfl

/-- The run behind a result of `ParseDoc` without error: the state after the
schemas, and the state after the paths, from which the result is read. -/
theorem ParseDoc_ok (fs : Loader) (fuel : Nat) (doc : Map) (api : API)
    (h : ParseDoc fs fuel doc = .ok (api, none)) :
    ∃ (parseRef : Map → Parsed) (p0 p1 p2 : parser),
      p0.doc = doc ∧ parseSchemas p0 = .ok p1 ∧ parsePaths fs parseRef p1 = .ok (p2, none) ∧
      api.Methods = p2.api.Methods ∧ api.Schemas = p2.api.Schemas := by
  have key : ∀ parseRef : Map → Parsed, parseDocWith fs parseRef doc = .ok (api, none) →
      ∃ (p0 p1 p2 : parser),
      p0.doc = doc ∧ parseSchemas p0 = .ok p1 ∧ parsePaths fs parseRef p1 = .ok (p2, none) ∧
      api.Methods = p2.api.Methods ∧ api.Schemas = p2.api.Schemas := by
    intro parseRef h
    unfold parseDocWith at h
    dsimp only at h
    split at h
    · cases h
    · rename_i p1 h1
      split at h
      · cases h
      · cases h
      · rename_i p2 h2
        cases h
        exact ⟨_, p1, p2, rfl, h1, h2, rfl, rfl⟩
  cases fuel with
  | zero => exact ⟨_, key _ h⟩
  | succ n => exact ⟨_, key _ h⟩

/-! ## The accessor and the fields of a method -/

theorem Any.Get_cons (any : Any) (seg : String) (rest : List String) :
    Any.Get any (seg :: rest) =
      if (Any.Get any [seg]).2 = true then Any.Get (Any.Get any [seg]).1 rest
      else (.null, false) := by
  simp only [Any.Get]
  cases idxMatch seg with
  | some digits =>
    dsimp only
    cases any <;> try rfl
    rename_i s
    dsimp only
    split_ifs <;> try rfl
    all_goals (
      generalize s.get? (Atoi digits).1.toNat = o at *
      cases o <;> simp_all)
  | none =>
    dsimp only
    cases any <;> try rfl
    rename_i kvs
    dsimp only
    cases lookup seg kvs <;> rfl

theorem Any.Str_ne_found (any : Any) (seg : String) (rest : List String)
    (h : Any.Str any (seg :: rest) ≠ "") : (Any.Get any [seg]).2 = true := by
  unfold Any.Str at h
  rw [Any.Get_cons] at h
  by_contra hc
  rw [if_neg hc] at h
  exact h rfl

theorem HasPrefix_data_ne (k p : String) (hp : p.data ≠ []) (h : HasPrefix k p = true) :
    k.data ≠ [] := by
  intro hk
  unfold HasPrefix at h
  rw [hk] at h
  cases hpd : p.data with
  | nil => exact hp hpd
  | cons c cs => rw [hpd] at h; simp [dropLeading] at h

theorem inputType_ref (m : Any) (X : String) (hX : X ≠ "")
    (h : m.Str ["requestBody", "content", "application/json", "schema", "$ref"]
      = "#/components/schemas/" ++ X) : inputType m = X := by
  unfold inputType
  dsimp only
  rw [h, TrimPrefix_append, if_neg hX]

theorem outputType_last (m : Any) (front : List String) (key : String)
    (h : (m.Keys ["responses"]).filter (fun k => HasPrefix k "2") = front ++ [key]) :
    outputType m =
      TrimPrefix (m.Str ["responses", key, "content", "application/json", "schema", "$ref"])
        "#/components/schemas/" := by
  unfold outputType
  dsimp only
  rw [foldl_overwrite (fun k => HasPrefix k "2")
    (fun status => TrimPrefix
      (m.Str ["responses", status, "content", "application/json", "schema", "$ref"])
      "#/components/schemas/"), h]
  simp

theorem successfulStatus_last_atoi (m : Any) (front : List String) (key : String)
    (h : (m.Keys ["responses"]).filter (fun k => HasPrefix k "2") = front ++ [key]) :
    successfulStatus m = (Atoi key).1 := by
  unfold successfulStatus
  rw [foldl_overwrite (fun k => HasPrefix k "2") (fun key => (Atoi key).1), h]
  simp

theorem filter_last_hasPrefix (l front : List String) (key : String)
    (h : l.filter (fun k => HasPrefix k "2") = front ++ [key]) : HasPrefix key "2" = true := by
  have : key ∈ l.filter (fun k => HasPrefix k "2") := by rw [h]; simp
  exact (List.mem_filter.1 this).2

theorem successfulStatus_numeral (m : Any) (front : List String) (key : String) (N : Nat)
    (h : (m.Keys ["responses"]).filter (fun k => HasPrefix k "2") = front ++ [key])
    (hnum : parseDigits key.data 0 = some N) (hN : N < 2 ^ 63) :
    successfulStatus m = (N : Int) := by
  rw [successfulStatus_last_atoi m front key h,
    Atoi_numeral key N (HasPrefix_data_ne key "2" (by decide) (filter_last_hasPrefix _ _ _ h))
      hnum hN]

/-- Every operation with an operation identifier that the path loop reaches
leaves its `Method` in the result. -/
theorem ParseDoc_method_mem (fs : Loader) (fuel : Nat) (doc : Map) (api : API)
    (path key : String)
    (hdoc : ParseDoc fs fuel doc = .ok (api, none))
    (hpath : path ∈ doc.Keys ["paths"])
    (hnoref : (doc.Get ["paths", path]).1.Str ["$ref"] = "")
    (hkey : key ∈ (doc.Get ["paths", path]).1.Keys [])
    (hop : ((doc.Get ["paths", path]).1.Get [key]).1.Str ["operationId"] ≠ "") :
    buildMethod path key ((doc.Get ["paths", path]).1.Get [key]).1 ∈ api.Methods := by
  obtain ⟨parseRef, p0, p1, p2, h0, h1, h2, hM, _⟩ := ParseDoc_ok fs fuel doc api hdoc
  have hd1 : p1.doc = doc := (parseSchemas_ext p0 p1 h1).doc.trans h0
  unfold parsePaths at h2
  rw [hd1] at h2
  obtain ⟨q, q', e1, e2, e3⟩ := parsePathsLoop_split fs parseRef _ p1 p2 path hpath h2
  have hdq : q.doc = doc := e1.doc.trans hd1
  rw [hdq] at e2
  unfold parsePath at e2
  rw [if_neg (not_not.2 hnoref)] at e2
  split at e2
  · cases e2
  · rename_i r hr
    cases e2
    obtain ⟨ks1, ks2, a, b, _, ha, hb, hc⟩ := forEach_split _ _ _ _ key hkey hr
    obtain ⟨_, hcase⟩ := parseMethod_ok _ _ _ _ _ _ hb
    have hext : Ext b q' := forEach_ext _ (fun a k b hb => parseMethod_ext a b _ _ _ k hb) _ _ _ hc
    rw [hM]
    apply e3.methods
    apply hext.methods
    rcases hcase with ⟨h0, _⟩ | ⟨_, hm, _⟩
    · exact absurd h0 hop
    · rw [hm]
      exact List.mem_append_right _ (List.mem_singleton.2 rfl)

/-! ## Properties and reference nodes -/

theorem parseParamValidations_fields (param : Param) (schema : Any) :
    (parseParamValidations param schema).APIName = param.APIName ∧
    (parseParamValidations param schema).GoType = param.GoType := by
  unfold parseParamValidations
  dsimp only
  split_ifs <;> exact ⟨rfl, rfl⟩

theorem parseProp_fields (name : String) (schema : Any) (req : Bool) (P : Param)
    (h : parseProp name schema req = .ok P)
    (hdelay : schema.Bool ["x-delay"] = false)
    (hadd : schema.Bool ["additionalProperties"] = false) :
    P.APIName = name ∧ ∃ g, goType name schema req = .ok g ∧ P.GoType = g.1 := by
  unfold parseProp at h
  dsimp only at h
  rw [hdelay, hadd] at h
  simp only [Bool.false_eq_true, if_false] at h
  cases hg : goType name schema req with
  | error e => rw [hg] at h; cases h
  | ok g =>
    rw [hg] at h
    dsimp only at h
    cases h
    exact ⟨(parseParamValidations_fields _ _).1,
      g, rfl, (parseParamValidations_fields _ _).2⟩

theorem externalRefMatch_hash_some (s file frag : String) (f : List Char)
    (hs : s.data = '#' :: f) (h : externalRefMatch s = some (file, frag)) :
    file = "" ∧ frag = s := by
  unfold externalRefMatch at h
  rw [hs] at h
  simp only [List.dropWhile, List.takeWhile, ne_eq, not_true_eq_false, decide_False] at h
  split_ifs at h
  cases h
  exact ⟨rfl, String.ext hs.symm⟩

theorem goType_schemaRef_ok (name X : String) (node : Any) (req : Bool) (g : String × String)
    (href : node.Str ["$ref"] = "#/components/schemas/" ++ X)
    (h : goType name node req = .ok g) :
    g = (if req = true ∨ (node.Str ["type"] = "string" ∧ node.Str ["format"] = "") then X
         else "*" ++ X, "") := by
  unfold goType goTypeAux at h
  rw [href] at h
  simp only [ne_eq, schemaRef_ne_empty, not_false_eq_true, if_true] at h
  cases hm : externalRefMatch ("#/components/schemas/" ++ X) with
  | none => rw [hm] at h; cases h
  | some r =>
    obtain ⟨file, frag⟩ := r
    obtain ⟨rfl, rfl⟩ := externalRefMatch_hash_some _ _ _ _ (schemaRef_data X) hm
    rw [hm] at h
    simp only [TrimPrefix_append, ne_eq, not_true_eq_false, if_false] at h
    split_ifs at h with hc
    · cases h; rw [if_pos hc]
    · cases h; rw [if_neg hc]

theorem refNode_str_ref (v : String) :
    Any.Str (.map [("$ref", .str v)]) ["$ref"] = v := by
  have hidx : idxMatch "$ref" = none := by decide
  simp [Any.Str, Any.Get, hidx, lookup, asStr]

theorem refNode_get_other (v : Val) (k : String) (hk : k ≠ "$ref") :
    Any.Get (.map [("$ref", v)]) [k] = (.null, false) := by
  have hk2 : ¬ ("$ref" = k) := fun h => hk h.symm
  simp only [Any.Get]
  cases idxMatch k <;> simp [lookup, hk2]

theorem refNode_str_other (v : Val) (k : String) (hk : k ≠ "$ref") :
    Any.Str (.map [("$ref", v)]) [k] = "" := by
  unfold Any.Str
  rw [refNode_get_other v k hk]
  rfl

theorem refNode_bool_other (v : Val) (k : String) (hk : k ≠ "$ref") :
    Any.Bool (.map [("$ref", v)]) [k] = false := by
  unfold Any.Bool
  rw [refNode_get_other v k hk]
  rfl

theorem inputType_noBody (m : Any) (h : (m.Get ["requestBody"]).2 = false) :
    inputType m = goName (m.Str ["operationId"]) ++ "Input" := by
  have hs : m.Str ["requestBody", "content", "application/json", "schema", "$ref"] = "" := by
    unfold Any.Str
    rw [Any.Get_cons, h]
    rfl
  unfold inputType
  dsimp only
  rw [hs]
  have : TrimPrefix "" "#/components/schemas/" = "" := by decide
  rw [this, if_pos rfl]

theorem returnedOk_eq (p : parser) (r : Except Abort (parser × Option ParseError))
    (h : returnedOk r = true) : r = .ok (stateOf p r, none) := by
  unfold returnedOk at h
  unfold stateOf
  split at h
  · rfl
  · cases h

/-! ## Operations end to end -/

theorem parsedOk_eq (r : Parsed) (h : parsedOk r = true) : r = .ok (apiOf r, none) := by
  unfold parsedOk at h
  unfold apiOf
  split at h
  · rfl
  · cases h

/-- Claim C1, as stated, fails: a path entry that is itself a reference is
handed to the reference resolver and its operations are not walked.  The
document holds the operation `CreateWidget` under `post`, the run returns
without error, and there is no `Method`. -/
theorem operation_in_reference_entry_counterexample :
    ((Map.Get widgetRefDoc ["paths", "/widgets"]).1.Get ["post"]).1.Str ["operationId"]
      = "CreateWidget" ∧
    methodsOf (ParseDoc emptyFiles 1 widgetRefDoc) = some [] := by
  decide!

/-- Claim C1, amended: when `ParseDoc` returns without error and a path entry
that is not itself a reference holds, under one of its keys, an operation with
a non-empty operationId, a request body whose `application/json` schema is the
reference to `X` (non-empty) and exactly one response key that starts with `2`,
that key being the numeral of `N < 2^63` and its `application/json` schema the
reference to `Y`, then the returned methods contain a `Method` of that
operation with input type `X`, output type `Y`, status `N` and the input in
the body. -/
theorem ParseDoc_method_of_operation (fs : Loader) (fuel : Nat) (doc : Map) (api : API)
    (path key key2 X Y : String) (N : Nat) (item m : Any)
    (hdoc : ParseDoc fs fuel doc = .ok (api, none))
    (hpath : path ∈ doc.Keys ["paths"])
    (hitem : item = (doc.Get ["paths", path]).1)
    (hnoref : item.Str ["$ref"] = "")
    (hkey : key ∈ item.Keys [])
    (hm : m = (item.Get [key]).1)
    (hop : m.Str ["operationId"] ≠ "")
    (hin : m.Str ["requestBody", "content", "application/json", "schema", "$ref"]
      = "#/components/schemas/" ++ X)
    (hX : X ≠ "")
    (hresp : (m.Keys ["responses"]).filter (fun k => HasPrefix k "2") = [key2])
    (hnum : parseDigits key2.data 0 = some N) (hN : N < 2 ^ 63)
    (hout : m.Str ["responses", key2, "content", "application/json", "schema", "$ref"]
      = "#/components/schemas/" ++ Y) :
    ∃ meth ∈ api.Methods,
      meth.APIName = m.Str ["operationId"] ∧ meth.Path = path ∧
      meth.HTTPMethod = ToUpper key ∧ meth.InputType = X ∧ meth.OutputType = Y ∧
      meth.SuccessfulStatus = (N : Int) ∧ meth.InputInBody = true := by
  subst hitem
  subst hm
  refine ⟨_, ParseDoc_method_mem fs fuel doc api path key hdoc hpath hnoref hkey hop,
    rfl, rfl, rfl, ?_, ?_, ?_, ?_⟩
  · exact inputType_ref _ X hX hin
  · show outputType _ = Y
    rw [outputType_last _ [] key2 hresp, hout, TrimPrefix_append]
  · exact successfulStatus_numeral _ [] key2 N hresp hnum hN
  · apply Any.Str_ne_found _ "requestBody" ["content", "application/json", "schema", "$ref"]
    rw [hin]
    exact schemaRef_ne_empty X

/-- The amended claim C1 at the document with `CreateWidget`, `post`,
`WidgetInput`, `201` and `WidgetOutput`. -/
theorem ParseDoc_method_of_operation_witness :
    ∃ meth ∈ (apiOf (ParseDoc noFiles 0 widgetDoc)).Methods,
      meth.APIName = "CreateWidget" ∧ meth.Path = "/widgets" ∧
      meth.HTTPMethod = "POST" ∧ meth.InputType = "WidgetInput" ∧
      meth.OutputType = "WidgetOutput" ∧ meth.SuccessfulStatus = 201 ∧
      meth.InputInBody = true :=
  ParseDoc_method_of_operation noFiles 0 widgetDoc (apiOf (ParseDoc noFiles 0 widgetDoc))
    "/widgets" "post" "201" "WidgetInput" "WidgetOutput" 201
    (Map.Get widgetDoc ["paths", "/widgets"]).1 createWidget
    (parsedOk_eq _ (by decide!)) (by decide!) rfl (by decide!) (by decide!) rfl
    (by decide!) (by decide!) (by decide!) (by decide!) (by decide!) (by decide!) (by decide!)

/-! ## Status, output type and the type conventions -/

/-- Claim C3, as stated, fails: with the response keys `200` and `201` the
first key that starts with `2` is `200`, and the status of the `Method` is
201. -/
theorem first_success_status_counterexample :
    (Any.Keys twoStatusOp ["responses"]).filter (fun k => HasPrefix k "2") = ["200", "201"] ∧
    (buildMethod "/widgets" "put" twoStatusOp).SuccessfulStatus = 201 ∧
    (methodsOf (ParseDoc noFiles 0 twoStatusDoc)).map
      (fun ms => ms.map fun meth => meth.SuccessfulStatus) = some [201] := by
  decide!

/-- Claim C3, amended: the status of the `Method` of an operation is what
`strconv.Atoi` reads from the last response key, in sorted order, that starts
with `2`: the value of that key when it is the numeral of a number below
`2^63`. -/
theorem successfulStatus_last_key (path method : String) (m : Any) (front : List String)
    (key : String)
    (hkeys : (m.Keys ["responses"]).filter (fun k => HasPrefix k "2") = front ++ [key]) :
    (buildMethod path method m).SuccessfulStatus = (Atoi key).1 ∧
    ∀ N : Nat, parseDigits key.data 0 = some N → N < 2 ^ 63 →
      (buildMethod path method m).SuccessfulStatus = (N : Int) :=
  ⟨successfulStatus_last_atoi m front key hkeys,
    fun N hnum hN => successfulStatus_numeral m front key N hkeys hnum hN⟩

/-- The amended claim C3 at the responses `200` and `201`: the status is
201. -/
theorem successfulStatus_last_key_witness :
    (buildMethod "/widgets" "put" twoStatusOp).SuccessfulStatus = 201 :=
  (successfulStatus_last_key "/widgets" "put" twoStatusOp ["200"] "201" (by decide!)).2 201
    (by decide!) (by decide!)

/-- Claim C4 at its failing input: for an operation whose only response is a
bare `204`, `outputType` returns the empty string, not
`goName(operationId) + "Output"`. -/
theorem outputType_bare_204 :
    (Any.Keys deleteWidget ["responses"]) = ["204"] ∧
    outputType deleteWidget = "" ∧
    goName (Any.Str deleteWidget ["operationId"]) ++ "Output" = "DeleteWidgetOutput" := by
  decide!

/-- The claim C5 at a node that is just the reference to `Widget`. -/
theorem ref_type_expression_witness :
    goType "owner" widgetRef true = .ok ("Widget", "") ∧
    goType "owner" widgetRef false =
      .ok (if Any.Str widgetRef ["type"] = "string" ∧ Any.Str widgetRef ["format"] = ""
        then "Widget" else "*" ++ "Widget", "") ∧
    jsType "owner" widgetRef true = ("Widget", "") ∧
    jsType "owner" widgetRef false =
      (if Any.Str widgetRef ["type"] = "string" ∧ Any.Str widgetRef ["format"] = ""
        then "Widget" else "?" ++ "Widget", "") :=
  ref_type_expression "owner" "Widget" widgetRef (by decide!) (by decide!)

/-- The claim C6 at a string node of format date-time. -/
theorem goType_nullable_scalars_witness :
    goType "createdAt" dateTimeNode true = .ok ("time.Time", "") ∧
    goType "createdAt" dateTimeNode false = .ok ("*" ++ "time.Time", "") :=
  goType_nullable_scalars "createdAt" "time.Time" dateTimeNode (by decide!)
    (Or.inr ⟨by decide!, Or.inr (by decide!), rfl⟩)

/-- Claim C7 at its failing input: in convention B an optional boolean maps to
`boolean`, as a required one does, not to `?boolean`. -/
theorem jsType_optional_boolean :
    jsType "enabled" (.map [("type", .str "boolean")]) false = ("boolean", "") ∧
    jsType "enabled" (.map [("type", .str "boolean")]) true = ("boolean", "") ∧
    goType "enabled" (.map [("type", .str "boolean")]) false = .ok ("*bool", "") := by
  decide!

/-- The claim C8 at an optional array of arrays of strings, whose items node
is an array of strings: `[][]string` with element type `[]string`; and at an
optional array of booleans: `[]bool`, the element resolved as required. -/
theorem goType_array_items_witness :
    goType "tags" nestedArray false = .ok ("[]" ++ "[]string", "[]string") ∧
    goType "flags" boolArray false = .ok ("[]" ++ "bool", "bool") :=
  ⟨goType_array_items "tags" nestedArray stringArray false "[]string" "string"
      (by decide!) (by decide!) rfl (by decide!),
    goType_array_items "flags" boolArray (.map [("type", .str "boolean")]) false "bool" ""
      (by decide!) (by decide!) rfl (by decide!)⟩

/-- Claim C9 at its failing input: in convention B an array whose items are of
type string maps to `Array<>` with an empty element type, while the items node
itself maps to `string`. -/
theorem jsType_array_of_string :
    jsType "tags" stringArray true = ("Array<>", "") ∧
    jsType "tags" (Any.Get stringArray ["items"]).1 true = ("string", "") ∧
    goType "tags" stringArray true = .ok ("[]string", "string") := by
  decide!

/-- Claim C10, as stated, fails: `Color` is a string schema with an enum and
no format, the property `color` of `Widget` is optional and just the reference
to `Color`, and its type is `*Color`. -/
theorem optional_enum_reference_counterexample :
    (constsOf (ParseDoc noFiles 0 colorDoc)).map (fun cs => cs.map fun c => c.Name)
      = some ["Color"] ∧
    schemaTypesOf (ParseDoc noFiles 0 colorDoc) = some [("Widget", [("color", "*Color")])] := by
  decide!

/-- Claim C10, amended: when `ParseDoc` returns without error and an object
schema of `components.schemas` has a property, not listed in `required`, whose
node is just the reference to `X`, the returned schemas hold that property
with the type `*X`, whatever `X` is defined as. -/
theorem ParseDoc_optional_reference_property (fs : Loader) (fuel : Nat) (doc : Map) (api : API)
    (sname pname X : String) (s : Any)
    (hdoc : ParseDoc fs fuel doc = .ok (api, none))
    (hsname : sname ∈ doc.Keys ["components", "schemas"])
    (hs : s = (doc.Get ["components", "schemas", sname]).1)
    (htype : s.Str ["type"] = "object")
    (hpname : pname ∈ s.Keys ["properties"])
    (hnode : (s.Get ["properties", pname]).1
      = .map [("$ref", .str ("#/components/schemas/" ++ X))])
    (hopt : pname ∉ (s.Slice ["required"]).map fun param => param.Str []) :
    ∃ schema ∈ api.Schemas, schema.GoName = sname ∧
      ∃ P ∈ schema.Params, P.APIName = pname ∧ P.GoType = "*" ++ X := by
  subst hs
  obtain ⟨parseRef, p0, p1, p2, h0, h1, h2, _, hS⟩ := ParseDoc_ok fs fuel doc api hdoc
  unfold parseSchemas at h1
  rw [h0] at h1
  obtain ⟨ks1, ks2, q, q', _, ha, hb, hc⟩ := forEach_split _ _ _ _ sname hsname h1
  have hq : q.doc = doc :=
    (forEach_ext _ (fun a k b hb => parseSchemaEntry_ext a b k hb) _ _ _ ha).doc.trans h0
  have hext1 : Ext q' p1 := forEach_ext _ (fun a k b hb => parseSchemaEntry_ext a b k hb) _ _ _ hc
  have hext2 : Ext p1 p2 := parsePathsLoop_ext _ _ _ _ _ _ h2
  unfold parseSchemaEntry at hb
  dsimp only at hb
  rw [hq, if_pos htype] at hb
  obtain ⟨_, _, params, hsch, hprops⟩ := parseSchema_ok _ _ _ _ hb
  obtain ⟨P, hPmem, hP⟩ := hprops pname hpname
  rw [hnode, decide_eq_false hopt] at hP
  obtain ⟨hname, g, hg, hgt⟩ := parseProp_fields _ _ _ _ hP
    (refNode_bool_other _ _ (by decide)) (refNode_bool_other _ _ (by decide))
  have hgv := goType_schemaRef_ok pname X _ false g (refNode_str_ref _) hg
  have htyp : Any.Str (.map [("$ref", .str ("#/components/schemas/" ++ X))]) ["type"] = "" :=
    refNode_str_other _ _ (by decide)
  have hgt2 : P.GoType = "*" ++ X := by
    rw [hgt, hgv, htyp]
    simp
  have hhas : HasParam sname P q'.api.Schemas := by
    rw [hsch]
    exact ⟨_, List.mem_append_right _ (List.mem_singleton.2 rfl), rfl, hPmem⟩
  obtain ⟨schema, hmem, hgn, hPin⟩ := hext2.params _ _ (hext1.params _ _ hhas)
  rw [← hS] at hmem
  exact ⟨schema, hmem, hgn, P, hPin, hname, hgt2⟩

/-- The amended claim C10 at the document with the enumeration `Color` and
the object `Widget`. -/
theorem ParseDoc_optional_reference_property_witness :
    ∃ schema ∈ (apiOf (ParseDoc noFiles 0 colorDoc)).Schemas, schema.GoName = "Widget" ∧
      ∃ P ∈ schema.Params, P.APIName = "color" ∧ P.GoType = "*" ++ "Color" :=
  ParseDoc_optional_reference_property noFiles 0 colorDoc (apiOf (ParseDoc noFiles 0 colorDoc))
    "Widget" "color" "Color" (Map.Get colorDoc ["components", "schemas", "Widget"]).1
    (parsedOk_eq _ (by decide!)) (by decide!) rfl (by decide!) (by decide!) rfl (by decide!)

/-! ## The order of `sort.Strings` -/

theorem ltChars_irrefl : ∀ a : List Char, ltChars a a = false := by
  intro a
  induction a with
  | nil => rfl
  | cons c cs ih => simp [ltChars, ih]

theorem ltChars_asymm : ∀ a b : List Char, ltChars a b = true → ltChars b a = false := by
  intro a
  induction a with
  | nil => intro b h; cases b <;> simp [ltChars] at h ⊢
  | cons c cs ih =>
    intro b h
    cases b with
    | nil => simp [ltChars] at h
    | cons d ds =>
      simp only [ltChars] at h ⊢
      by_cases h1 : c.toNat < d.toNat
      · have h2 : ¬ d.toNat < c.toNat := by omega
        simp [h1, h2]
      · by_cases h2 : d.toNat < c.toNat
        · simp [h1, h2] at h
        · simp only [h1, h2, if_false] at h ⊢
          exact ih ds h

theorem ltChars_trichotomy : ∀ a b : List Char,
    ltChars a b = false → ltChars b a = false → a = b := by
  intro a
  induction a with
  | nil => intro b h1 h2; cases b <;> simp [ltChars] at h1 ⊢
  | cons c cs ih =>
    intro b h1 h2
    cases b with
    | nil => simp [ltChars] at h2
    | cons d ds =>
      simp only [ltChars] at h1 h2
      by_cases hcd : c.toNat < d.toNat
      · simp [hcd] at h1
      · by_cases hdc : d.toNat < c.toNat
        · simp [hdc] at h2
        · simp only [hcd, hdc, if_false] at h1 h2
          have hn : c.toNat = d.toNat := by omega
          have hc : c = d := by
            apply Char.ext
            apply UInt32.ext
            exact hn
          rw [hc, ih ds h1 h2]

theorem ltChars_trans : ∀ a b c : List Char,
    ltChars a b = true → ltChars b c = true → ltChars a c = true := by
  intro a
  induction a with
  | nil =>
    intro b c h1 h2
    cases b with
    | nil => simp [ltChars] at h1
    | cons d ds =>
      cases c with
      | nil => simp [ltChars] at h2
      | cons e es => simp [ltChars]
  | cons x xs ih =>
    intro b c h1 h2
    cases b with
    | nil => simp [ltChars] at h1
    | cons d ds =>
      cases c with
      | nil => simp [ltChars] at h2
      | cons e es =>
        simp only [ltChars] at h1 h2 ⊢
        by_cases hxd : x.toNat < d.toNat
        · by_cases hde : d.toNat < e.toNat
          · have : x.toNat < e.toNat := by omega
            simp [this]
          · by_cases hed : e.toNat < d.toNat
            · simp [hde, hed] at h2
            · have : x.toNat < e.toNat := by omega
              simp [this]
        · by_cases hdx : d.toNat < x.toNat
          · simp [hxd, hdx] at h1
          · simp only [hxd, hdx, if_false] at h1
            by_cases hde : d.toNat < e.toNat
            · have : x.toNat < e.toNat := by omega
              simp [this]
            · by_cases hed : e.toNat < d.toNat
              · simp [hde, hed] at h2
              · simp only [hde, hed, if_false] at h2
                have h3 : ¬ x.toNat < e.toNat := by omega
                have h4 : ¬ e.toNat < x.toNat := by omega
                simp only [h3, h4, if_false]
                exact ih ds es h1 h2

theorem strLe_total (a b : String) : strLe a b ∨ strLe b a := by
  unfold strLe
  cases h : ltChars b.data a.data with
  | false => exact Or.inl rfl
  | true => exact Or.inr (ltChars_asymm _ _ h)

theorem strLe_trans (a b c : String) (h1 : strLe a b) (h2 : strLe b c) : strLe a c := by
  unfold strLe at *
  cases h : ltChars c.data a.data with
  | false => rfl
  | true =>
    cases hab : ltChars a.data b.data with
    | false =>
      have e := ltChars_trichotomy _ _ hab h1
      rw [e] at h
      rw [h] at h2
      cases h2
    | true =>
      have := ltChars_trans _ _ _ h hab
      rw [this] at h2
      cases h2

theorem lt_of_strLe_ne (a b : String) (h : strLe a b) (hne : a ≠ b) :
    ltChars a.data b.data = true := by
  unfold strLe at h
  cases hab : ltChars a.data b.data with
  | true => rfl
  | false => exact absurd (String.ext (ltChars_trichotomy _ _ hab h)) hne

theorem sortStrings_perm (l : List String) : (sortStrings l).Perm l :=
  List.perm_insertionSort strLe l

theorem sortStrings_mem (l : List String) (k : String) : k ∈ sortStrings l ↔ k ∈ l :=
  (sortStrings_perm l).mem_iff

theorem sortStrings_sorted (l : List String) : (sortStrings l).Sorted strLe := by
  haveI : IsTotal String strLe := ⟨strLe_total⟩
  haveI : IsTrans String strLe := ⟨strLe_trans⟩
  exact List.sorted_insertionSort strLe l

theorem sortStrings_strictAsc (l : List String) (hl : l.Nodup) : StrictAsc (sortStrings l) := by
  have hs := sortStrings_sorted l
  have hn : (sortStrings l).Nodup := (sortStrings_perm l).nodup_iff.2 hl
  unfold StrictAsc
  unfold List.Sorted at hs
  unfold List.Nodup at hn
  exact (hs.and hn).imp (fun h => lt_of_strLe_ne _ _ h.1 h.2)

theorem StrictAsc.nodup {l : List String} (h : StrictAsc l) : l.Nodup := by
  unfold StrictAsc at h
  unfold List.Nodup
  refine h.imp ?_
  intro a b hab heq
  subst heq
  rw [ltChars_irrefl] at hab
  cases hab

theorem asKeys_map (m : Map) :
    StrictAsc (asKeys (.map m)) ∧ ∀ k, k ∈ asKeys (.map m) ↔ k ∈ m.map Prod.fst := by
  refine ⟨sortStrings_strictAsc _ (List.nodup_dedup _), fun k => ?_⟩
  show k ∈ sortStrings _ ↔ _
  rw [sortStrings_mem, List.mem_dedup]

theorem lookup_isSome_iff (k : String) : ∀ m : Map, (lookup k m).isSome ↔ k ∈ m.map Prod.fst := by
  intro m
  induction m with
  | nil => simp [lookup]
  | cons kv rest ih =>
    obtain ⟨k1, v1⟩ := kv
    simp only [lookup, List.map_cons, List.mem_cons]
    by_cases h : k1 = k
    · simp [h]
    · have h2 : ¬ k = k1 := fun e => h e.symm
      simp [h, h2, ih]

theorem anyKeys_strictAsc (any : Any) (path : List String) : StrictAsc (any.Keys path) := by
  unfold Any.Keys
  dsimp only
  split_ifs
  · cases (Any.Get any path).1 <;> first | exact List.Pairwise.nil | exact (asKeys_map _).1
  · exact List.Pairwise.nil

theorem docKeys_strictAsc (doc : Map) (path : List String) : StrictAsc (doc.Keys path) := by
  unfold Map.Keys
  dsimp only
  split_ifs
  · cases (Map.Get doc path).1 <;> first | exact List.Pairwise.nil | exact (asKeys_map _).1
  · exact List.Pairwise.nil

/-! ## The accessor: keys and typed helpers -/

/-- Claim C17: where `Get` finds a mapping, `Keys` lists every key of the
mapping, each once, strictly ascending in the byte order of `sort.Strings`;
where `Get` misses or finds another value, `Keys` is empty.  The same holds
for `Keys` on the document. -/
theorem Keys_of_mapping (any : Any) (doc : Map) (path : List String) :
    (∀ m : Map, Any.Get any path = (.map m, true) →
      StrictAsc (any.Keys path) ∧ (any.Keys path).Nodup ∧
      ∀ k, k ∈ any.Keys path ↔ k ∈ m.map Prod.fst) ∧
    (((Any.Get any path).2 = false ∨ ∀ m : Map, (Any.Get any path).1 ≠ .map m) →
      any.Keys path = []) ∧
    (∀ m : Map, Map.Get doc path = (.map m, true) →
      StrictAsc (doc.Keys path) ∧ (doc.Keys path).Nodup ∧
      ∀ k, k ∈ doc.Keys path ↔ k ∈ m.map Prod.fst) ∧
    (((Map.Get doc path).2 = false ∨ ∀ m : Map, (Map.Get doc path).1 ≠ .map m) →
      doc.Keys path = []) := by
  refine ⟨?_, ?_, ?_, ?_⟩
  · intro m h
    have hk : any.Keys path = asKeys (.map m) := by
      unfold Any.Keys
      rw [h]
      rfl
    rw [hk]
    exact ⟨(asKeys_map m).1, (asKeys_map m).1.nodup, (asKeys_map m).2⟩
  · intro h
    unfold Any.Keys
    dsimp only
    rcases h with h | h
    · rw [h]; rfl
    · split_ifs
      · cases hv : (Any.Get any path).1 <;> first | rfl | exact absurd hv (h _)
      · rfl
  · intro m h
    have hk : doc.Keys path = asKeys (.map m) := by
      unfold Map.Keys
      rw [h]
      rfl
    rw [hk]
    exact ⟨(asKeys_map m).1, (asKeys_map m).1.nodup, (asKeys_map m).2⟩
  · intro h
    unfold Map.Keys
    dsimp only
    rcases h with h | h
    · rw [h]; rfl
    · split_ifs
      · cases hv : (Map.Get doc path).1 <;> first | rfl | exact absurd hv (h _)
      · rfl

/-- The claim C17 at a mapping with the keys `post`, `get`, `delete` and `get`
again. -/
theorem Keys_of_mapping_witness :
    Any.Keys (.map [("post", .null), ("get", .null), ("delete", .null), ("get", .null)]) []
      = ["delete", "get", "post"] ∧
    StrictAsc (Any.Keys (.map [("post", .null), ("get", .null), ("delete", .null),
      ("get", .null)]) []) ∧
    Any.Keys (.str "post") [] = [] :=
  ⟨by decide!,
    ((Keys_of_mapping (.map [("post", .null), ("get", .null), ("delete", .null), ("get", .null)])
      [] []).1 _ rfl).1,
    (Keys_of_mapping (.str "post") [] []).2.1 (Or.inr (fun m h => by cases h))⟩

/-- Claim C19: the typed helpers are total and miss-tolerant.  `Str`, `Bool`,
`Int64` and `Slice` return what `Get` finds when it is a string, a boolean, a
signed integer (`int64`, `int32`, `int`) or a sequence, and the zero value
otherwise. -/
theorem typed_helpers (any : Any) (path : List String) :
    (∀ s, Any.Get any path = (.str s, true) → any.Str path = s) ∧
    ((∀ s, Any.Get any path ≠ (.str s, true)) → any.Str path = "") ∧
    (∀ b, Any.Get any path = (.bool b, true) → any.Bool path = b) ∧
    ((∀ b, Any.Get any path ≠ (.bool b, true)) → any.Bool path = false) ∧
    (∀ n, (Any.Get any path = (.int64 n, true) ∨ Any.Get any path = (.int32 n, true) ∨
        Any.Get any path = (.int n, true)) → any.Int64 path = n) ∧
    ((∀ n, Any.Get any path ≠ (.int64 n, true) ∧ Any.Get any path ≠ (.int32 n, true) ∧
        Any.Get any path ≠ (.int n, true)) → any.Int64 path = 0) ∧
    (∀ xs, Any.Get any path = (.seq xs, true) → any.Slice path = xs) ∧
    ((∀ xs, Any.Get any path ≠ (.seq xs, true)) → any.Slice path = []) := by
  unfold Any.Str Any.Bool Any.Int64 Any.Slice
  rcases Any.Get any path with ⟨v, found⟩
  cases found
  · simp
  · cases v <;> simp [asStr, asBool, asInt64, asSlice]

/-- The claim C19 at a mapping with a string, a boolean, an integer and a
sequence. -/
theorem typed_helpers_witness :
    Any.Str (.map [("name", .str "limit")]) ["name"] = "limit" ∧
    Any.Str (.map [("name", .str "limit")]) ["missing"] = "" ∧
    Any.Bool (.map [("required", .bool true)]) ["required"] = true ∧
    Any.Bool (.map [("required", .str "yes")]) ["required"] = false ∧
    Any.Int64 (.map [("minimum", .int 3)]) ["minimum"] = 3 ∧
    Any.Int64 (.map [("minimum", .uint64 3)]) ["minimum"] = 0 ∧
    Any.Slice (.map [("enum", .seq [.str "a", .str "b"])]) ["enum"] = [.str "a", .str "b"] ∧
    Any.Slice (.map [("enum", .str "a")]) ["enum"] = [] :=
  ⟨(typed_helpers (.map [("name", .str "limit")]) ["name"]).1 _ rfl,
    (typed_helpers (.map [("name", .str "limit")]) ["missing"]).2.1 (fun s h => by cases h),
    (typed_helpers (.map [("required", .bool true)]) ["required"]).2.2.1 _ rfl,
    (typed_helpers (.map [("required", .str "yes")]) ["required"]).2.2.2.1
      (fun b h => by cases h),
    (typed_helpers (.map [("minimum", .int 3)]) ["minimum"]).2.2.2.2.1 3 (Or.inr (Or.inr rfl)),
    (typed_helpers (.map [("minimum", .uint64 3)]) ["minimum"]).2.2.2.2.2.1
      (fun n => And.intro (fun h => by cases h)
        (And.intro (fun h => by cases h) (fun h => by cases h))),
    (typed_helpers (.map [("enum", .seq [.str "a", .str "b"])]) ["enum"]).2.2.2.2.2.2.1 _ rfl,
    (typed_helpers (.map [("enum", .str "a")]) ["enum"]).2.2.2.2.2.2.2 (fun xs h => by cases h)⟩

/-! ## The accessor: sequence indices -/

theorem digitVal_digitChar (k : Nat) (hk : k < 10) : digitVal (Nat.digitChar k) = some k := by
  interval_cases k <;> decide

theorem parseDigits_toDigitsCore : ∀ (fuel n : Nat) (ds : List Char), n < fuel →
    parseDigits (Nat.toDigitsCore 10 fuel n ds) 0 = parseDigits ds n := by
  intro fuel
  induction fuel with
  | zero => intro n ds h; omega
  | succ fuel ih =>
    intro n ds h
    simp only [Nat.toDigitsCore]
    have hd := digitVal_digitChar (n % 10) (Nat.mod_lt _ (by decide))
    split_ifs with h0
    · simp only [parseDigits, hd]
      congr 1
      omega
    · have hlt : n / 10 < fuel := by omega
      rw [ih (n / 10) _ hlt]
      simp only [parseDigits, hd]
      congr 1
      omega

theorem toDigitsCore_digits : ∀ (fuel n : Nat) (ds : List Char),
    (∀ c ∈ ds, (digitVal c).isSome = true) →
    ∀ c ∈ Nat.toDigitsCore 10 fuel n ds, (digitVal c).isSome = true := by
  intro fuel
  induction fuel with
  | zero => intro n ds h; simpa [Nat.toDigitsCore] using h
  | succ fuel ih =>
    intro n ds h
    simp only [Nat.toDigitsCore]
    have hd := digitVal_digitChar (n % 10) (Nat.mod_lt _ (by decide))
    have h2 : ∀ c ∈ Nat.digitChar (n % 10) :: ds, (digitVal c).isSome = true := by
      intro c hc
      rcases List.mem_cons.1 hc with rfl | hc
      · rw [hd]; rfl
      · exact h c hc
    split_ifs
    · exact h2
    · exact ih _ _ h2

theorem toDigitsCore_ne_nil : ∀ (fuel n : Nat) (ds : List Char),
    Nat.toDigitsCore 10 (fuel + 1) n ds ≠ [] := by
  intro fuel
  induction fuel with
  | zero => intro n ds; simp [Nat.toDigitsCore]
  | succ fuel ih =>
    intro n ds
    rw [Nat.toDigitsCore]
    split_ifs
    · simp
    · exact ih _ _

theorem toString_data (i : Nat) : (toString i).data = Nat.toDigits 10 i := rfl

theorem parseDigits_toString (i : Nat) : parseDigits (toString i).data 0 = some i := by
  rw [toString_data]
  unfold Nat.toDigits
  rw [parseDigits_toDigitsCore _ _ _ (Nat.lt_succ_self i)]
  rfl

theorem toString_data_ne (i : Nat) : (toString i).data ≠ [] := by
  rw [toString_data]
  exact toDigitsCore_ne_nil _ _ _

theorem Atoi_digits (key : String) (N : Nat) (hne : key.data ≠ [])
    (hnum : parseDigits key.data 0 = some N) :
    Atoi key = if N ≥ 2 ^ 63 then ((2 ^ 63 : Int) - 1, false) else ((N : Int), true) := by
  by_cases hN : N < 2 ^ 63
  · rw [Atoi_numeral key N hne hnum hN, if_neg (by omega)]
  · unfold Atoi
    cases hd : key.data with
    | nil => exact absurd hd hne
    | cons c cs =>
      rw [hd] at hnum
      have hdig : ∃ d, digitVal c = some d := by
        simp only [parseDigits] at hnum
        cases h : digitVal c with
        | none => rw [h] at hnum; cases hnum
        | some d => exact ⟨d, rfl⟩
      obtain ⟨d, hdv⟩ := hdig
      obtain ⟨h1, h2⟩ := digitVal_not_sign c d hdv
      have hm : (match c :: cs with
          | '-' :: r => (true, r)
          | '+' :: r => (false, r)
          | r => (false, r)) = (false, c :: cs) := by
        split
        · rename_i heq; cases heq; exact absurd rfl h1
        · rename_i heq; cases heq; exact absurd rfl h2
        · rfl
      simp only [hm, hnum]
      have h3 : N ≥ 2 ^ 63 := by omega
      simp only [h3, if_true]
      rfl

theorem idxMatch_index (i : Nat) : idxMatch ("[" ++ toString i ++ "]") = some (toString i) := by
  have hdata : ("[" ++ toString i ++ "]").data = '[' :: ((toString i).data ++ [']']) := by
    rw [String.data_append, String.data_append]
    rfl
  unfold idxMatch
  rw [hdata]
  simp only [List.reverse_append, List.reverse_cons, List.reverse_nil, List.nil_append,
    List.singleton_append]
  have hne : (toString i).data.reverse ≠ [] := by
    intro h
    exact toString_data_ne i (List.reverse_eq_nil_iff.1 h)
  have hall : (toString i).data.reverse.all (fun c => (digitVal c).isSome) = true := by
    rw [List.all_eq_true]
    intro c hc
    rw [List.mem_reverse, toString_data] at hc
    exact toDigitsCore_digits _ _ [] (fun c hc => by cases hc) c hc
  rw [if_pos ⟨hne, hall⟩, List.reverse_reverse]

/-- Claim C18: with the single segment `[i]`, `Get` on a sequence `s` returns
the element `s[i]` when `i < len(s)` (a Go slice has fewer than `2^63`
elements) and misses when `i >= len(s)`; on every other value it misses, a
mapping with the literal key `[i]` included. -/
theorem Get_index (v : Any) (i : Nat) :
    (∀ (s : List Any) (x : Any), v = .seq s → s.length < 2 ^ 63 → s.get? i = some x →
      Any.Get v ["[" ++ toString i ++ "]"] = (x, true)) ∧
    (∀ s : List Any, v = .seq s → s.length ≤ i →
      Any.Get v ["[" ++ toString i ++ "]"] = (.null, false)) ∧
    ((∀ s : List Any, v ≠ .seq s) →
      Any.Get v ["[" ++ toString i ++ "]"] = (.null, false)) := by
  have hA := Atoi_digits (toString i) i (toString_data_ne i) (parseDigits_toString i)
  refine ⟨?_, ?_, ?_⟩
  · intro s x hv hlen hx
    subst hv
    have hi : i < s.length := by
      rcases Nat.lt_or_ge i s.length with h | h
      · exact h
      · rw [List.get?_eq_none.2 h] at hx; cases hx
    rw [if_neg (by omega)] at hA
    simp only [Any.Get, idxMatch_index, hA]
    have h1 : ¬ ((i : Int) > (s.length : Int) - 1) := by omega
    simp only [h1, if_false, Int.toNat_ofNat, hx]
    simp
  · intro s hv hlen
    subst hv
    simp only [Any.Get, idxMatch_index]
    by_cases hN : i ≥ 2 ^ 63
    · rw [if_pos hN] at hA
      simp [hA]
    · rw [if_neg hN] at hA
      have h1 : (i : Int) > (s.length : Int) - 1 := by omega
      simp [hA, h1]
  · intro hv
    cases v <;> first | exact absurd rfl (hv _) | simp only [Any.Get, idxMatch_index]

/-- The claim C18 at a sequence of two strings and at a mapping with the key
`[1]`. -/
theorem Get_index_witness :
    Any.Get (.seq [.str "a", .str "b"]) ["[" ++ toString 1 ++ "]"] = (.str "b", true) ∧
    Any.Get (.seq [.str "a", .str "b"]) ["[" ++ toString 2 ++ "]"] = (.null, false) ∧
    Any.Get (.map [("[1]", .str "b")]) ["[" ++ toString 1 ++ "]"] = (.null, false) :=
  ⟨(Get_index (.seq [.str "a", .str "b"]) 1).1 _ _ rfl (by decide) rfl,
    (Get_index (.seq [.str "a", .str "b"]) 2).2.1 _ rfl (by decide),
    (Get_index (.map [("[1]", .str "b")]) 1).2.2 (fun s h => by cases h)⟩

/-! ## Where the type mapper aborts: proofs -/

theorem dropWhile_append_of_all {α : Type} (p : α → Bool) :
    ∀ (P l : List α), (∀ a ∈ P, p a = true) → (P ++ l).dropWhile p = l.dropWhile p := by
  intro P
  induction P with
  | nil => intro l _; rfl
  | cons a P ih =>
    intro l h
    rw [List.cons_append, List.dropWhile_cons, if_pos (h a (List.mem_cons_self _ _))]
    exact ih l (fun b hb => h b (List.mem_cons_of_mem _ hb))

theorem takeWhile_append_of_all {α : Type} (p : α → Bool) :
    ∀ (P l : List α), (∀ a ∈ P, p a = true) → (P ++ l).takeWhile p = P ++ l.takeWhile p := by
  intro P
  induction P with
  | nil => intro l _; rfl
  | cons a P ih =>
    intro l h
    rw [List.cons_append, List.takeWhile_cons, if_pos (h a (List.mem_cons_self _ _)),
      ih l (fun b hb => h b (List.mem_cons_of_mem _ hb))]
    rfl

theorem externalRefMatch_some_iff (ref : String) :
    (∃ r, externalRefMatch ref = some r) ↔ WellFormedRef ref := by
  constructor
  · rintro ⟨r, h⟩
    unfold externalRefMatch at h
    split at h
    · rename_i f hf
      split_ifs at h with hc
      refine ⟨ref.data.takeWhile (fun c => c ≠ '#'), f, ?_, ?_, hc.1, hc.2⟩
      · rw [← hf, List.takeWhile_append_dropWhile]
      · intro hm
        have := List.mem_takeWhile_imp hm
        simp at this
    · cases h
  · rintro ⟨P, F, hd, hP, hF, hn⟩
    have hall : ∀ a ∈ P, (fun c => decide (c ≠ '#')) a = true := by
      intro a ha
      have : a ≠ '#' := fun e => hP (e ▸ ha)
      simp [this]
    unfold externalRefMatch
    rw [hd, dropWhile_append_of_all _ P _ hall]
    simp only [List.dropWhile, ne_eq, not_true_eq_false, decide_False, hF, hn, not_false_eq_true,
      and_self, if_true]
    exact ⟨_, rfl⟩

theorem goType_ref_cases (name : String) (node : Any) (req : Bool)
    (href : node.Str ["$ref"] ≠ "") :
    (WellFormedRef (node.Str ["$ref"]) ∧ ∃ r, goType name node req = .ok r) ∨
    (¬ WellFormedRef (node.Str ["$ref"]) ∧ ∃ msg, goType name node req = .error (.panic msg)) := by
  unfold goType goTypeAux
  rw [if_pos href]
  cases hm : externalRefMatch (node.Str ["$ref"]) with
  | none =>
    right
    refine ⟨?_, _, rfl⟩
    intro hw
    obtain ⟨r, hr⟩ := (externalRefMatch_some_iff _).2 hw
    rw [hm] at hr
    cases hr
  | some r =>
    left
    refine ⟨(externalRefMatch_some_iff _).1 ⟨r, hm⟩, ?_⟩
    obtain ⟨file, frag⟩ := r
    dsimp only
    split_ifs <;> exact ⟨_, rfl⟩

theorem goType_noref_cases (name : String) (node : Any) (req : Bool)
    (hnoref : node.Str ["$ref"] = "") :
    (∃ r, goType name node req = .ok r) ∨
    (node.Str ["type"] = "array" ∧ ∃ items, node.Get ["items"] = (items, true)) := by
  by_cases harr : node.Str ["type"] = "array"
  · rcases hg : node.Get ["items"] with ⟨items, b⟩
    cases b
    · left
      unfold goType goTypeAux
      rw [hnoref, harr, hg]
      refine ⟨("[]interface\x7b\x7d", "interface\x7b\x7d"), ?_⟩
      simp
    · exact Or.inr ⟨harr, items, rfl⟩
  · left
    unfold goType goTypeAux
    rw [hnoref]
    simp only [ne_eq, not_true_eq_false, if_false, harr]
    split_ifs <;> exact ⟨_, rfl⟩

theorem goType_error_aborts (name : String) : ∀ (n : Nat) (node : Any) (req : Bool),
    node.depth = n → (∃ e, goType name node req = .error e) → GoTypeAborts node := by
  intro n
  induction n using Nat.strong_induction_on with
  | _ n ih =>
    intro node req hn ⟨e, he⟩
    by_cases href : node.Str ["$ref"] = ""
    · rcases goType_noref_cases name node req href with ⟨r, hr⟩ | ⟨harr, items, hitems⟩
      · rw [hr] at he; cases he
      · rw [goType_array_eq name node items req href harr hitems] at he
        have hd := get_items_depth node items hitems
        cases hi : goType name items true with
        | ok r => rw [hi] at he; cases he
        | error e2 =>
          exact GoTypeAborts.items node items href harr hitems
            (ih items.depth (by omega) items true rfl ⟨e2, hi⟩)
    · rcases goType_ref_cases name node req href with ⟨_, r, hr⟩ | ⟨hw, _⟩
      · rw [hr] at he; cases he
      · exact GoTypeAborts.ref node href hw

theorem goType_aborts_error (name : String) (node : Any) (h : GoTypeAborts node) :
    ∀ req, ∃ msg, goType name node req = .error (.panic msg) := by
  induction h with
  | ref node href hw =>
    intro req
    rcases goType_ref_cases name node req href with ⟨hw2, _⟩ | ⟨_, h2⟩
    · exact absurd hw2 hw
    · exact h2
  | items node items href harr hitems _ ih =>
    intro req
    obtain ⟨msg, hm⟩ := ih true
    exact ⟨msg, by rw [goType_array_eq name node items req href harr hitems, hm]⟩

/-- Claim C11, as stated, fails: the array has no `$ref` of its own, its items
node is the reference `Widget` without `#`, and `goType` aborts. -/
theorem array_of_malformed_reference_counterexample :
    Any.Str badItemsArray ["$ref"] = "" ∧
    goType "tags" badItemsArray true = .error (.panic "Invalid $ref format for tags") := by
  decide!

/-- Claim C11, amended: `goType` aborts, with a panic, exactly on the nodes of
`GoTypeAborts`: a node whose `$ref` is non-empty and not of the form `P#F`
(`P` free of `#`, `F` non-empty and free of line feeds), and an array node
without `$ref` on whose items node `goType` aborts; on every other node
`goType` returns a type expression. -/
theorem goType_aborts_iff (name : String) (node : Any) (req : Bool) :
    ((∃ msg, goType name node req = .error (.panic msg)) ↔ GoTypeAborts node) ∧
    ((∃ r, goType name node req = .ok r) ↔ ¬ GoTypeAborts node) := by
  have h1 : (∃ msg, goType name node req = .error (.panic msg)) ↔ GoTypeAborts node :=
    ⟨fun ⟨msg, h⟩ => goType_error_aborts name _ node req rfl ⟨_, h⟩,
      fun h => goType_aborts_error name node h req⟩
  refine ⟨h1, ?_⟩
  constructor
  · rintro ⟨r, hr⟩ hab
    obtain ⟨msg, hm⟩ := h1.2 hab
    rw [hr] at hm
    cases hm
  · intro hnot
    cases hg : goType name node req with
    | ok r => exact ⟨r, rfl⟩
    | error e => exact absurd (goType_error_aborts name _ node req rfl ⟨e, hg⟩) hnot

/-! ## Identifiers of enumeration values -/

theorem lookup_some_mem {α : Type} (k : String) : ∀ (l : List (String × α)) (c : α),
    l.lookup k = some c → k ∈ l.map Prod.fst := by
  intro l
  induction l with
  | nil => intro c h; simp [List.lookup] at h
  | cons kv rest ih =>
    intro c h
    obtain ⟨k1, v1⟩ := kv
    simp only [List.lookup] at h
    simp only [List.map_cons, List.mem_cons]
    by_cases hk : k = k1
    · exact Or.inl hk
    · have : (k == k1) = false := by simpa using hk
      rw [this] at h
      exact Or.inr (ih c h)

theorem nameValue_fields (name : String) (v : ConstValue)
    (h : v.GoName = "" ∧ v.JsName = "") :
    (nameValue name v).GoName = name ++ goName v.APIName ∧
    (nameValue name v).JsName = jsConst v.APIName := by
  unfold nameValue
  dsimp only
  rw [if_pos h.1]
  dsimp only
  rw [if_pos h.2]
  exact ⟨rfl, rfl⟩

theorem append_left_injective (name : String) : Function.Injective (fun s : String => name ++ s) := by
  intro a b h
  have h2 := congrArg String.data h
  simp only [String.data_append] at h2
  exact String.ext (List.append_cancel_left h2)

/-- Claim C14, as stated, fails: the values `a_b`, `a-b` and `ab` are pairwise
distinct and have no explicit identifiers; the first two get the same
identifier `StatusAB` in convention A, the last two the same identifier `AB`
in convention B. -/
theorem enum_identifiers_clash_counterexample :
    constNamesOf (ParseDoc noFiles 0 clashingEnumDoc) =
      some [("Status", [("a_b", "StatusAB", "A_B"), ("a-b", "StatusAB", "AB"),
        ("ab", "StatusAb", "AB")])] := by
  decide!

/-- Claim C14, amended: for a registered constant whose values have no
explicit identifiers, `parseEnums` emits the constant with the identifiers
`name ++ goName(value)` and `jsConst(value)`; within the constant they are
pairwise distinct exactly when the transformed values `goName(value)`, and
`jsConst(value)`, are pairwise distinct. -/
theorem parseEnums_identifiers (p : parser) (name : String) (c : Const)
    (hc : p.consts.lookup name = some c)
    (hnoid : ∀ v ∈ c.Values, v.GoName = "" ∧ v.JsName = "") :
    ∃ c' ∈ (parseEnums p).api.Consts, c'.Name = c.Name ∧
      c'.Values.map (fun v => v.APIName) = c.Values.map (fun v => v.APIName) ∧
      c'.Values.map (fun v => v.GoName) = c.Values.map (fun v => name ++ goName v.APIName) ∧
      c'.Values.map (fun v => v.JsName) = c.Values.map (fun v => jsConst v.APIName) ∧
      ((c'.Values.map fun v => v.GoName).Nodup ↔
        (c.Values.map fun v => goName v.APIName).Nodup) ∧
      ((c'.Values.map fun v => v.JsName).Nodup ↔
        (c.Values.map fun v => jsConst v.APIName).Nodup) := by
  have hgo : (c.Values.map (nameValue name)).map (fun v => v.GoName)
      = c.Values.map (fun v => name ++ goName v.APIName) := by
    rw [List.map_map]
    exact List.map_congr_left (fun v hv => (nameValue_fields name v (hnoid v hv)).1)
  have hjs : (c.Values.map (nameValue name)).map (fun v => v.JsName)
      = c.Values.map (fun v => jsConst v.APIName) := by
    rw [List.map_map]
    exact List.map_congr_left (fun v hv => (nameValue_fields name v (hnoid v hv)).2)
  have hapi : (c.Values.map (nameValue name)).map (fun v => v.APIName)
      = c.Values.map (fun v => v.APIName) := by
    rw [List.map_map]
    apply List.map_congr_left
    intro v _
    show (nameValue name v).APIName = v.APIName
    unfold nameValue
    dsimp only
    split_ifs <;> rfl
  refine ⟨{ c with Values := c.Values.map (nameValue name) }, ?_, rfl, hapi, hgo, hjs, ?_, ?_⟩
  · show _ ∈ (parseEnums p).api.Consts
    unfold parseEnums
    dsimp only
    apply List.mem_append_right
    refine List.mem_map.2 ⟨name, (sortStrings_mem _ _).2 (lookup_some_mem name _ c hc), ?_⟩
    rw [hc]
    rfl
  · show ((c.Values.map (nameValue name)).map fun v => v.GoName).Nodup ↔ _
    rw [hgo]
    have : c.Values.map (fun v => name ++ goName v.APIName)
        = (c.Values.map fun v => goName v.APIName).map (fun s => name ++ s) := by
      rw [List.map_map]; rfl
    rw [this]
    exact List.nodup_map_iff (append_left_injective name)
  · show ((c.Values.map (nameValue name)).map fun v => v.JsName).Nodup ↔ _
    rw [hjs]

/-- The amended claim C14 at the constant `Color` with the values `red` and
`green`. -/
theorem parseEnums_identifiers_witness :
    ∃ c' ∈ (parseEnums (parseConst (startOf []) "Color" colorEnum)).api.Consts,
      c'.Name = "Color" ∧
      c'.Values.map (fun v => v.GoName) = ["Color" ++ goName "red", "Color" ++ goName "green"] ∧
      (c'.Values.map fun v => v.GoName).Nodup := by
  obtain ⟨c', hmem, hn, _, hgo, _, hnd, _⟩ :=
    parseEnums_identifiers (parseConst (startOf []) "Color" colorEnum) "Color"
      { Name := "Color", Values := [{ APIName := "red" }, { APIName := "green" }] }
      (by decide!) (by decide!)
  exact ⟨c', hmem, hn, hgo, hnd.2 (by decide!)⟩

/-! ## The path loop without references -/

theorem forEach_pres {κ σ : Type} (body : σ → κ → Except Abort σ) (I : σ → Prop) :
    ∀ (ks : List κ), (∀ s k s', k ∈ ks → I s → body s k = .ok s' → I s') →
      ∀ (s s' : σ), I s → forEach body ks s = .ok s' → I s' := by
  intro ks
  induction ks with
  | nil => intro _ s s' hI h; simp only [forEach] at h; cases h; exact hI
  | cons k ks ih =>
    intro hbody s s' hI h
    simp only [forEach] at h
    cases hb : body s k with
    | error e => rw [hb] at h; cases h
    | ok q =>
      rw [hb] at h
      exact ih (fun a b c hb hI hr => hbody a b c (List.mem_cons_of_mem _ hb) hI hr) q s'
        (hbody s k q (List.mem_cons_self _ _) hI hb) h

theorem forEach_append {κ σ α : Type} (body : σ → κ → Except Abort σ) (I : σ → Prop)
    (obs : σ → List α) (f : κ → List α)
    (hbody : ∀ s k s', I s → body s k = .ok s' → I s' ∧ obs s' = obs s ++ f k) :
    ∀ (ks : List κ) (s s' : σ), I s → forEach body ks s = .ok s' →
      I s' ∧ obs s' = obs s ++ ks.flatMap f := by
  intro ks
  induction ks with
  | nil =>
    intro s s' hI h
    simp only [forEach] at h
    cases h
    exact ⟨hI, by simp⟩
  | cons k ks ih =>
    intro s s' hI h
    simp only [forEach] at h
    cases hb : body s k with
    | error e => rw [hb] at h; cases h
    | ok q =>
      rw [hb] at h
      obtain ⟨hIq, hq⟩ := hbody s k q hI hb
      obtain ⟨hI2, h2⟩ := ih q s' hIq h
      refine ⟨hI2, ?_⟩
      rw [h2, hq, List.flatMap_cons, List.append_assoc]

theorem mergeCommonParams_names (common : List Any) (t : String) :
    ∀ (l l' : List Schema), mergeCommonParams common t l = .ok l' →
      l'.map (fun s => s.GoName) = l.map (fun s => s.GoName) := by
  intro l
  induction l with
  | nil => intro l' h; simp only [mergeCommonParams] at h; cases h; rfl
  | cons sc rest ih =>
    intro l' h
    simp only [mergeCommonParams] at h
    by_cases hn : sc.GoName = t
    · rw [if_pos hn] at h
      cases hc : parseParams true common with
      | error e => rw [hc] at h; cases h
      | ok ps =>
        rw [hc] at h
        dsimp only at h
        cases hr : mergeCommonParams common t rest with
        | error e => rw [hr] at h; cases h
        | ok rest' =>
          rw [hr] at h
          cases h
          simp only [List.map_cons, ih rest' hr]
    · rw [if_neg hn] at h
      cases hr : mergeCommonParams common t rest with
      | error e => rw [hr] at h; cases h
      | ok rest' =>
        rw [hr] at h
        cases h
        simp only [List.map_cons, ih rest' hr]

/-- The fields the body of the loop of `parsePath` leaves alone. -/
theorem parseMethod_frame (p p' : parser) (path : String) (subDoc : Any) (common : List Any)
    (method : String) (h : parseMethod p path subDoc common method = .ok p') :
    p'.consts = p.consts ∧ p'.api.Consts = p.api.Consts := by
  unfold parseMethod at h
  dsimp only at h
  split_ifs at h
  · cases h; exact ⟨rfl, rfl⟩
  · split at h
    · cases h
    · cases h; exact ⟨rfl, rfl⟩
  · cases h; exact ⟨rfl, rfl⟩
  · split at h
    · cases h
    · cases h; exact ⟨rfl, rfl⟩

/-- The methods and the schema names the body of the loop of `parsePath`
adds. -/
theorem parseMethod_adds (p p' : parser) (path : String) (subDoc : Any) (common : List Any)
    (method : String) (h : parseMethod p path subDoc common method = .ok p') :
    p'.api.Methods = p.api.Methods ++
      (if (subDoc.Get [method]).1.Str ["operationId"] = "" then []
       else [buildMethod path method (subDoc.Get [method]).1]) ∧
    p'.api.Schemas.map (fun s => s.GoName) = p.api.Schemas.map (fun s => s.GoName) ++
      (if (subDoc.Get [method]).1.Str ["operationId"] = "" then []
       else if ((subDoc.Get [method]).1.Get ["requestBody"]).2 = true then []
       else [inputType (subDoc.Get [method]).1]) := by
  obtain ⟨_, hc⟩ := parseMethod_ok p p' path subDoc common method h
  rcases hc with ⟨h0, rfl⟩ | ⟨h0, hm, hs⟩
  · simp [h0]
  · rw [if_neg h0, if_neg h0]
    refine ⟨hm, ?_⟩
    rcases hs with ⟨hb, hs | hs⟩ | ⟨hb, params, _, hs⟩
    · rw [if_pos hb, hs]; simp
    · rw [if_pos hb, mergeCommonParams_names _ _ _ _ hs]; simp
    · rw [if_neg (by rw [hb]; decide), hs, List.map_append]
      rfl

/-- What `parsePath` does on a path entry that is not a reference. -/
theorem parsePath_noref (fs : Loader) (parseRef : Map → Parsed) (p p' : parser)
    (path : String) (item : Any) (e : Option ParseError)
    (hnoref : item.Str ["$ref"] = "")
    (h : parsePath fs parseRef p path item = .ok (p', e)) :
    e = none ∧ p'.doc = p.doc ∧ p'.consts = p.consts ∧ p'.api.Consts = p.api.Consts ∧
    p'.api.Methods = p.api.Methods ++ methodsOfItem path item ∧
    p'.api.Schemas.map (fun s => s.GoName)
      = p.api.Schemas.map (fun s => s.GoName) ++ inputNamesOfItem item := by
  unfold parsePath at h
  rw [if_neg (not_not.2 hnoref)] at h
  split at h
  · cases h
  · rename_i r hr
    cases h
    have hd := (forEach_ext _ (fun a k b hb => parseMethod_ext a b _ _ _ k hb) _ _ _ hr).doc
    have hfr := forEach_pres _ (fun s => s.consts = p.consts ∧ s.api.Consts = p.api.Consts) _
      (fun s k s' _ hI hb => by
        obtain ⟨h1, h2⟩ := parseMethod_frame _ _ _ _ _ _ hb
        exact ⟨h1.trans hI.1, h2.trans hI.2⟩) p p' ⟨rfl, rfl⟩ hr
    have hM := (forEach_append _ (fun _ => True) (fun s => s.api.Methods)
      (fun key => if (item.Get [key]).1.Str ["operationId"] = "" then []
        else [buildMethod path key (item.Get [key]).1])
      (fun s k s' _ hb => ⟨trivial, (parseMethod_adds _ _ _ _ _ _ hb).1⟩) _ p p' trivial hr).2
    have hS := (forEach_append _ (fun _ => True) (fun s => s.api.Schemas.map (fun s => s.GoName))
      (fun key => if (item.Get [key]).1.Str ["operationId"] = "" then []
        else if ((item.Get [key]).1.Get ["requestBody"]).2 = true then []
        else [inputType (item.Get [key]).1])
      (fun s k s' _ hb => ⟨trivial, (parseMethod_adds _ _ _ _ _ _ hb).2⟩) _ p p' trivial hr).2
    exact ⟨rfl, hd, hfr.1, hfr.2, hM, hS⟩

/-- What the path loop does when none of its paths is a reference. -/
theorem parsePathsLoop_noref (fs : Loader) (parseRef : Map → Parsed) :
    ∀ (ks : List String) (p p' : parser) (e : Option ParseError),
      (∀ path ∈ ks, (p.doc.Get ["paths", path]).1.Str ["$ref"] = "") →
      parsePathsLoop fs parseRef ks p = .ok (p', e) →
      e = none ∧ p'.doc = p.doc ∧ p'.consts = p.consts ∧ p'.api.Consts = p.api.Consts ∧
      p'.api.Methods = p.api.Methods ++
        ks.flatMap (fun path => methodsOfItem path (p.doc.Get ["paths", path]).1) ∧
      p'.api.Schemas.map (fun s => s.GoName) = p.api.Schemas.map (fun s => s.GoName) ++
        ks.flatMap (fun path => inputNamesOfItem (p.doc.Get ["paths", path]).1) := by
  intro ks
  induction ks with
  | nil =>
    intro p p' e _ h
    simp only [parsePathsLoop] at h
    cases h
    simp
  | cons k ks ih =>
    intro p p' e hno h
    simp only [parsePathsLoop] at h
    have hk := hno k (List.mem_cons_self _ _)
    split at h
    · cases h
    · rename_i q e1 hq
      obtain ⟨he, _⟩ := parsePath_noref _ _ _ _ _ _ _ hk hq
      cases he
    · rename_i q hq
      obtain ⟨_, hd, hc, hC, hM, hS⟩ := parsePath_noref _ _ _ _ _ _ _ hk hq
      have hno2 : ∀ path ∈ ks, (q.doc.Get ["paths", path]).1.Str ["$ref"] = "" := by
        intro path hp
        rw [hd]
        exact hno path (List.mem_cons_of_mem _ hp)
      obtain ⟨he, hd2, hc2, hC2, hM2, hS2⟩ := ih q p' e hno2 h
      refine ⟨he, hd2.trans hd, hc2.trans hc, hC2.trans hC, ?_, ?_⟩
      · rw [hM2, hM, hd, List.flatMap_cons, List.append_assoc]
      · rw [hS2, hS, hd, List.flatMap_cons, List.append_assoc]

/-! ## The schema loop and the registered constants -/

theorem flatMap_if_singleton {α : Type} (q : α → Prop) [DecidablePred q] :
    ∀ l : List α, l.flatMap (fun a => if q a then [a] else []) = l.filter (fun a => decide (q a)) := by
  intro l
  induction l with
  | nil => rfl
  | cons a l ih =>
    rw [List.flatMap_cons, ih, List.filter_cons]
    by_cases h : q a <;> simp [h]

/-- The fields `parseSchema` leaves alone. -/
theorem parseSchema_frame (p p' : parser) (name : String) (s : Any)
    (h : parseSchema p name s = .ok p') :
    p'.api.Consts = p.api.Consts ∧
    p'.api.Schemas.map (fun s => s.GoName) = p.api.Schemas.map (fun s => s.GoName) ++ [name] := by
  obtain ⟨_, _, params, hs, _⟩ := parseSchema_ok p p' name s h
  refine ⟨?_, by rw [hs, List.map_append]; rfl⟩
  unfold parseSchema at h
  dsimp only at h
  split at h
  · cases h
  · rename_i q params2 hl
    cases h
    have hext := parseProps_ext _ _ _ _ _ hl
    show q.api.Consts = p.api.Consts
    rw [hext.2.1]

/-- What the body of the loop of `parseSchemas` does to the model. -/
theorem parseSchemaEntry_adds (p p' : parser) (name : String)
    (h : parseSchemaEntry p name = .ok p') :
    p'.doc = p.doc ∧ p'.api.Consts = p.api.Consts ∧ p'.api.Methods = p.api.Methods ∧
    p'.api.Schemas.map (fun s => s.GoName) = p.api.Schemas.map (fun s => s.GoName) ++
      (if (p.doc.Get ["components", "schemas", name]).1.Str ["type"] = "object" then [name]
       else []) := by
  have hd := (parseSchemaEntry_ext p p' name h).doc
  unfold parseSchemaEntry at h
  dsimp only at h
  by_cases ho : (p.doc.Get ["components", "schemas", name]).1.Str ["type"] = "object"
  · rw [if_pos ho] at h
    rw [if_pos ho]
    obtain ⟨_, hm, _⟩ := parseSchema_ok _ _ _ _ h
    obtain ⟨hc, hs⟩ := parseSchema_frame _ _ _ _ h
    exact ⟨hd, hc, hm, hs⟩
  · rw [if_neg ho] at h
    rw [if_neg ho]
    split_ifs at h
    · cases h
      rw [parseConst_api]
      exact ⟨hd, rfl, rfl, by simp⟩
    · cases h
      exact ⟨hd, rfl, rfl, by simp⟩

/-- What `parseSchemas` does to the model: one schema for every entry of type
object, nothing else. -/
theorem parseSchemas_adds (p p' : parser) (h : parseSchemas p = .ok p') :
    p'.doc = p.doc ∧ p'.api.Consts = p.api.Consts ∧ p'.api.Methods = p.api.Methods ∧
    p'.api.Schemas.map (fun s => s.GoName)
      = p.api.Schemas.map (fun s => s.GoName) ++ objectNames p.doc := by
  unfold parseSchemas at h
  have hfr := forEach_pres parseSchemaEntry
    (fun s => s.doc = p.doc ∧ s.api.Consts = p.api.Consts ∧ s.api.Methods = p.api.Methods) _
    (fun s k s' _ hI hb => by
      obtain ⟨h1, h2, h3, _⟩ := parseSchemaEntry_adds _ _ _ hb
      exact ⟨h1.trans hI.1, h2.trans hI.2.1, h3.trans hI.2.2⟩) p p' ⟨rfl, rfl, rfl⟩ h
  have hS := (forEach_append parseSchemaEntry (fun s => s.doc = p.doc)
    (fun s => s.api.Schemas.map (fun s => s.GoName))
    (fun name => if (p.doc.Get ["components", "schemas", name]).1.Str ["type"] = "object"
      then [name] else [])
    (fun s k s' hI hb => by
      obtain ⟨h1, _, _, h4⟩ := parseSchemaEntry_adds _ _ _ hb
      rw [hI] at h4
      exact ⟨h1.trans hI, h4⟩) _ p p' rfl h).2
  refine ⟨hfr.1, hfr.2.1, hfr.2.2, ?_⟩
  rw [hS, flatMap_if_singleton]
  rfl

/-- The run behind any result of `ParseDoc`: it starts from an empty model,
and the result is read from the state after the paths, after `parseEnums` when
there was no error. -/
theorem ParseDoc_run (fs : Loader) (fuel : Nat) (doc : Map) (api : API)
    (e : Option ParseError) (h : ParseDoc fs fuel doc = .ok (api, e)) :
    ∃ (parseRef : Map → Parsed) (p0 p1 p2 : parser),
      p0.doc = doc ∧ p0.consts = [] ∧ p0.api.Consts = [] ∧ p0.api.Methods = [] ∧
      p0.api.Schemas = [] ∧
      parseSchemas p0 = .ok p1 ∧ parsePaths fs parseRef p1 = .ok (p2, e) ∧
      api = (match e with
        | none => (parseEnums p2).api
        | some _ => p2.api) := by
  have key : ∀ parseRef : Map → Parsed, parseDocWith fs parseRef doc = .ok (api, e) →
      ∃ (p0 p1 p2 : parser),
      p0.doc = doc ∧ p0.consts = [] ∧ p0.api.Consts = [] ∧ p0.api.Methods = [] ∧
      p0.api.Schemas = [] ∧
      parseSchemas p0 = .ok p1 ∧ parsePaths fs parseRef p1 = .ok (p2, e) ∧
      api = (match e with
        | none => (parseEnums p2).api
        | some _ => p2.api) := by
    intro parseRef h
    unfold parseDocWith at h
    dsimp only at h
    split at h
    · cases h
    · rename_i p1 h1
      split at h
      · cases h
      · rename_i p2 e2 h2
        cases h
        exact ⟨_, p1, p2, rfl, rfl, rfl, rfl, rfl, h1, h2, rfl⟩
      · rename_i p2 h2
        cases h
        exact ⟨_, p1, p2, rfl, rfl, rfl, rfl, rfl, h1, h2, rfl⟩
  cases fuel with
  | zero => exact ⟨_, key _ h⟩
  | succ n => exact ⟨_, key _ h⟩

theorem mapInsert_keys {α : Type} (k : String) (v : α) : ∀ l : List (String × α),
    (mapInsert k v l).map Prod.fst =
      if k ∈ l.map Prod.fst then l.map Prod.fst else l.map Prod.fst ++ [k] := by
  intro l
  induction l with
  | nil => simp [mapInsert]
  | cons kv rest ih =>
    obtain ⟨k1, v1⟩ := kv
    simp only [mapInsert]
    by_cases h : k1 = k
    · subst h
      simp
    · have h2 : ¬ k = k1 := fun e => h e.symm
      rw [if_neg h]
      simp only [List.map_cons, ih, List.mem_cons, h2, false_or]
      split_ifs <;> simp

theorem mapInsert_mem {α : Type} (k : String) (v : α) : ∀ (l : List (String × α)) (kc : String × α),
    kc ∈ mapInsert k v l → kc = (k, v) ∨ kc ∈ l := by
  intro l
  induction l with
  | nil => intro kc h; simp only [mapInsert, List.mem_singleton] at h; exact Or.inl h
  | cons kv rest ih =>
    intro kc h
    obtain ⟨k1, v1⟩ := kv
    simp only [mapInsert] at h
    split_ifs at h
    · rcases List.mem_cons.1 h with h | h
      · exact Or.inl h
      · exact Or.inr (List.mem_cons_of_mem _ h)
    · rcases List.mem_cons.1 h with h | h
      · exact Or.inr (h ▸ List.mem_cons_self _ _)
      · rcases ih kc h with h | h
        · exact Or.inl h
        · exact Or.inr (List.mem_cons_of_mem _ h)

theorem lookup_mapInsert_self {α : Type} (k : String) (v : α) : ∀ l : List (String × α),
    (mapInsert k v l).lookup k = some v := by
  intro l
  induction l with
  | nil => simp [mapInsert, List.lookup]
  | cons kv rest ih =>
    obtain ⟨k1, v1⟩ := kv
    simp only [mapInsert]
    split_ifs with h
    · simp [List.lookup]
    · have h2 : (k == k1) = false := by simpa using fun e : k = k1 => h e.symm
      simp only [List.lookup, h2]
      exact ih

theorem lookup_mapInsert_ne {α : Type} (k k2 : String) (v : α) (hne : k2 ≠ k) :
    ∀ l : List (String × α), (mapInsert k v l).lookup k2 = l.lookup k2 := by
  intro l
  induction l with
  | nil =>
    have h2 : (k2 == k) = false := by simpa using hne
    simp [mapInsert, List.lookup, h2]
  | cons kv rest ih =>
    obtain ⟨k1, v1⟩ := kv
    simp only [mapInsert]
    split_ifs with h
    · subst h
      have h2 : (k2 == k1) = false := by simpa using hne
      simp [List.lookup, h2]
    · simp only [List.lookup]
      cases k2 == k1
      · exact ih
      · rfl

theorem ConstsWF_mapInsert (k : String) (vals : List ConstValue) (cs : List (String × Const))
    (h : ConstsWF cs) : ConstsWF (mapInsert k { Name := k, Values := vals } cs) := by
  refine ⟨?_, ?_⟩
  · rw [mapInsert_keys]
    split_ifs with hk
    · exact h.1
    · exact List.Nodup.append h.1 (List.nodup_singleton _)
        (by
          intro a ha hb
          rw [List.mem_singleton] at hb
          exact hk (hb ▸ ha))
  · intro kc hkc
    rcases mapInsert_mem _ _ _ _ hkc with h1 | h1
    · rw [h1]
    · exact h.2 kc h1

/-- The two things `parseConst` can do to the map of constants. -/
theorem parseConst_consts (p : parser) (n : String) (v : Any) :
    ((v.Slice ["enum"]).length = 0 ∧ (parseConst p n v).consts = p.consts) ∨
    ((v.Slice ["enum"]).length ≠ 0 ∧ ∃ vals : List ConstValue,
      ((v.Get ["custom-enum"]).2 = false →
        vals = (v.Slice ["enum"]).map fun val => { APIName := val.Str [] }) ∧
      (parseConst p n v).consts
        = mapInsert (goName n) { Name := goName n, Values := vals } p.consts) := by
  unfold parseConst
  dsimp only
  by_cases h : (v.Slice ["enum"]).length = 0
  · rw [if_pos h]
    exact Or.inl ⟨h, rfl⟩
  · rw [if_neg h]
    refine Or.inr ⟨h, _, ?_, rfl⟩
    intro hc
    rw [hc]
    simp

theorem parseConst_wf (p : parser) (n : String) (v : Any) (h : ConstsWF p.consts) :
    ConstsWF (parseConst p n v).consts := by
  rcases parseConst_consts p n v with ⟨_, h1⟩ | ⟨_, vals, _, h1⟩
  · rw [h1]; exact h
  · rw [h1]; exact ConstsWF_mapInsert _ _ _ h

/-- A property of the map of constants that every `parseConst` of a property
of the schema keeps is kept by `parseSchema`. -/
theorem parseSchema_consts (p p' : parser) (name : String) (s : Any)
    (I : List (String × Const) → Prop)
    (hstep : ∀ (q : parser) (pn : String), pn ∈ s.Keys ["properties"] → I q.consts →
      I (parseConst q pn (s.Get ["properties", pn]).1).consts)
    (h : parseSchema p name s = .ok p') (hI : I p.consts) : I p'.consts := by
  unfold parseSchema at h
  dsimp only at h
  split at h
  · cases h
  · rename_i q params hl
    cases h
    show I q.consts
    exact forEach_pres _ (fun st : parser × List Param => I st.1.consts) _
      (fun st k st' hk hI hb => by
        obtain ⟨_, _, _, h3⟩ := parsePropStep_ok _ _ _ _ _ hb
        rw [h3]
        exact hstep _ _ hk hI) (p, []) (q, params) hI hl

/-- A property of the map of constants kept by the `parseConst` calls of an
entry is kept by the body of the loop of `parseSchemas`. -/
theorem parseSchemaEntry_consts (p p' : parser) (name : String)
    (I : List (String × Const) → Prop)
    (hobj : (p.doc.Get ["components", "schemas", name]).1.Str ["type"] = "object" →
      ∀ (q : parser) (pn : String),
        pn ∈ (p.doc.Get ["components", "schemas", name]).1.Keys ["properties"] → I q.consts →
        I (parseConst q pn
          ((p.doc.Get ["components", "schemas", name]).1.Get ["properties", pn]).1).consts)
    (hstr : (p.doc.Get ["components", "schemas", name]).1.Str ["type"] = "string" →
      I p.consts → I (parseConst p name (p.doc.Get ["components", "schemas", name]).1).consts)
    (h : parseSchemaEntry p name = .ok p') (hI : I p.consts) : I p'.consts := by
  unfold parseSchemaEntry at h
  dsimp only at h
  split_ifs at h with h1 h2
  · exact parseSchema_consts _ _ _ _ I (hobj h1) h hI
  · cases h
    exact hstr h2 hI
  · cases h
    exact hI

theorem parseSchemas_wf (p p' : parser) (h : parseSchemas p = .ok p')
    (hwf : ConstsWF p.consts) : ConstsWF p'.consts := by
  unfold parseSchemas at h
  exact forEach_pres parseSchemaEntry (fun s => ConstsWF s.consts) _
    (fun s k s' _ hI hb => parseSchemaEntry_consts s s' k ConstsWF
      (fun _ q pn _ hq => parseConst_wf q pn _ hq) (fun _ hq => parseConst_wf s k _ hq) hb hI)
    p p' hwf h

theorem parsePathRef_consts (fs : Loader) (parseRef : Map → Parsed) (p p' : parser)
    (path ref : String) (e : Option ParseError)
    (h : parsePathRef fs parseRef p path ref = .ok (p', e)) : p'.consts = p.consts := by
  unfold parsePathRef at h
  split at h
  · cases h; rfl
  · rename_i file frag hmatch
    by_cases hm : mapHas file p.api.RefDocs = true
    · rw [if_pos hm] at h
      cases h; rfl
    · rw [if_neg hm] at h
      dsimp only at h
      generalize (if HasPrefix file ".json" = true then fs.LoadJSON file else fs.LoadYAML file)
        = loaded at h
      cases loaded with
      | error cause => dsimp only at h; cases h; rfl
      | ok refDoc =>
        dsimp only at h
        split at h
        · cases h
        · cases h; rfl
        · cases h; rfl

theorem parsePath_consts (fs : Loader) (parseRef : Map → Parsed) (p p' : parser)
    (path : String) (subDoc : Any) (e : Option ParseError)
    (h : parsePath fs parseRef p path subDoc = .ok (p', e)) : p'.consts = p.consts := by
  by_cases hr : subDoc.Str ["$ref"] = ""
  · exact (parsePath_noref _ _ _ _ _ _ _ hr h).2.2.1
  · unfold parsePath at h
    rw [if_pos hr] at h
    exact parsePathRef_consts _ _ _ _ _ _ _ h

theorem parsePathsLoop_consts (fs : Loader) (parseRef : Map → Parsed) :
    ∀ (ks : List String) (p p' : parser) (e : Option ParseError),
      parsePathsLoop fs parseRef ks p = .ok (p', e) → p'.consts = p.consts := by
  intro ks
  induction ks with
  | nil => intro p p' e h; simp only [parsePathsLoop] at h; cases h; rfl
  | cons k ks ih =>
    intro p p' e h
    simp only [parsePathsLoop] at h
    split at h
    · cases h
    · rename_i q e1 hq
      cases h
      exact parsePath_consts _ _ _ _ _ _ _ hq
    · rename_i q hq
      exact (ih q p' e h).trans (parsePath_consts _ _ _ _ _ _ _ hq)

theorem lookup_of_mem_nodup {α : Type} : ∀ (l : List (String × α)) (k : String) (c : α),
    (l.map Prod.fst).Nodup → (k, c) ∈ l → l.lookup k = some c := by
  intro l
  induction l with
  | nil => intro k c _ h; cases h
  | cons kv rest ih =>
    intro k c hnd h
    obtain ⟨k1, v1⟩ := kv
    rw [List.map_cons, List.nodup_cons] at hnd
    rcases List.mem_cons.1 h with h1 | h1
    · cases h1
      simp [List.lookup]
    · have hne : k ≠ k1 := by
        intro e
        subst e
        exact hnd.1 (List.mem_map.2 ⟨(k, c), h1, rfl⟩)
      have h2 : (k == k1) = false := by simpa using hne
      simp only [List.lookup, h2]
      exact ih k c hnd.2 h1

/-- The constants `parseEnums` emits for a map of registered constants. -/
theorem parseEnums_consts_names (p : parser) (hwf : ConstsWF p.consts) :
    (parseEnums p).api.Consts.map (fun c => c.Name)
      = p.api.Consts.map (fun c => c.Name) ++ sortStrings (p.consts.map Prod.fst) := by
  unfold parseEnums
  dsimp only
  rw [List.map_append, List.map_map]
  congr 1
  conv_rhs => rw [← List.map_id (sortStrings (p.consts.map Prod.fst))]
  apply List.map_congr_left
  intro name hname
  rw [sortStrings_mem, List.mem_map] at hname
  obtain ⟨⟨k, c⟩, hmem, hk⟩ := hname
  dsimp only at hk
  subst hk
  have hl : p.consts.lookup k = some c := lookup_of_mem_nodup _ _ _ hwf.1 hmem
  simp only [Function.comp, hl, Option.getD_some, id]
  exact hwf.2 _ hmem

/-! ## Documents without path-level references -/

theorem ConstsWF_nil : ConstsWF [] :=
  ⟨List.nodup_nil, fun _ h => by cases h⟩

/-- The model `ParseDoc` returns for a document without path-level references:
no error, the methods of its operations, the schemas of its object entries
followed by the synthesized input schemas, and constants of strictly ascending
names. -/
theorem ParseDoc_noref (fs : Loader) (fuel : Nat) (doc : Map) (api : API)
    (e : Option ParseError) (hno : NoPathRefs doc)
    (h : ParseDoc fs fuel doc = .ok (api, e)) :
    e = none ∧ api.Methods = methodsOfDoc doc ∧
    api.Schemas.map (fun s => s.GoName) = objectNames doc ++ inputNamesOfDoc doc ∧
    StrictAsc (api.Consts.map fun c => c.Name) := by
  obtain ⟨parseRef, p0, p1, p2, hd0, hc0, hC0, hM0, hS0, h1, h2, hapi⟩ :=
    ParseDoc_run fs fuel doc api e h
  obtain ⟨hd1, hC1, hM1, hS1⟩ := parseSchemas_adds p0 p1 h1
  have hwf1 : ConstsWF p1.consts := parseSchemas_wf p0 p1 h1 (by rw [hc0]; exact ConstsWF_nil)
  unfold parsePaths at h2
  have hno1 : ∀ path ∈ p1.doc.Keys ["paths"],
      (p1.doc.Get ["paths", path]).1.Str ["$ref"] = "" := by
    rw [hd1, hd0]; exact hno
  obtain ⟨he, _, hc2, hC2, hM2, hS2⟩ := parsePathsLoop_noref fs parseRef _ p1 p2 e hno1 h2
  subst he
  dsimp only at hapi
  subst hapi
  rw [hd1, hd0] at hM2 hS2
  rw [hd0] at hS1
  refine ⟨rfl, ?_, ?_, ?_⟩
  · rw [parseEnums_methods, hM2, hM1, hM0]
    rfl
  · rw [parseEnums_schemas, hS2, hS1, hS0]
    rfl
  · rw [parseEnums_consts_names p2 (by rw [hc2]; exact hwf1), hC2, hC1, hC0]
    rw [List.map_nil, List.nil_append]
    exact sortStrings_strictAsc _ (by rw [hc2]; exact hwf1.1)

/-- Claim C13: for a document without path-level references, the constants
`ParseDoc` returns are strictly ascending by name in the order of
`sort.Strings`, so sorted and without two of the same name. -/
theorem ParseDoc_consts_sorted (fs : Loader) (fuel : Nat) (doc : Map) (api : API)
    (e : Option ParseError) (hno : NoPathRefs doc)
    (h : ParseDoc fs fuel doc = .ok (api, e)) :
    StrictAsc (api.Consts.map fun c => c.Name) ∧ (api.Consts.map fun c => c.Name).Nodup :=
  ⟨(ParseDoc_noref fs fuel doc api e hno h).2.2.2,
    (ParseDoc_noref fs fuel doc api e hno h).2.2.2.nodup⟩

/-- The claim C13 at a document with the enumerations `Shade`, `Color` and
`size`. -/
theorem ParseDoc_consts_sorted_witness :
    (apiOf (ParseDoc noFiles 0 enumsDoc)).Consts.map (fun c => c.Name)
      = ["Color", "Shade", "Size"] ∧
    StrictAsc ((apiOf (ParseDoc noFiles 0 enumsDoc)).Consts.map fun c => c.Name) :=
  ⟨by decide!,
    (ParseDoc_consts_sorted noFiles 0 enumsDoc (apiOf (ParseDoc noFiles 0 enumsDoc)) none
      (by decide!) (parsedOk_eq _ (by decide!))).1⟩

/-- Claim C15, as stated, fails: the document has no path-level reference, it
defines the object `ListWidgetsInput`, and the operation `ListWidgets` without
request body gets a synthesized input schema of the same name. -/
theorem schema_names_repeat_counterexample :
    NoPathRefs sameNameDoc ∧
    schemaNamesOf (ParseDoc noFiles 0 sameNameDoc)
      = some ["ListWidgetsInput", "ListWidgetsInput"] := by
  decide!

/-- Claim C15, amended: for a document without path-level references the names
of the schemas `ParseDoc` returns are the names of the object entries of
`components.schemas`, which are pairwise distinct, followed by the input types
of the operations without request body; no two schemas have the same name
exactly when those input types are pairwise distinct and none of them is the
name of an object entry. -/
theorem ParseDoc_schema_names (fs : Loader) (fuel : Nat) (doc : Map) (api : API)
    (e : Option ParseError) (hno : NoPathRefs doc)
    (h : ParseDoc fs fuel doc = .ok (api, e)) :
    api.Schemas.map (fun s => s.GoName) = objectNames doc ++ inputNamesOfDoc doc ∧
    (objectNames doc).Nodup ∧
    ((api.Schemas.map fun s => s.GoName).Nodup ↔
      (inputNamesOfDoc doc).Nodup ∧ ∀ n ∈ objectNames doc, n ∉ inputNamesOfDoc doc) := by
  have hn := (ParseDoc_noref fs fuel doc api e hno h).2.2.1
  have hobj : (objectNames doc).Nodup :=
    List.Nodup.filter _ (docKeys_strictAsc doc _).nodup
  refine ⟨hn, hobj, ?_⟩
  rw [hn, List.nodup_append]
  constructor
  · rintro ⟨_, h2, h3⟩
    exact ⟨h2, fun n hn1 hn2 => h3 hn1 hn2⟩
  · rintro ⟨h2, h3⟩
    exact ⟨hobj, h2, fun n hn1 hn2 => h3 n hn1 hn2⟩

/-- The amended claim C15 at the document whose object entry and synthesized
input schema have the same name. -/
theorem ParseDoc_schema_names_witness :
    (apiOf (ParseDoc noFiles 0 sameNameDoc)).Schemas.map (fun s => s.GoName)
      = objectNames sameNameDoc ++ inputNamesOfDoc sameNameDoc ∧
    objectNames sameNameDoc = ["ListWidgetsInput"] ∧
    inputNamesOfDoc sameNameDoc = ["ListWidgetsInput"] :=
  ⟨(ParseDoc_schema_names noFiles 0 sameNameDoc (apiOf (ParseDoc noFiles 0 sameNameDoc)) none
      (by decide!) (parsedOk_eq _ (by decide!))).1, by decide!, by decide!⟩

/-- Claim C20: for a document without path-level references the methods
`ParseDoc` returns are one `Method` for every key of every path entry whose
value has a non-empty operationId, path by path and key by key, the paths and
the keys of each path entry being strictly ascending in the order of
`sort.Strings`. -/
theorem ParseDoc_methods_ordered (fs : Loader) (fuel : Nat) (doc : Map) (api : API)
    (e : Option ParseError) (hno : NoPathRefs doc)
    (h : ParseDoc fs fuel doc = .ok (api, e)) :
    api.Methods = methodsOfDoc doc ∧
    StrictAsc (doc.Keys ["paths"]) ∧
    ∀ path, StrictAsc ((doc.Get ["paths", path]).1.Keys []) :=
  ⟨(ParseDoc_noref fs fuel doc api e hno h).2.1, docKeys_strictAsc doc _,
    fun _ => anyKeys_strictAsc _ _⟩

/-- The claim C20 at a document with `post`, `get` and `delete` on `/widgets`
and `get` on `/gadgets`. -/
theorem ParseDoc_methods_ordered_witness :
    (apiOf (ParseDoc noFiles 0 crudDoc)).Methods = methodsOfDoc crudDoc ∧
    (methodsOfDoc crudDoc).map (fun m => (m.Path, m.HTTPMethod, m.APIName))
      = [("/gadgets", "GET", "ListGadgets"), ("/widgets", "DELETE", "DeleteWidget"),
         ("/widgets", "GET", "ListWidgets"), ("/widgets", "POST", "CreateWidget")] :=
  ⟨(ParseDoc_methods_ordered noFiles 0 crudDoc (apiOf (ParseDoc noFiles 0 crudDoc)) none
      (by decide!) (parsedOk_eq _ (by decide!))).1, by decide!⟩

/-! ## String enumerations -/

theorem nameValue_apiName (name : String) (v : ConstValue) :
    (nameValue name v).APIName = v.APIName := by
  unfold nameValue
  dsimp only
  split_ifs <;> rfl

/-- A registered constant is emitted by `parseEnums`, its values named. -/
theorem parseEnums_mem (p : parser) (name : String) (c : Const)
    (hc : p.consts.lookup name = some c) :
    ({ c with Values := c.Values.map (nameValue name) } : Const) ∈ (parseEnums p).api.Consts := by
  unfold parseEnums
  dsimp only
  apply List.mem_append_right
  refine List.mem_map.2 ⟨name, (sortStrings_mem _ _).2 (lookup_some_mem name _ c hc), ?_⟩
  rw [hc]
  rfl

/-! ## Shared parameters in the request body schema -/

theorem paramsOf_eq (r : Except Abort (List Param)) (h : r.toBool = true) :
    r = .ok (paramsOf r) := by
  cases r with
  | ok l => rfl
  | error e => cases h

theorem appendParams_nil (name : String) (sch : Schema) : appendParams name [] sch = sch := by
  unfold appendParams
  split_ifs
  · rw [List.append_nil]
  · rfl

theorem appendParams_comp (name : String) (a b : List Param) (sch : Schema) :
    appendParams name b (appendParams name a sch) = appendParams name (a ++ b) sch := by
  unfold appendParams
  by_cases h : sch.GoName = name
  · rw [if_pos h]
    dsimp only
    rw [if_pos h, if_pos h, List.append_assoc]
  · rw [if_neg h, if_neg h, if_neg h]

theorem mergeCommonParams_eq (common : List Any) (t : String) (merged : List Param)
    (hm : parseParams true common = .ok merged) :
    ∀ (l l' : List Schema), mergeCommonParams common t l = .ok l' →
      l' = l.map (appendParams t merged) := by
  intro l
  induction l with
  | nil => intro l' h; simp only [mergeCommonParams] at h; cases h; rfl
  | cons sc rest ih =>
    intro l' h
    simp only [mergeCommonParams] at h
    by_cases hn : sc.GoName = t
    · rw [if_pos hn, hm] at h
      dsimp only at h
      cases hr : mergeCommonParams common t rest with
      | error e => rw [hr] at h; cases h
      | ok rest' =>
        rw [hr] at h
        cases h
        rw [List.map_cons, ← ih rest' hr]
        unfold appendParams
        rw [if_pos hn]
    · rw [if_neg hn] at h
      cases hr : mergeCommonParams common t rest with
      | error e => rw [hr] at h; cases h
      | ok rest' =>
        rw [hr] at h
        cases h
        rw [List.map_cons, ← ih rest' hr]
        unfold appendParams
        rw [if_neg hn]

/-- The body of the loop of `parsePath` on an operation whose request body
refers to `X`: the shared parameters go to every schema named `X`. -/
theorem parseMethod_body (p p' : parser) (path : String) (subDoc : Any) (common : List Any)
    (method X : String) (merged : List Param)
    (h : parseMethod p path subDoc common method = .ok p')
    (hop : (subDoc.Get [method]).1.Str ["operationId"] ≠ "")
    (hX : X ≠ "")
    (href : (subDoc.Get [method]).1.Str
      ["requestBody", "content", "application/json", "schema", "$ref"]
      = "#/components/schemas/" ++ X)
    (hm : parseParams true common = .ok merged) :
    p'.api.Schemas = p.api.Schemas.map (appendParams X merged) := by
  have hbody : ((subDoc.Get [method]).1.Get ["requestBody"]).2 = true := by
    apply Any.Str_ne_found _ "requestBody" ["content", "application/json", "schema", "$ref"]
    rw [href]
    exact schemaRef_ne_empty X
  have hin : inputType (subDoc.Get [method]).1 = X := inputType_ref _ X hX href
  unfold parseMethod at h
  dsimp only at h
  rw [if_neg hop] at h
  have hb2 : (buildMethod path method (subDoc.Get [method]).1).InputInBody = true := hbody
  rw [if_pos hb2] at h
  by_cases hc : common.length > 0
  · rw [if_pos hc] at h
    split at h
    · cases h
    · rename_i schemas hs
      cases h
      have hs2 : mergeCommonParams common X p.api.Schemas = .ok schemas := by
        rw [← hin]; exact hs
      exact mergeCommonParams_eq common X merged hm _ _ hs2
  · rw [if_neg hc] at h
    cases h
    have hnil : common = [] := List.length_eq_zero.1 (by omega)
    rw [hnil] at hm
    simp only [parseParams] at hm
    cases hm
    show p.api.Schemas = _
    rw [List.map_congr_left (fun sch _ => appendParams_nil X sch), List.map_id']

theorem parseMethods_body (path : String) (item : Any) (X : String) (merged : List Param)
    (hX : X ≠ "") (hm : parseParams true (item.Slice ["parameters"]) = .ok merged) :
    ∀ (ks : List String) (p p' : parser),
      (∀ key ∈ ks, (item.Get [key]).1.Str ["operationId"] ≠ "" →
        (item.Get [key]).1.Str ["requestBody", "content", "application/json", "schema", "$ref"]
          = "#/components/schemas/" ++ X) →
      forEach (fun p method => parseMethod p path item (item.Slice ["parameters"]) method)
        ks p = .ok p' →
      p'.api.Schemas = p.api.Schemas.map (appendParams X (List.replicate
        (ks.filter fun key => (item.Get [key]).1.Str ["operationId"] ≠ "").length
        merged).flatten) := by
  intro ks
  induction ks with
  | nil =>
    intro p p' _ h
    simp only [forEach] at h
    cases h
    simp only [List.filter_nil, List.length_nil, List.replicate_zero, List.flatten_nil]
    rw [List.map_congr_left (fun sch _ => appendParams_nil X sch), List.map_id']
  | cons k ks ih =>
    intro p p' hops h
    simp only [forEach] at h
    cases hb : parseMethod p path item (item.Slice ["parameters"]) k with
    | error e => rw [hb] at h; cases h
    | ok q =>
      rw [hb] at h
      have hrest := ih q p' (fun key hk => hops key (List.mem_cons_of_mem _ hk)) h
      by_cases hop : (item.Get [k]).1.Str ["operationId"] = ""
      · obtain ⟨_, hcase⟩ := parseMethod_ok _ _ _ _ _ _ hb
        rcases hcase with ⟨_, rfl⟩ | ⟨h0, _⟩
        · rw [hrest, List.filter_cons]
          simp [hop]
        · exact absurd hop h0
      · have hq := parseMethod_body p q path item _ k X merged hb hop hX
          (hops k (List.mem_cons_self _ _) hop) hm
        rw [hrest, hq, List.map_map, List.filter_cons]
        simp only [ne_eq, hop, not_false_eq_true, decide_True, if_true, List.length_cons,
          List.replicate_succ, List.flatten_cons]
        apply List.map_congr_left
        intro sch _
        exact appendParams_comp X _ _ sch

/-! ## Merging input documents -/

theorem parses_eq (r : Except Abort (API × Option SpecError)) (h : parses r = true) :
    r = .ok (parsedAs r, none) := by
  match r, h with
  | .ok (_, none), _ => rfl

theorem mergeLoop_lists (fs : Loader) (fuel : Nat) :
    ∀ (docs : List String) (i : Nat) (api : API),
      (∀ doc ∈ docs, parses (loadAndParse fs fuel doc) = true) →
      ∃ out, mergeLoop fs fuel i docs api = .ok (out, none) ∧
        out.Methods = api.Methods ++ docs.flatMap (fun doc =>
          (parsedAs (loadAndParse fs fuel doc)).Methods.map fun m => { m with Source := doc }) ∧
        out.Schemas = api.Schemas ++ docs.flatMap (fun doc =>
          (parsedAs (loadAndParse fs fuel doc)).Schemas.map fun s => { s with Source := doc }) ∧
        out.Consts = api.Consts ++ docs.flatMap (fun doc =>
          (parsedAs (loadAndParse fs fuel doc)).Consts.map fun c => { c with Source := doc }) ∧
        out.Specs = api.Specs ++ docs.map (manifestEntry fs fuel) := by
  intro docs
  induction docs with
  | nil => intro i api _; exact ⟨api, rfl, by simp, by simp, by simp, by simp⟩
  | cons doc rest ih =>
    intro i api hall
    have hdoc := parses_eq _ (hall doc (List.mem_cons_self _ _))
    obtain ⟨out, h1, h2, h3, h4, h5⟩ :=
      ih (i + 1) (mergeOne api i doc (parsedAs (loadAndParse fs fuel doc)))
        (fun d hd => hall d (List.mem_cons_of_mem _ hd))
    refine ⟨out, ?_, ?_, ?_, ?_, ?_⟩
    · rw [mergeLoop, hdoc]
      exact h1
    · rw [h2]
      by_cases hi : i = 0 <;> simp [mergeOne, hi, List.flatMap_cons]
    · rw [h3]
      by_cases hi : i = 0 <;> simp [mergeOne, hi, List.flatMap_cons]
    · rw [h4]
      by_cases hi : i = 0 <;> simp [mergeOne, hi, List.flatMap_cons]
    · rw [h5]
      by_cases hi : i = 0 <;> simp [mergeOne, hi, manifestEntry]

theorem mergeLoop_header (fs : Loader) (fuel : Nat) :
    ∀ (docs : List String) (i : Nat) (api out : API), i ≠ 0 →
      mergeLoop fs fuel i docs api = .ok (out, none) →
      out.Title = api.Title ∧ out.Description = api.Description ∧ out.GoName = api.GoName ∧
        out.JsName = api.JsName ∧ out.Version = api.Version ∧ out.Contact = api.Contact ∧
        out.Servers = api.Servers := by
  intro docs
  induction docs with
  | nil =>
    intro i api out _ h
    simp only [mergeLoop] at h
    cases h
    exact ⟨rfl, rfl, rfl, rfl, rfl, rfl, rfl⟩
  | cons doc rest ih =>
    intro i api out hi h
    rw [mergeLoop] at h
    match hl : loadAndParse fs fuel doc, h with
    | .ok (this, none), h =>
      simp only [] at h
      have := ih (i + 1) _ out (Nat.succ_ne_zero i) h
      simpa [mergeOne, hi] using this

/-! ## The order of `sort.Slice` -/

theorem sinkLeft_perm {α : Type} (less : α → α → Bool) (x : α) :
    ∀ l : List α, (sinkLeft less x l).Perm (x :: l) := by
  intro l
  induction l with
  | nil => exact List.Perm.refl _
  | cons y ys ih =>
    unfold sinkLeft
    by_cases h : less x y = true
    · rw [if_pos h]
      exact ((List.Perm.cons y ih).trans (List.Perm.swap x y ys))
    · rw [if_neg h]

theorem sortSlice_perm {α : Type} (less : α → α → Bool) (xs : List α) :
    (sortSlice less xs).Perm xs := by
  have key : ∀ (xs acc : List α),
      (xs.foldl (fun sorted x => sinkLeft less x sorted) acc).Perm (xs ++ acc) := by
    intro xs
    induction xs with
    | nil => intro acc; exact List.Perm.refl _
    | cons x xs ih =>
      intro acc
      simp only [List.foldl_cons]
      refine (ih _).trans ?_
      refine (List.Perm.append_left xs (sinkLeft_perm less x acc)).trans ?_
      exact (List.perm_middle).trans (List.Perm.refl _)
  unfold sortSlice
  refine (List.reverse_perm _).trans ?_
  simpa using key xs []

theorem sinkLeft_sorted {α : Type} (less : α → α → Bool)
    (hasymm : ∀ a b, less a b = true → less b a = false)
    (htrans : ∀ a b c, less a b = false → less b c = false → less a c = false) (x : α) :
    ∀ l : List α, l.Pairwise (fun a b => less a b = false) →
      (sinkLeft less x l).Pairwise (fun a b => less a b = false) := by
  intro l
  induction l with
  | nil => intro _; simp [sinkLeft]
  | cons y ys ih =>
    intro hl
    unfold sinkLeft
    have hy := List.pairwise_cons.1 hl
    by_cases h : less x y = true
    · rw [if_pos h]
      refine List.pairwise_cons.2 ⟨?_, ih hy.2⟩
      intro e he
      rcases List.mem_cons.1 ((sinkLeft_perm less x ys).mem_iff.1 he) with rfl | he
      · exact hasymm _ _ h
      · exact hy.1 e he
    · rw [if_neg h]
      have hxy : less x y = false := by simpa using h
      refine List.pairwise_cons.2 ⟨?_, hl⟩
      intro e he
      rcases List.mem_cons.1 he with rfl | he
      · exact hxy
      · exact htrans _ _ _ hxy (hy.1 e he)

theorem sortSlice_sorted {α : Type} (less : α → α → Bool)
    (hasymm : ∀ a b, less a b = true → less b a = false)
    (htrans : ∀ a b c, less a b = false → less b c = false → less a c = false)
    (xs : List α) : (sortSlice less xs).Pairwise (fun a b => less b a = false) := by
  have key : ∀ (xs acc : List α), acc.Pairwise (fun a b => less a b = false) →
      (xs.foldl (fun sorted x => sinkLeft less x sorted) acc).Pairwise
        (fun a b => less a b = false) := by
    intro xs
    induction xs with
    | nil => intro acc h; exact h
    | cons x xs ih =>
      intro acc h
      simp only [List.foldl_cons]
      exact ih _ (sinkLeft_sorted less hasymm htrans x acc h)
  unfold sortSlice
  rw [List.pairwise_reverse]
  exact key xs [] List.Pairwise.nil

theorem manifest_sorted (l : List Spec) :
    (sortSlice (fun a b => ltChars a.Dir.data b.Dir.data) l).Pairwise DirLe :=
  sortSlice_sorted (fun (a b : Spec) => ltChars a.Dir.data b.Dir.data)
    (fun _ _ h => ltChars_asymm _ _ h)
    (fun a b c h1 h2 => strLe_trans c.Dir b.Dir a.Dir h2 h1) l

/-! ## What `mergeSpecs` returns -/

theorem mergeSpecs_run (fs : Loader) (fuel : Nat) (docs : List String) (out : API)
    (h : mergeLoop fs fuel 0 docs { RefDocs := [] } = .ok (out, none)) :
    mergeSpecs fs fuel docs = .ok ({ out with
      Specs := sortSlice (fun a b => ltChars a.Dir.data b.Dir.data) out.Specs }, none) := by
  unfold mergeSpecs
  rw [h]

/-- C21: when every input document parses, `mergeSpecs` returns, and its
methods, schemas and constants are those of the parsed documents, document
after document in input order, each with only its `Source` replaced by the
path of its input document. -/
theorem mergeSpecs_entities (fs : Loader) (fuel : Nat) (docs : List String)
    (hall : ∀ doc ∈ docs, parses (loadAndParse fs fuel doc) = true) :
    ∃ api, mergeSpecs fs fuel docs = .ok (api, none) ∧
      api.Methods = docs.flatMap (fun doc =>
        (parsedAs (loadAndParse fs fuel doc)).Methods.map fun m => { m with Source := doc }) ∧
      api.Schemas = docs.flatMap (fun doc =>
        (parsedAs (loadAndParse fs fuel doc)).Schemas.map fun s => { s with Source := doc }) ∧
      api.Consts = docs.flatMap (fun doc =>
        (parsedAs (loadAndParse fs fuel doc)).Consts.map fun c => { c with Source := doc }) := by
  obtain ⟨out, h1, h2, h3, h4, _⟩ := mergeLoop_lists fs fuel docs 0 { RefDocs := [] } hall
  refine ⟨_, mergeSpecs_run fs fuel docs out h1, ?_, ?_, ?_⟩
  · simpa using h2
  · simpa using h3
  · simpa using h4

theorem mergeSpecs_entities_witness :
    (∀ doc ∈ ["api/widgets.yaml", "types/enums.yaml"],
        parses (loadAndParse twoFiles 0 doc) = true) ∧
      ∃ api, mergeSpecs twoFiles 0 ["api/widgets.yaml", "types/enums.yaml"] = .ok (api, none) ∧
        api.Methods = ["api/widgets.yaml", "types/enums.yaml"].flatMap (fun doc =>
          (parsedAs (loadAndParse twoFiles 0 doc)).Methods.map
            fun m => { m with Source := doc }) ∧
        api.Schemas = ["api/widgets.yaml", "types/enums.yaml"].flatMap (fun doc =>
          (parsedAs (loadAndParse twoFiles 0 doc)).Schemas.map
            fun s => { s with Source := doc }) ∧
        api.Consts = ["api/widgets.yaml", "types/enums.yaml"].flatMap (fun doc =>
          (parsedAs (loadAndParse twoFiles 0 doc)).Consts.map
            fun c => { c with Source := doc }) :=
  ⟨by decide!, mergeSpecs_entities twoFiles 0 ["api/widgets.yaml", "types/enums.yaml"]
    (by decide!)⟩

/-- C22, as stated, fails: of two documents that each declare a server,
`mergeSpecs` returns the server of the first only. -/
theorem servers_of_later_documents_counterexample :
    (∀ doc ∈ ["a/one.yaml", "b/two.yaml"], parses (loadAndParse serverFiles 0 doc) = true) ∧
      (mergedOf (mergeSpecs serverFiles 0 ["a/one.yaml", "b/two.yaml"])).Servers
        = [{ URL := "a/one.yaml" }] ∧
      ["a/one.yaml", "b/two.yaml"].flatMap
          (fun doc => (parsedAs (loadAndParse serverFiles 0 doc)).Servers)
        = [{ URL := "a/one.yaml" }, { URL := "b/two.yaml" }] ∧
      (mergedOf (mergeSpecs serverFiles 0 ["a/one.yaml", "b/two.yaml"])).Servers ≠
        ["a/one.yaml", "b/two.yaml"].flatMap
          (fun doc => (parsedAs (loadAndParse serverFiles 0 doc)).Servers) := by
  decide!

/-- C22, amended: when every input document parses, `mergeSpecs` returns, and
its servers are the servers of the first input document only, as are title,
description, the two convention identifiers, version and contact. -/
theorem mergeSpecs_first_document (fs : Loader) (fuel : Nat) (doc : String)
    (rest : List String)
    (hall : ∀ d ∈ doc :: rest, parses (loadAndParse fs fuel d) = true) :
    ∃ api, mergeSpecs fs fuel (doc :: rest) = .ok (api, none) ∧
      api.Servers = (parsedAs (loadAndParse fs fuel doc)).Servers ∧
      api.Title = (parsedAs (loadAndParse fs fuel doc)).Title ∧
      api.Description = (parsedAs (loadAndParse fs fuel doc)).Description ∧
      api.GoName = (parsedAs (loadAndParse fs fuel doc)).GoName ∧
      api.JsName = (parsedAs (loadAndParse fs fuel doc)).JsName ∧
      api.Version = (parsedAs (loadAndParse fs fuel doc)).Version ∧
      api.Contact = (parsedAs (loadAndParse fs fuel doc)).Contact := by
  obtain ⟨out, h1, _⟩ := mergeLoop_lists fs fuel (doc :: rest) 0 { RefDocs := [] } hall
  refine ⟨_, mergeSpecs_run fs fuel _ out h1, ?_⟩
  have hdoc := parses_eq _ (hall doc (List.mem_cons_self _ _))
  rw [mergeLoop, hdoc] at h1
  simp only [] at h1
  have h := mergeLoop_header fs fuel rest 1 _ out one_ne_zero h1
  simp only [mergeOne, if_true, List.nil_append] at h
  exact ⟨h.2.2.2.2.2.2, h.1, h.2.1, h.2.2.1, h.2.2.2.1, h.2.2.2.2.1, h.2.2.2.2.2.1⟩

theorem mergeSpecs_first_document_witness :
    (∀ d ∈ ["a/one.yaml", "b/two.yaml"], parses (loadAndParse serverFiles 0 d) = true) ∧
      ∃ api, mergeSpecs serverFiles 0 ["a/one.yaml", "b/two.yaml"] = .ok (api, none) ∧
        api.Servers = (parsedAs (loadAndParse serverFiles 0 "a/one.yaml")).Servers ∧
        api.Title = (parsedAs (loadAndParse serverFiles 0 "a/one.yaml")).Title ∧
        api.Description = (parsedAs (loadAndParse serverFiles 0 "a/one.yaml")).Description ∧
        api.GoName = (parsedAs (loadAndParse serverFiles 0 "a/one.yaml")).GoName ∧
        api.JsName = (parsedAs (loadAndParse serverFiles 0 "a/one.yaml")).JsName ∧
        api.Version = (parsedAs (loadAndParse serverFiles 0 "a/one.yaml")).Version ∧
        api.Contact = (parsedAs (loadAndParse serverFiles 0 "a/one.yaml")).Contact :=
  ⟨by decide!, mergeSpecs_first_document serverFiles 0 "a/one.yaml" ["b/two.yaml"]
    (by decide!)⟩

/-- C23, as stated, fails: two documents of one directory are listed in the
manifest in the order they were given in, so the manifest changes when they
change places. -/
theorem manifest_order_counterexample :
    (∀ doc ∈ ["api/a.yaml", "api/b.yaml"], parses (loadAndParse emptyFiles 0 doc) = true) ∧
      ["api/b.yaml", "api/a.yaml"].Perm ["api/a.yaml", "api/b.yaml"] ∧
      (mergedOf (mergeSpecs emptyFiles 0 ["api/a.yaml", "api/b.yaml"])).Specs
        = [{ Doc := "api/a.yaml", Dir := "api" }, { Doc := "api/b.yaml", Dir := "api" }] ∧
      (mergedOf (mergeSpecs emptyFiles 0 ["api/b.yaml", "api/a.yaml"])).Specs
        = [{ Doc := "api/b.yaml", Dir := "api" }, { Doc := "api/a.yaml", Dir := "api" }] ∧
      (mergedOf (mergeSpecs emptyFiles 0 ["api/b.yaml", "api/a.yaml"])).Specs ≠
        (mergedOf (mergeSpecs emptyFiles 0 ["api/a.yaml", "api/b.yaml"])).Specs :=
  ⟨by decide!, List.Perm.swap _ _ _, by decide!, by decide!, by decide!⟩

/-- C23, amended: when every input document parses, `mergeSpecs` returns with
a manifest that has one entry per input document and ascends by directory
name; and when no two different input documents have the same directory name,
every reordering of the input documents gives the same manifest. -/
theorem mergeSpecs_manifest (fs : Loader) (fuel : Nat) (docs docs' : List String)
    (hall : ∀ doc ∈ docs, parses (loadAndParse fs fuel doc) = true)
    (hperm : docs'.Perm docs) :
    ∃ api api', mergeSpecs fs fuel docs = .ok (api, none) ∧
      mergeSpecs fs fuel docs' = .ok (api', none) ∧
      api.Specs.Perm (docs.map (manifestEntry fs fuel)) ∧
      api.Specs.Pairwise DirLe ∧
      ((∀ a ∈ docs, ∀ b ∈ docs, Base (Dir a) = Base (Dir b) → a = b) →
        api'.Specs = api.Specs) := by
  have hall' : ∀ doc ∈ docs', parses (loadAndParse fs fuel doc) = true :=
    fun d hd => hall d (hperm.mem_iff.1 hd)
  obtain ⟨out, h1, _, _, _, h5⟩ := mergeLoop_lists fs fuel docs 0 { RefDocs := [] } hall
  obtain ⟨out', h1', _, _, _, h5'⟩ := mergeLoop_lists fs fuel docs' 0 { RefDocs := [] } hall'
  have e : out.Specs = docs.map (manifestEntry fs fuel) := by simpa using h5
  have e' : out'.Specs = docs'.map (manifestEntry fs fuel) := by simpa using h5'
  have p : (sortSlice (fun a b => ltChars a.Dir.data b.Dir.data) out.Specs).Perm
      (docs.map (manifestEntry fs fuel)) := by
    rw [e]
    exact sortSlice_perm _ _
  have p' : (sortSlice (fun a b => ltChars a.Dir.data b.Dir.data) out'.Specs).Perm
      (docs.map (manifestEntry fs fuel)) := by
    rw [e']
    exact (sortSlice_perm _ _).trans (hperm.map _)
  refine ⟨_, _, mergeSpecs_run fs fuel docs out h1, mergeSpecs_run fs fuel docs' out' h1',
    p, manifest_sorted _, ?_⟩
  intro hdir
  refine List.Perm.eq_of_sorted ?_ (manifest_sorted _) (manifest_sorted _) (p'.trans p.symm)
  intro a b ha hb hab hba
  obtain ⟨x, hx, rfl⟩ := List.mem_map.1 (p'.mem_iff.1 ha)
  obtain ⟨y, hy, rfl⟩ := List.mem_map.1 (p.mem_iff.1 hb)
  have hxy : Base (Dir x) = Base (Dir y) := by
    have h := ltChars_trichotomy _ _ hba hab
    exact String.ext h
  rw [hdir x hx y hy hxy]

theorem mergeSpecs_manifest_witness :
    (∀ doc ∈ ["types/enums.yaml", "api/widgets.yaml"],
        parses (loadAndParse twoFiles 0 doc) = true) ∧
      ["api/widgets.yaml", "types/enums.yaml"].Perm ["types/enums.yaml", "api/widgets.yaml"] ∧
      (∀ a ∈ ["types/enums.yaml", "api/widgets.yaml"],
        ∀ b ∈ ["types/enums.yaml", "api/widgets.yaml"], Base (Dir a) = Base (Dir b) → a = b) ∧
      ∃ api api', mergeSpecs twoFiles 0 ["types/enums.yaml", "api/widgets.yaml"]
          = .ok (api, none) ∧
        mergeSpecs twoFiles 0 ["api/widgets.yaml", "types/enums.yaml"] = .ok (api', none) ∧
        api.Specs.Perm (["types/enums.yaml", "api/widgets.yaml"].map
          (manifestEntry twoFiles 0)) ∧
        api.Specs.Pairwise DirLe ∧
        ((∀ a ∈ ["types/enums.yaml", "api/widgets.yaml"],
            ∀ b ∈ ["types/enums.yaml", "api/widgets.yaml"],
              Base (Dir a) = Base (Dir b) → a = b) →
          api'.Specs = api.Specs) :=
  ⟨by decide!, List.Perm.swap _ _ _, by decide!,
    mergeSpecs_manifest twoFiles 0 ["types/enums.yaml", "api/widgets.yaml"]
      ["api/widgets.yaml", "types/enums.yaml"] (by decide!) (List.Perm.swap _ _ _)⟩

/-! ## Runes of ASCII text -/

theorem DecodeRune_ascii (b : Nat) (bs : Bytes) (hb : b < 128) :
    DecodeRune (b :: bs) = (Char.ofNat b, 1) := by
  simp [DecodeRune, hb]

theorem runesAux_ascii : ∀ (s : Bytes) (n : Nat), s.length ≤ n → (∀ b ∈ s, b < 128) →
    runesAux n s = s.map Char.ofNat := by
  intro s
  induction s with
  | nil => intro n _ _; cases n <;> rfl
  | cons b bs ih =>
    intro n hn hs
    cases n with
    | zero => simp at hn
    | succ n =>
      have hb : b < 128 := hs b (List.mem_cons_self _ _)
      simp only [runesAux, DecodeRune_ascii b bs hb, List.drop_succ_cons, List.drop_zero,
        List.map_cons]
      rw [ih n (by simpa using hn) (fun c hc => hs c (List.mem_cons_of_mem _ hc))]

theorem runes_ascii (s : Bytes) (hs : ∀ b ∈ s, b < 128) : runes s = s.map Char.ofNat :=
  runesAux_ascii s s.length (Nat.le_refl _) hs

/-! ## One iteration of the reflow loop -/

theorem sliceTo_nat (s : Bytes) (n : Nat) (h : n ≤ s.length) :
    sliceTo s (n : Int) = .ok (s.take n) := by
  unfold sliceTo
  rw [if_pos ⟨Int.natCast_nonneg n, by exact_mod_cast h⟩]
  simp

theorem sliceFrom_nat (s : Bytes) (n : Nat) (h : n ≤ s.length) :
    sliceFrom s (n : Int) = .ok (s.drop n) := by
  unfold sliceFrom
  rw [if_pos ⟨Int.natCast_nonneg n, by exact_mod_cast h⟩]
  simp

theorem runeAt_nat (rs : List Char) (i : Nat) (h : i < rs.length) :
    runeAt rs (i : Int) = .ok (rs.getD i RuneError) := by
  unfold runeAt
  rw [if_pos ⟨Int.natCast_nonneg i, by exact_mod_cast h⟩]
  simp

theorem runeAt_ascii (s : Bytes) (i : Nat) (hs : ∀ b ∈ s, b < 128) (h : i < s.length) :
    runeAt (runes s) (i : Int) = .ok (Char.ofNat (s.getD i 0)) := by
  rw [runes_ascii s hs, runeAt_nat _ i (by simpa using h)]
  congr 1
  rw [List.getD_eq_getElem _ _ (by simpa using h), List.getD_eq_getElem _ _ h]
  simp

/-- Whether the loop puts a hyphen: the byte before the cut and the byte after
it are both no white space. -/
theorem wrapStep_ascii (indent desc : Bytes) (t : Nat) (ht : 1 ≤ t) (hlen : t < desc.length)
    (hs : ∀ b ∈ desc, b < 128) :
    wrapStep indent (t : Int) desc =
      if spaceByte (desc.getD (t - 1) 0) = false ∧ spaceByte (desc.getD t 0) = false then
        .ok (indent ++ slashes ++ (desc.take (t - 1) ++ [45]), desc.drop (t - 1))
      else .ok (indent ++ slashes ++ desc.take t, desc.drop t) := by
  have e1 : ((t : Int) - 1) = ((t - 1 : Nat) : Int) := by omega
  have e2 : ((t : Int) + 1) = ((t + 1 : Nat) : Int) := by omega
  have hsub : ∀ n, ∀ b ∈ desc.take n, b < 128 := fun n b hb => hs b (List.mem_of_mem_take hb)
  have r1 : runeAt (runes (desc.take t)) ((t - 1 : Nat) : Int)
      = .ok (Char.ofNat (desc.getD (t - 1) 0)) := by
    rw [runeAt_ascii _ _ (hsub t) (by rw [List.length_take]; omega)]
    congr 2
    rw [List.getD_eq_getElem _ _ (by rw [List.length_take]; omega),
      List.getD_eq_getElem _ _ (by omega)]
    simp
  have r2 : runeAt (runes (desc.take (t + 1))) (t : Int)
      = .ok (Char.ofNat (desc.getD t 0)) := by
    rw [runeAt_ascii _ _ (hsub (t + 1)) (by rw [List.length_take]; omega)]
    congr 2
    rw [List.getD_eq_getElem _ _ (by rw [List.length_take]; omega),
      List.getD_eq_getElem _ _ (by omega)]
    simp
  unfold wrapStep
  rw [e1, e2, sliceTo_nat desc t (by omega), sliceTo_nat desc (t + 1) (by omega)]
  simp only [bind, Except.bind, pure, Except.pure, r1, r2]
  by_cases hh : spaceByte (desc.getD (t - 1) 0) = false ∧ spaceByte (desc.getD t 0) = false
  · rw [if_pos hh]
    have hb : (!isSpace (Char.ofNat (desc.getD (t - 1) 0)) &&
        !isSpace (Char.ofNat (desc.getD t 0))) = true := by
      have h1 := hh.1
      have h2 := hh.2
      unfold spaceByte at h1 h2
      rw [h1, h2]
      rfl
    have hl : (desc.take (t - 1) ++ [45]).length = t := by
      rw [List.length_append, List.length_take, List.length_singleton]
      omega
    have hl2 : t ≤ (desc.take (t - 1) ++ [45] ++ desc.drop (t - 1)).length := by
      rw [List.length_append, hl]
      omega
    rw [if_pos hb, sliceTo_nat desc (t - 1) (by omega), sliceFrom_nat desc (t - 1) (by omega)]
    simp only []
    rw [sliceTo_nat _ t hl2, sliceFrom_nat _ t hl2]
    simp only []
    rw [List.take_left' hl, List.drop_left' hl]
  · rw [if_neg hh]
    have hb : ¬ ((!isSpace (Char.ofNat (desc.getD (t - 1) 0)) &&
        !isSpace (Char.ofNat (desc.getD t 0))) = true) := by
      intro hb
      apply hh
      unfold spaceByte
      simp only [Bool.and_eq_true, Bool.not_eq_true'] at hb
      exact hb
    rw [if_neg hb]
    simp only [sliceTo_nat desc t (Nat.le_of_lt hlen), sliceFrom_nat desc t (Nat.le_of_lt hlen)]

/-! ## The reflow loop -/

theorem get?_getD (l : Bytes) (i : Nat) (h : i < l.length) : l.get? i = some (l.getD i 0) := by
  rw [List.getD_eq_getElem _ _ h, List.get?_eq_getElem?, List.getElem?_eq_getElem h]

theorem wrapLoop_reflow (indent : Bytes) (t : Nat) (ht : 2 ≤ t) :
    ∀ (n : Nat) (desc : Bytes), desc.length ≤ n → (∀ b ∈ desc, b < 128) →
      ∃ (ps : List Piece) (rest : Bytes),
        Reflow t desc (ps ++ if 0 < rest.length then [(rest, false)] else []) ∧
        ∀ (fuel : Nat) (lines : List Bytes), desc.length < fuel →
          wrapLoop indent (t : Int) fuel desc lines =
            .ok (rest, lines ++ ps.map fun p => indent ++ slashes ++ pieceBody p) := by
  intro n
  induction n with
  | zero =>
    intro desc hn _
    have hd : desc = [] := List.length_eq_zero.1 (Nat.le_zero.1 hn)
    subst hd
    refine ⟨[], [], ?_, ?_⟩
    · simpa using Reflow.done
    · intro fuel lines _
      cases fuel <;> simp [wrapLoop]
  | succ n ih =>
    intro desc hn hs
    by_cases hlen : t < desc.length
    · have hgt : ((desc.length : Int) > (t : Int)) := by exact_mod_cast hlen
      have hstep := wrapStep_ascii indent desc t (by omega) hlen hs
      by_cases hh : spaceByte (desc.getD (t - 1) 0) = false ∧ spaceByte (desc.getD t 0) = false
      · rw [if_pos hh] at hstep
        have hl : (desc.drop (t - 1)).length ≤ n := by rw [List.length_drop]; omega
        obtain ⟨ps, rest, hr, hrun⟩ := ih (desc.drop (t - 1)) hl
          (fun b hb => hs b (List.mem_of_mem_drop hb))
        refine ⟨(desc.take (t - 1), true) :: ps, rest, ?_, ?_⟩
        · exact Reflow.hyphen desc _ _ _ hlen (get?_getD desc (t - 1) (by omega))
            (get?_getD desc t hlen) hh hr
        · intro fuel lines hf
          cases fuel with
          | zero => omega
          | succ fuel =>
            rw [wrapLoop, if_pos hgt, hstep]
            simp only []
            rw [hrun fuel _ (by rw [List.length_drop]; omega)]
            simp [pieceBody]
      · rw [if_neg hh] at hstep
        have hl : (desc.drop t).length ≤ n := by rw [List.length_drop]; omega
        obtain ⟨ps, rest, hr, hrun⟩ := ih (desc.drop t) hl
          (fun b hb => hs b (List.mem_of_mem_drop hb))
        refine ⟨(desc.take t, false) :: ps, rest, ?_, ?_⟩
        · exact Reflow.plain desc _ _ _ hlen (get?_getD desc (t - 1) (by omega))
            (get?_getD desc t hlen) hh hr
        · intro fuel lines hf
          cases fuel with
          | zero => omega
          | succ fuel =>
            rw [wrapLoop, if_pos hgt, hstep]
            simp only []
            rw [hrun fuel _ (by rw [List.length_drop]; omega)]
            simp [pieceBody]
    · have hle : ¬ ((desc.length : Int) > (t : Int)) := by
        intro h
        exact hlen (by exact_mod_cast h)
      refine ⟨[], desc, ?_, ?_⟩
      · by_cases hd : 0 < desc.length
        · rw [if_pos hd]
          exact Reflow.final desc (List.ne_nil_of_length_pos hd) (by omega)
        · rw [if_neg hd]
          have : desc = [] := List.length_eq_zero.1 (by omega)
          subst this
          exact Reflow.done
      · intro fuel lines _
        cases fuel <;> simp [wrapLoop, hle]

/-! ## What the specified reflow implies -/

theorem Reflow.flatten {t : Nat} {text : Bytes} {ps : List Piece} (h : Reflow t text ps) :
    (ps.map Prod.fst).flatten = text := by
  induction h with
  | done => rfl
  | final text _ _ => simp
  | plain text a b ps _ _ _ _ _ ih => simp [ih]
  | hyphen text a b ps _ _ _ _ _ ih => simp [ih]

theorem Reflow.ne_nil {t : Nat} {text : Bytes} {ps : List Piece} (h : Reflow t text ps)
    (hne : text ≠ []) : ps ≠ [] := by
  cases h with
  | done => exact absurd rfl hne
  | final => simp
  | plain => simp
  | hyphen => simp

theorem Reflow.body_le {t : Nat} (ht : 1 ≤ t) {text : Bytes} {ps : List Piece}
    (h : Reflow t text ps) : ∀ p ∈ ps, (pieceBody p).length ≤ t := by
  induction h with
  | done => intro p hp; cases hp
  | final text _ hl =>
    intro p hp
    rw [List.mem_singleton.1 hp]
    simpa [pieceBody] using hl
  | plain text a b ps hl _ _ _ _ ih =>
    intro p hp
    rcases List.mem_cons.1 hp with rfl | hp
    · simp [pieceBody]
    · exact ih p hp
  | hyphen text a b ps hl _ _ _ _ ih =>
    intro p hp
    rcases List.mem_cons.1 hp with rfl | hp
    · simp [pieceBody]; omega
    · exact ih p hp

theorem Reflow.full_lines {t : Nat} (ht : 1 ≤ t) {text : Bytes} {ps : List Piece}
    (h : Reflow t text ps) : ∀ p ∈ ps.dropLast, (pieceBody p).length = t := by
  induction h with
  | done => intro p hp; cases hp
  | final text _ hl => intro p hp; simp at hp
  | plain text a b ps hl _ _ _ _ ih =>
    intro p hp
    cases ps with
    | nil => simp at hp
    | cons q qs =>
      rw [List.dropLast_cons₂] at hp
      rcases List.mem_cons.1 hp with rfl | hp
      · simp [pieceBody]; omega
      · exact ih p hp
  | hyphen text a b ps hl _ _ _ _ ih =>
    intro p hp
    cases ps with
    | nil => simp at hp
    | cons q qs =>
      rw [List.dropLast_cons₂] at hp
      rcases List.mem_cons.1 hp with rfl | hp
      · simp [pieceBody]; omega
      · exact ih p hp

theorem Reflow.last_piece {t : Nat} (ht : 1 ≤ t) {text : Bytes} {ps : List Piece}
    (h : Reflow t text ps) :
    ∀ p ∈ ps.getLast?, p.2 = false ∧ p.1 ≠ [] ∧ p.1.length ≤ t := by
  induction h with
  | done => intro p hp; simp at hp
  | final text hne hl =>
    intro p hp
    simp at hp
    subst hp
    exact ⟨rfl, hne, hl⟩
  | plain text a b ps hl _ _ _ hr ih =>
    intro p hp
    have hne : ps ≠ [] := hr.ne_nil (by
      intro h0
      have := congrArg List.length h0
      rw [List.length_drop] at this
      simp at this
      omega)
    obtain ⟨q, qs, rfl⟩ := List.exists_cons_of_ne_nil hne
    rw [List.getLast?_cons_cons] at hp
    exact ih p hp
  | hyphen text a b ps hl _ _ _ hr ih =>
    intro p hp
    have hne : ps ≠ [] := hr.ne_nil (by
      intro h0
      have := congrArg List.length h0
      rw [List.length_drop] at this
      simp at this
      omega)
    obtain ⟨q, qs, rfl⟩ := List.exists_cons_of_ne_nil hne
    rw [List.getLast?_cons_cons] at hp
    exact ih p hp

/-! ## The comment reflow -/

theorem trimNewline_id (s : Bytes) (h : 10 ∉ s) : trimNewline s = s := by
  unfold trimNewline
  rw [if_neg]
  intro hl
  exact h (List.mem_of_getLast?_eq_some hl)

theorem newlinesToSpaces_id (s : Bytes) (h : 10 ∉ s) : newlinesToSpaces s = s := by
  unfold newlinesToSpaces
  induction s with
  | nil => rfl
  | cons b bs ih =>
    have hb : b ≠ 10 := fun e => h (e ▸ List.mem_cons_self _ _)
    rw [List.map_cons, if_neg hb, ih (fun hm => h (List.mem_cons_of_mem _ hm))]

theorem newlinesToSpaces_ascii (s : Bytes) (h : ∀ b ∈ s, b < 128) :
    ∀ b ∈ newlinesToSpaces s, b < 128 := by
  intro b hb
  unfold newlinesToSpaces at hb
  obtain ⟨c, hc, rfl⟩ := List.mem_map.1 hb
  by_cases h10 : c = 10
  · rw [if_pos h10]; decide
  · rw [if_neg h10]; exact h c hc

theorem trimNewline_ascii (s : Bytes) (h : ∀ b ∈ s, b < 128) :
    ∀ b ∈ trimNewline s, b < 128 := by
  intro b hb
  unfold trimNewline at hb
  split_ifs at hb
  · exact h b (List.mem_of_mem_dropLast hb)
  · exact h b hb

theorem textLength_eq (W : Int) (n t : Nat) (hW : W < 2 ^ 63) (ht : (t : Int) = W - n - 3) :
    wrap64 (wrap64 (W - n) - 3) = (t : Int) := by
  unfold wrap64
  norm_num at hW ⊢
  omega

theorem wrappedComment_run (W : Int) (indent text : Bytes) (t : Nat) (hW : W < 2 ^ 63)
    (ht : (t : Int) = W - indent.length - 3) (rest : Bytes) (lines : List Bytes)
    (h : wrapLoop indent (t : Int) ((newlinesToSpaces (trimNewline text)).length + 1)
      (newlinesToSpaces (trimNewline text)) [] = .ok (rest, lines)) :
    wrappedComment W indent [text] =
      .ok (joinBytes
        (if rest.length > 0 then lines ++ [indent ++ slashes ++ rest] else lines) [10]) := by
  unfold wrappedComment
  have hj : joinBytes [text] [] = text := by simp [joinBytes]
  simp only [hj, textLength_eq W indent.length t hW ht, h]

/-- C24: for a text width `t = W - len(I) - 3` of at least 2 and an ASCII text
without line feed, `wrappedComment` returns the lines `I`, `// `, body joined by
line feeds, the bodies being those of the specified reflow of the text: each
line is at most `W` bytes long, every body but the last has exactly `t` bytes,
the last is a non-empty unchanged remainder of at most `t` bytes, and the
pieces without their hyphens put together are the text again. -/
theorem wrappedComment_reflow (W : Int) (indent text : Bytes) (t : Nat) (hW : W < 2 ^ 63)
    (ht : (t : Int) = W - indent.length - 3) (h2 : 2 ≤ t)
    (hascii : ∀ b ∈ text, b < 128) (hnl : 10 ∉ text) :
    ∃ ps : List Piece,
      wrappedComment W indent [text] =
        .ok (joinBytes (ps.map fun p => indent ++ slashes ++ pieceBody p) [10]) ∧
      Reflow t text ps ∧
      (∀ p ∈ ps, ((indent ++ slashes ++ pieceBody p).length : Int) ≤ W) ∧
      (∀ p ∈ ps.dropLast, (pieceBody p).length = t) ∧
      (∀ p ∈ ps.getLast?, p.2 = false ∧ p.1 ≠ [] ∧ p.1.length ≤ t) ∧
      (ps.map Prod.fst).flatten = text := by
  obtain ⟨ps, rest, hr, hrun⟩ := wrapLoop_reflow indent t h2 text.length text (Nat.le_refl _) hascii
  have hprep : newlinesToSpaces (trimNewline text) = text := by
    rw [trimNewline_id text hnl, newlinesToSpaces_id text hnl]
  have hloop := hrun (text.length + 1) [] (Nat.lt_succ_self _)
  have hres := wrappedComment_run W indent text t hW ht rest _ (by rw [hprep]; exact hloop)
  refine ⟨ps ++ if 0 < rest.length then [(rest, false)] else [], ?_, hr, ?_,
    hr.full_lines (by omega), hr.last_piece (by omega), hr.flatten⟩
  · rw [hres]
    by_cases h0 : 0 < rest.length
    · simp [h0, pieceBody]
    · simp [h0]
  · intro p hp
    have hb := hr.body_le (by omega) p hp
    simp only [List.length_append, slashes, List.length_cons, List.length_nil]
    push_cast
    omega

/-- C25: for a text width of at least 2 and an ASCII text, the loop of
`wrappedComment` returns after at most one iteration per byte, whatever bound
above that it is given, and `wrappedComment` returns without a panic; on every
ASCII text longer than the text width an iteration returns, and leaves a text
shorter by the text width, or by the text width less one with a hyphen put. -/
theorem wrappedComment_terminates (W : Int) (indent text : Bytes) (t : Nat) (hW : W < 2 ^ 63)
    (ht : (t : Int) = W - indent.length - 3) (h2 : 2 ≤ t) (hascii : ∀ b ∈ text, b < 128) :
    (∃ out, wrappedComment W indent [text] = .ok out) ∧
      (∃ rest lines, ∀ fuel, (newlinesToSpaces (trimNewline text)).length < fuel →
        wrapLoop indent (t : Int) fuel (newlinesToSpaces (trimNewline text)) []
          = .ok (rest, lines)) ∧
      ∀ desc : Bytes, (∀ b ∈ desc, b < 128) → t < desc.length →
        ∃ line rest, wrapStep indent (t : Int) desc = .ok (line, rest) ∧
          (rest.length + t = desc.length ∧ line = indent ++ slashes ++ desc.take t ∨
            rest.length + (t - 1) = desc.length ∧
              line = indent ++ slashes ++ (desc.take (t - 1) ++ [45])) ∧
          rest.length < desc.length ∧ ∀ b ∈ rest, b < 128 := by
  have hprep : ∀ b ∈ newlinesToSpaces (trimNewline text), b < 128 :=
    newlinesToSpaces_ascii _ (trimNewline_ascii _ hascii)
  obtain ⟨ps, rest, _, hrun⟩ := wrapLoop_reflow indent t h2 _ _ (Nat.le_refl _) hprep
  refine ⟨⟨_, wrappedComment_run W indent text t hW ht rest _
      (hrun _ [] (Nat.lt_succ_self _))⟩, ⟨rest, _, fun fuel hf => hrun fuel [] hf⟩, ?_⟩
  intro desc hs hlen
  have hstep := wrapStep_ascii indent desc t (by omega) hlen hs
  by_cases hh : spaceByte (desc.getD (t - 1) 0) = false ∧ spaceByte (desc.getD t 0) = false
  · rw [if_pos hh] at hstep
    refine ⟨_, _, hstep, Or.inr ⟨?_, rfl⟩, ?_, fun b hb => hs b (List.mem_of_mem_drop hb)⟩
    · rw [List.length_drop]; omega
    · rw [List.length_drop]; omega
  · rw [if_neg hh] at hstep
    refine ⟨_, _, hstep, Or.inl ⟨?_, rfl⟩, ?_, fun b hb => hs b (List.mem_of_mem_drop hb)⟩
    · rw [List.length_drop]; omega
    · rw [List.length_drop]; omega

theorem wrappedComment_reflow_witness :
    (40 : Int) < 2 ^ 63 ∧ ((33 : Nat) : Int) = 40 - (bytesOf "    ").length - 3 ∧ 2 ≤ 33 ∧
      (∀ b ∈ bytesOf longText, b < 128) ∧ 10 ∉ bytesOf longText ∧
      wrappedComment 40 (bytesOf "    ") [bytesOf longText] = .ok (bytesOf longComment) ∧
      ∃ ps : List Piece,
        wrappedComment 40 (bytesOf "    ") [bytesOf longText] =
          .ok (joinBytes (ps.map fun p => bytesOf "    " ++ slashes ++ pieceBody p) [10]) ∧
        Reflow 33 (bytesOf longText) ps ∧
        (∀ p ∈ ps, ((bytesOf "    " ++ slashes ++ pieceBody p).length : Int) ≤ 40) ∧
        (∀ p ∈ ps.dropLast, (pieceBody p).length = 33) ∧
        (∀ p ∈ ps.getLast?, p.2 = false ∧ p.1 ≠ [] ∧ p.1.length ≤ 33) ∧
        (ps.map Prod.fst).flatten = bytesOf longText :=
  ⟨by decide, by decide!, by decide, by decide!, by decide!, by decide!,
    wrappedComment_reflow 40 (bytesOf "    ") (bytesOf longText) 33 (by decide) (by decide!)
      (by decide) (by decide!) (by decide!)⟩

theorem wrappedComment_terminates_witness :
    (7 : Int) < 2 ^ 63 ∧ ((2 : Nat) : Int) = 7 - (bytesOf "  ").length - 3 ∧ 2 ≤ 2 ∧
      (∀ b ∈ bytesOf "a\nb\ncdef\n", b < 128) ∧
      wrappedComment 7 (bytesOf "  ") [bytesOf "a\nb\ncdef\n"]
        = .ok (bytesOf "  // a \n  // b \n  // c-\n  // d-\n  // ef") ∧
      (∃ out, wrappedComment 7 (bytesOf "  ") [bytesOf "a\nb\ncdef\n"] = .ok out) ∧
      (∃ rest lines, ∀ fuel,
        (newlinesToSpaces (trimNewline (bytesOf "a\nb\ncdef\n"))).length < fuel →
          wrapLoop (bytesOf "  ") ((2 : Nat) : Int) fuel
            (newlinesToSpaces (trimNewline (bytesOf "a\nb\ncdef\n"))) [] = .ok (rest, lines)) ∧
      ∀ desc : Bytes, (∀ b ∈ desc, b < 128) → 2 < desc.length →
        ∃ line rest, wrapStep (bytesOf "  ") ((2 : Nat) : Int) desc = .ok (line, rest) ∧
          (rest.length + 2 = desc.length ∧ line = bytesOf "  " ++ slashes ++ desc.take 2 ∨
            rest.length + (2 - 1) = desc.length ∧
              line = bytesOf "  " ++ slashes ++ (desc.take (2 - 1) ++ [45])) ∧
          rest.length < desc.length ∧ ∀ b ∈ rest, b < 128 :=
  ⟨by decide, by decide!, by decide, by decide!, by decide!,
    wrappedComment_terminates 7 (bytesOf "  ") (bytesOf "a\nb\ncdef\n") 2 (by decide)
      (by decide!) (by decide) (by decide!)⟩

/-- The second test of `TestCommentDesc`: a text that fits is one line. -/
theorem wrappedComment_short :
    wrappedComment 40 (bytesOf "    ") [bytesOf "this is short enough"]
      = .ok (bytesOf "    // this is short enough") := by
  decide!

/-- Outside ASCII the loop can index out of range: a cut inside a two-byte
character leaves fewer runes than bytes. -/
theorem wrappedComment_multibyte_aborts :
    wrappedComment 12 [] [bytesOf "héllo wörld"] = .error (.panic "index out of range") := by
  decide!

/-- A text width of 1 does not end: a hyphen is put and nothing is used up. -/
theorem wrappedComment_width_one :
    wrappedComment 4 [] [bytesOf "hello"] = .error .outOfFuel := by
  decide!

/-! ## The schemas a path entry leaves: proofs -/

theorem mergeCommonParams_paramsOf (common : List Any) (t : String) :
    ∀ (l l' : List Schema), mergeCommonParams common t l = .ok l' →
      l' = l.map (appendParams t (paramsOf (parseParams true common))) := by
  intro l
  induction l with
  | nil => intro l' h; simp only [mergeCommonParams] at h; cases h; rfl
  | cons sc rest ih =>
    intro l' h
    simp only [mergeCommonParams] at h
    by_cases hn : sc.GoName = t
    · rw [if_pos hn] at h
      cases hc : parseParams true common with
      | error e => rw [hc] at h; cases h
      | ok ps =>
        rw [hc] at h
        dsimp only at h
        cases hr : mergeCommonParams common t rest with
        | error e => rw [hr] at h; cases h
        | ok rest' =>
          rw [hr] at h
          cases h
          have := ih rest' hr
          rw [hc] at this
          rw [List.map_cons, ← this]
          unfold appendParams paramsOf
          rw [if_pos hn]
    · rw [if_neg hn] at h
      cases hr : mergeCommonParams common t rest with
      | error e => rw [hr] at h; cases h
      | ok rest' =>
        rw [hr] at h
        cases h
        rw [List.map_cons, ← ih rest' hr]
        unfold appendParams
        rw [if_neg hn]

theorem bodyCount_cons (item : Any) (name key : String) (keys : List String) :
    bodyCount item name (key :: keys)
      = (if mergesInto item name key then 1 else 0) + bodyCount item name keys := by
  unfold bodyCount
  rw [List.filter_cons]
  by_cases h : mergesInto item name key = true
  · rw [if_pos h, if_pos h, List.length_cons]; omega
  · rw [if_neg h, if_neg h]; omega

theorem bodyCount_append (item : Any) (name : String) (a b : List String) :
    bodyCount item name (a ++ b) = bodyCount item name a + bodyCount item name b := by
  unfold bodyCount
  rw [List.filter_append, List.length_append]

theorem extendBy_nil (item : Any) (s : Schema) : extendBy item [] s = s := by
  unfold extendBy bodyCount
  simp

theorem extendBy_goName (item : Any) (keys : List String) (s : Schema) :
    (extendBy item keys s).GoName = s.GoName := rfl

theorem replicate_flatten_add {α : Type} (a b : Nat) (l : List α) :
    (List.replicate (a + b) l).flatten
      = (List.replicate a l).flatten ++ (List.replicate b l).flatten := by
  rw [List.replicate_add, List.flatten_append]

theorem extendBy_append (item : Any) (a b : List String) (s : Schema) :
    extendBy item (a ++ b) s = extendBy item b (extendBy item a s) := by
  unfold extendBy
  dsimp only
  rw [bodyCount_append, replicate_flatten_add, List.append_assoc]

theorem extendBy_cons (item : Any) (key : String) (keys : List String) (s : Schema) :
    extendBy item (key :: keys) s = extendBy item keys (extendBy item [key] s) :=
  extendBy_append item [key] keys s

theorem extendBy_one (item : Any) (key : String) (s : Schema) :
    extendBy item [key] s =
      if mergesInto item s.GoName key then { s with Params := s.Params ++ sharedParams item }
      else s := by
  unfold extendBy
  rw [bodyCount_cons]
  by_cases h : mergesInto item s.GoName key = true
  · rw [if_pos h, if_pos h]
    simp [bodyCount]
  · rw [if_neg h, if_neg h]
    simp [bodyCount]

theorem map_extendBy_of_none (item : Any) (key : String) (l : List Schema)
    (h : ∀ name, mergesInto item name key = false) : l.map (extendBy item [key]) = l := by
  rw [List.map_congr_left (g := id), List.map_id]
  intro s _
  rw [extendBy_one, h]
  rfl

theorem map_extendBy_of_empty (item : Any) (key : String) (l : List Schema)
    (h : sharedParams item = []) : l.map (extendBy item [key]) = l := by
  rw [List.map_congr_left (g := id), List.map_id]
  intro s _
  rw [extendBy_one, h]
  split_ifs
  · simp
  · rfl

/-- What the body of the loop of `parsePath` does to the schemas: the schemas
there are get the shared parameters if the operation merges into their name,
and an operation without request body appends its input schema. -/
theorem parseMethod_schemas (p p' : parser) (path : String) (item : Any) (key : String)
    (h : parseMethod p path item (item.Slice ["parameters"]) key = .ok p') :
    p'.api.Schemas = p.api.Schemas.map (extendBy item [key]) ++
      (if synthesizes item key then [synthesizedInput path item key] else []) := by
  unfold parseMethod at h
  dsimp only at h
  by_cases hop : (item.Get [key]).1.Str ["operationId"] = ""
  · rw [if_pos hop] at h
    cases h
    have hs : synthesizes item key = false := by simp [synthesizes, hop]
    rw [hs, map_extendBy_of_none item key _ (fun name => by simp [mergesInto, hop])]
    simp
  · rw [if_neg hop] at h
    by_cases hb : ((item.Get [key]).1.Get ["requestBody"]).2 = true
    · have hb2 : (buildMethod path key (item.Get [key]).1).InputInBody = true := hb
      have hs : synthesizes item key = false := by simp [synthesizes, hb]
      rw [if_pos hb2] at h
      rw [hs]
      by_cases hc : (item.Slice ["parameters"]).length > 0
      · rw [if_pos hc] at h
        split at h
        · cases h
        · rename_i schemas hm
          cases h
          have := mergeCommonParams_paramsOf _ _ _ _ hm
          show schemas = _
          rw [this]
          simp only [Bool.false_eq_true, if_false, List.append_nil]
          apply List.map_congr_left
          intro s _
          rw [extendBy_one]
          unfold appendParams mergesInto sharedParams
          by_cases hn : s.GoName = (buildMethod path key (item.Get [key]).1).InputType
          · have hn2 : inputType (item.Get [key]).1 = s.GoName := hn.symm
            simp [hn, hop, hb, hn2]
          · have hn2 : ¬ inputType (item.Get [key]).1 = s.GoName := fun e => hn e.symm
            simp [hn, hn2]
      · rw [if_neg hc] at h
        cases h
        have hnil : item.Slice ["parameters"] = [] := List.length_eq_zero.1 (by omega)
        have he : sharedParams item = [] := by
          unfold sharedParams
          rw [hnil]
          rfl
        rw [map_extendBy_of_empty item key _ he]
        simp
    · have hb2 : ¬ (buildMethod path key (item.Get [key]).1).InputInBody = true := hb
      rw [if_neg hb2] at h
      have hbf : ((item.Get [key]).1.Get ["requestBody"]).2 = false := by simpa using hb
      have hs : synthesizes item key = true := by simp [synthesizes, hop, hbf]
      rw [hs, if_pos rfl]
      split at h
      · cases h
      · rename_i params hpp
        cases h
        rw [map_extendBy_of_none item key _ (fun name => by simp [mergesInto, hbf])]
        unfold synthesizedInput
        rw [hpp]
        rfl

/-- The schemas after the loop of `parsePath` over the given keys: the schemas
there were, extended, then the synthesized input schemas. -/
theorem parseMethods_schemas (path : String) (item : Any) :
    ∀ (ks : List String) (p p' : parser),
      forEach (fun p method => parseMethod p path item (item.Slice ["parameters"]) method)
        ks p = .ok p' →
      p'.api.Schemas = p.api.Schemas.map (extendBy item ks) ++ synthesizedBy path item ks := by
  intro ks
  induction ks with
  | nil =>
    intro p p' h
    simp only [forEach] at h
    cases h
    rw [List.map_congr_left (g := id) (fun s _ => extendBy_nil item s), List.map_id]
    simp [synthesizedBy]
  | cons k ks ih =>
    intro p p' h
    simp only [forEach] at h
    cases hb : parseMethod p path item (item.Slice ["parameters"]) k with
    | error e => rw [hb] at h; cases h
    | ok q =>
      rw [hb] at h
      rw [ih q p' h, parseMethod_schemas p q path item k hb, List.map_append, List.map_map,
        synthesizedBy, List.append_assoc]
      congr 1
      · apply List.map_congr_left
        intro s _
        exact (extendBy_cons item k ks s).symm
      · congr 1
        split_ifs <;> rfl

theorem synthesizedBy_append (path : String) (item : Any) (b : List String) :
    ∀ a : List String, synthesizedBy path item (a ++ b)
      = (synthesizedBy path item a).map (extendBy item b) ++ synthesizedBy path item b := by
  intro a
  induction a with
  | nil => simp [synthesizedBy]
  | cons k ks ih =>
    rw [List.cons_append, synthesizedBy, synthesizedBy, ih, List.map_append, List.append_assoc]
    congr 1
    split_ifs
    · rw [List.map_cons, List.map_nil, extendBy_append]
    · rfl

theorem synthesizedBy_length (path : String) (item : Any) :
    ∀ ks : List String,
      (synthesizedBy path item ks).length = (ks.filter (synthesizes item)).length := by
  intro ks
  induction ks with
  | nil => rfl
  | cons k ks ih =>
    rw [synthesizedBy, List.length_append, ih, List.filter_cons]
    by_cases h : synthesizes item k = true
    · rw [if_pos h, if_pos h]
      simp only [List.length_cons, List.length_nil]
      omega
    · rw [if_neg h, if_neg h]
      simp only [List.length_nil]
      omega

theorem parseParam_noJSON (v : Any) (P : Param) (h : parseParam v false = .ok P) :
    ∃ Q, parseParam v true = .ok Q := by
  unfold parseParam at h ⊢
  dsimp only at h ⊢
  split at h
  · cases h
  · exact ⟨_, rfl⟩

theorem parseParams_noJSON : ∀ (a b : List Any) (ps : List Param),
    parseParams false (a ++ b) = .ok ps → ∃ qs, parseParams true a = .ok qs := by
  intro a
  induction a with
  | nil => intro b ps _; exact ⟨[], rfl⟩
  | cons v vs ih =>
    intro b ps h
    rw [List.cons_append] at h
    simp only [parseParams] at h
    cases hv : parseParam v false with
    | error e => rw [hv] at h; cases h
    | ok P =>
      rw [hv] at h
      cases hr : parseParams false (vs ++ b) with
      | error e => rw [hr] at h; cases h
      | ok rest =>
        obtain ⟨Q, hQ⟩ := parseParam_noJSON v P hv
        obtain ⟨qs, hqs⟩ := ih b rest hr
        refine ⟨Q :: qs, ?_⟩
        simp only [parseParams, hQ, hqs]

theorem mergeCommonParams_parsed (common : List Any) (t : String) :
    ∀ (l l' : List Schema), mergeCommonParams common t l = .ok l' →
      (∃ s ∈ l, s.GoName = t) → ∃ merged, parseParams true common = .ok merged := by
  intro l
  induction l with
  | nil => intro l' _ ⟨s, hs, _⟩; cases hs
  | cons sc rest ih =>
    intro l' h hex
    simp only [mergeCommonParams] at h
    by_cases hn : sc.GoName = t
    · rw [if_pos hn] at h
      cases hc : parseParams true common with
      | error e => rw [hc] at h; cases h
      | ok ps => exact ⟨ps, rfl⟩
    · rw [if_neg hn] at h
      cases hr : mergeCommonParams common t rest with
      | error e => rw [hr] at h; cases h
      | ok rest' =>
        obtain ⟨s, hs, hst⟩ := hex
        rcases List.mem_cons.1 hs with rfl | hs
        · exact absurd hst hn
        · exact ih rest' hr ⟨s, hs, hst⟩

theorem parseMethod_parsed (p p' : parser) (path : String) (item : Any) (key : String)
    (h : parseMethod p path item (item.Slice ["parameters"]) key = .ok p')
    (hmerge : mergesInto item (inputType (item.Get [key]).1) key = true)
    (hex : ∃ s ∈ p.api.Schemas, s.GoName = inputType (item.Get [key]).1) :
    ∃ merged, parseParams true (item.Slice ["parameters"]) = .ok merged := by
  have hop : (item.Get [key]).1.Str ["operationId"] ≠ "" := by
    intro e
    simp [mergesInto, e] at hmerge
  have hb : ((item.Get [key]).1.Get ["requestBody"]).2 = true := by
    cases hv : ((item.Get [key]).1.Get ["requestBody"]).2
    · simp [mergesInto, hv] at hmerge
    · rfl
  unfold parseMethod at h
  dsimp only at h
  rw [if_neg hop] at h
  have hb2 : (buildMethod path key (item.Get [key]).1).InputInBody = true := hb
  rw [if_pos hb2] at h
  by_cases hc : (item.Slice ["parameters"]).length > 0
  · rw [if_pos hc] at h
    split at h
    · cases h
    · rename_i schemas hm
      exact mergeCommonParams_parsed _ _ _ _ hm hex
  · have hnil : item.Slice ["parameters"] = [] := List.length_eq_zero.1 (by omega)
    rw [hnil]
    exact ⟨[], rfl⟩

theorem sharedParams_forall2 (item : Any) (merged : List Param)
    (h : parseParams true (item.Slice ["parameters"]) = .ok merged) :
    List.Forall₂ (fun v P => parseParam v true = .ok P) (item.Slice ["parameters"])
      (sharedParams item) := by
  unfold sharedParams
  rw [h]
  exact parseParams_forall2 true _ _ h

/-- The loop of `parsePath` resolved the shared parameters when an operation
merges into the name of a schema that was there before. -/
theorem parseMethods_parsed (path : String) (item : Any) (ks : List String) (p p' : parser)
    (h : forEach (fun p method => parseMethod p path item (item.Slice ["parameters"]) method)
      ks p = .ok p')
    (S : Schema) (hS : S ∈ p.api.Schemas) (hn : bodyCount item S.GoName ks ≠ 0) :
    ∃ merged, parseParams true (item.Slice ["parameters"]) = .ok merged := by
  have hpos : 0 < (ks.filter (mergesInto item S.GoName)).length := Nat.pos_of_ne_zero hn
  obtain ⟨key, hkey⟩ := List.exists_mem_of_length_pos hpos
  obtain ⟨hk, hmerge⟩ := List.mem_filter.1 hkey
  obtain ⟨ks1, ks2, q, q', _, ha, hb, _⟩ := forEach_split _ _ _ _ key hk h
  have hin : inputType (item.Get [key]).1 = S.GoName := by
    simp only [mergesInto, Bool.and_eq_true, decide_eq_true_eq] at hmerge
    exact hmerge.2
  refine parseMethod_parsed q q' path item key hb (by rw [hin]; exact hmerge) ⟨extendBy item ks1 S, ?_, ?_⟩
  · rw [parseMethods_schemas path item ks1 p q ha]
    exact List.mem_append_left _ (List.mem_map.2 ⟨S, hS, rfl⟩)
  · rw [extendBy_goName, hin]

theorem parsePath_loop (fs : Loader) (parseRef : Map → Parsed) (p p' : parser)
    (path : String) (item : Any) (hnoref : item.Str ["$ref"] = "")
    (hrun : parsePath fs parseRef p path item = .ok (p', none)) :
    forEach (fun p method => parseMethod p path item (item.Slice ["parameters"]) method)
      (item.Keys []) p = .ok p' := by
  unfold parsePath at hrun
  rw [if_neg (not_not.2 hnoref)] at hrun
  split at hrun
  · cases hrun
  · rename_i r hr
    cases hrun
    exact hr

/-- Claim C16, as stated, fails, in three ways.  A path entry that is itself a
reference is handed to the reference resolver: nothing is merged into
`WidgetInput`.  At an entry whose `post` refers to `WidgetInput` and whose
`put` refers to `WidgetOutput`, the schema of the other name, `WidgetOutput`,
gets the shared parameter as well.  And at an entry with one operation that
refers to `WidgetInput` and the operation `Widget` whose request body refers to
no schema, `WidgetInput` gets the shared parameter twice. -/
theorem shared_params_not_merged_counterexample :
    ((Any.Slice twoBodiesRefItem ["parameters"]).length = 2 ∧
      operationCount twoBodiesRefItem = 2 ∧
      returnedOk (parsePath emptyFiles (ParseDoc emptyFiles 0) (startWith widgetSchemas)
        "/widgets" twoBodiesRefItem) = true ∧
      schemaParamsIn (stateOf (startWith widgetSchemas) (parsePath emptyFiles
        (ParseDoc emptyFiles 0) (startWith widgetSchemas) "/widgets" twoBodiesRefItem))
        = [("WidgetInput", ["name"]), ("WidgetOutput", ["id"])]) ∧
    (returnedOk (parsePath noFiles (fun _ => .error .outOfFuel) (startWith widgetSchemas)
        "/widgets" twoTargetsItem) = true ∧
      schemaParamsIn (stateOf (startWith widgetSchemas) (parsePath noFiles
        (fun _ => .error .outOfFuel) (startWith widgetSchemas) "/widgets" twoTargetsItem))
        = [("WidgetInput", ["name", "tenant"]), ("WidgetOutput", ["id", "tenant"])]) ∧
    ((Any.Get defaultNameItem ["put"]).1.Str
        ["requestBody", "content", "application/json", "schema", "$ref"] = "" ∧
      returnedOk (parsePath noFiles (fun _ => .error .outOfFuel) (startWith widgetSchemas)
        "/widgets" defaultNameItem) = true ∧
      schemaParamsIn (stateOf (startWith widgetSchemas) (parsePath noFiles
        (fun _ => .error .outOfFuel) (startWith widgetSchemas) "/widgets" defaultNameItem))
        = [("WidgetInput", ["name", "tenant", "tenant"]), ("WidgetOutput", ["id"])]) := by
  decide!

/-- Claim C16, amended: when `parsePath` returns without error on a path entry
that is not itself a reference, the schemas afterwards are the schemas before,
each in its place with the shared parameters appended to its parameters once
for every operation of the entry that has a request body whose input type is
the name of the schema, followed by the input schemas synthesized for the
operations without request body, one each.  For a schema that such an
operation merges into, the appended parameters are the `k` shared parameters
resolved without JSON tag, `n * k` entries for `n` such operations; a schema
whose name is the input type of no such operation is unchanged; and an
operation whose request body refers to the schema `X` is one whose input type
is `X`. -/
theorem parsePath_merges_shared (fs : Loader) (parseRef : Map → Parsed) (p p' : parser)
    (path : String) (item : Any)
    (hnoref : item.Str ["$ref"] = "")
    (hrun : parsePath fs parseRef p path item = .ok (p', none)) :
    p'.api.Schemas = p.api.Schemas.map (extendBy item (item.Keys []))
      ++ synthesizedBy path item (item.Keys []) ∧
    (synthesizedBy path item (item.Keys [])).length
      = ((item.Keys []).filter (synthesizes item)).length ∧
    (∀ S : Schema, (extendBy item (item.Keys []) S).Params = S.Params ++
      (List.replicate (bodyCount item S.GoName (item.Keys [])) (sharedParams item)).flatten) ∧
    (∀ S ∈ p.api.Schemas, bodyCount item S.GoName (item.Keys []) ≠ 0 →
      List.Forall₂ (fun v P => parseParam v true = .ok P) (item.Slice ["parameters"])
        (sharedParams item) ∧
      (List.replicate (bodyCount item S.GoName (item.Keys [])) (sharedParams item)).flatten.length
        = bodyCount item S.GoName (item.Keys []) * (item.Slice ["parameters"]).length) ∧
    (∀ S : Schema, bodyCount item S.GoName (item.Keys []) = 0 →
      extendBy item (item.Keys []) S = S) ∧
    (∀ key X : String, (item.Get [key]).1.Str ["operationId"] ≠ "" → X ≠ "" →
      (item.Get [key]).1.Str ["requestBody", "content", "application/json", "schema", "$ref"]
        = "#/components/schemas/" ++ X →
      mergesInto item X key = true) := by
  have hloop := parsePath_loop fs parseRef p p' path item hnoref hrun
  refine ⟨parseMethods_schemas path item _ p p' hloop, synthesizedBy_length path item _,
    fun _ => rfl, ?_, ?_, ?_⟩
  · intro S hS hn
    obtain ⟨merged, hm⟩ := parseMethods_parsed path item _ p p' hloop S hS hn
    have hf := sharedParams_forall2 item merged hm
    refine ⟨hf, ?_⟩
    rw [List.length_flatten, List.map_replicate, List.sum_replicate, ← hf.length_eq]
    rfl
  · intro S h0
    unfold extendBy
    rw [h0]
    simp
  · intro key X hop hX href
    have hbody : ((item.Get [key]).1.Get ["requestBody"]).2 = true := by
      apply Any.Str_ne_found _ "requestBody" ["content", "application/json", "schema", "$ref"]
      rw [href]
      exact schemaRef_ne_empty X
    have hin : inputType (item.Get [key]).1 = X := inputType_ref _ X hX href
    simp [mergesInto, hop, hbody, hin]

/-- The amended claim C16 at a path entry with one shared parameter, `get`
without request body and `put` on `WidgetInput`: the schema gets `id` after its
own parameter, `WidgetOutput` keeps its own, and the input schema of `get`
follows; and at the entry with two shared parameters and two operations on
`WidgetInput`, which gets four. -/
theorem parsePath_merges_shared_witness :
    schemaParamsIn (stateOf (startWith widgetSchemas) (parsePath noFiles
      (fun _ => .error .outOfFuel) (startWith widgetSchemas) "/widgets" mixedItem))
      = [("WidgetInput", ["name", "id"]), ("WidgetOutput", ["id"]),
         ("ListWidgetsInput", ["id", "limit"])] ∧
    schemaParamsIn (stateOf (startWith widgetSchemas) (parsePath noFiles
      (fun _ => .error .outOfFuel) (startWith widgetSchemas) "/widgets" twoBodiesItem))
      = [("WidgetInput", ["name", "tenant", "region", "tenant", "region"]),
         ("WidgetOutput", ["id"])] ∧
    bodyCount mixedItem "WidgetInput" (Any.Keys mixedItem []) = 1 ∧
    bodyCount mixedItem "WidgetOutput" (Any.Keys mixedItem []) = 0 ∧
    (stateOf (startWith widgetSchemas) (parsePath noFiles
      (fun _ => .error .outOfFuel) (startWith widgetSchemas) "/widgets" mixedItem)).api.Schemas
      = (startWith widgetSchemas).api.Schemas.map (extendBy mixedItem (Any.Keys mixedItem []))
        ++ synthesizedBy "/widgets" mixedItem (Any.Keys mixedItem []) :=
  ⟨by decide!, by decide!, by decide!, by decide!,
    (parsePath_merges_shared noFiles (fun _ => .error .outOfFuel) (startWith widgetSchemas)
      (stateOf (startWith widgetSchemas) (parsePath noFiles (fun _ => .error .outOfFuel)
        (startWith widgetSchemas) "/widgets" mixedItem))
      "/widgets" mixedItem (by decide!) (returnedOk_eq _ _ (by decide!))).1⟩

/-- Claim C2, as stated, fails, in two ways.  A path entry with two shared
parameters and an operation without request body, which is itself a reference,
is handed to the reference resolver; `parsePath` returns without error and
appends no `Schema`.  And at an entry with one shared parameter, the operation
`Foo` without request body and without parameters of its own under `delete`,
and an operation under `post` whose request body refers to `FooInput`, the
synthesized `FooInput` has the shared parameter twice when `parsePath`
returns, not `k + n = 1` entries. -/
theorem shared_params_reference_entry_counterexample :
    ((Any.Slice sharedParamsRefItem ["parameters"]).length = 2 ∧
      ((Any.Get sharedParamsRefItem ["get"]).1.Str ["operationId"]) = "ListWidgets" ∧
      returnedOk (parsePath emptyFiles (ParseDoc emptyFiles 0) (startOf []) "/widgets"
        sharedParamsRefItem) = true ∧
      schemaParamsIn (stateOf (startOf []) (parsePath emptyFiles (ParseDoc emptyFiles 0)
        (startOf []) "/widgets" sharedParamsRefItem)) = []) ∧
    ((Any.Slice laterBodyItem ["parameters"]).length = 1 ∧
      (Any.Get laterBodyItem ["delete"]).1.Str ["operationId"] = "Foo" ∧
      ((Any.Get laterBodyItem ["delete"]).1.Get ["requestBody"]).2 = false ∧
      ((Any.Get laterBodyItem ["delete"]).1.Slice ["parameters"]).length = 0 ∧
      returnedOk (parsePath noFiles (fun _ => .error .outOfFuel) (startOf []) "/foo"
        laterBodyItem) = true ∧
      schemaParamsIn (stateOf (startOf []) (parsePath noFiles (fun _ => .error .outOfFuel)
        (startOf []) "/foo" laterBodyItem)) = [("FooInput", ["tenant", "tenant"])]) := by
  decide!

/-- Claim C2, amended: when `parsePath` returns without error on a path entry
that is not itself a reference, every operation of the entry with a non-empty
operationId and no request body has, in the returned schemas, exactly one
synthesized `Schema` of its own, after the schemas there were and the schemas
synthesized for the keys before it and before those synthesized for the keys
after it.  It is named `goName(operationId) + "Input"`, and its parameters are
the `k` shared parameters in their order, then the `n` parameters of the
operation in their order, then the `k` shared parameters (resolved without
JSON tag) once more for every later key of the entry that holds an operation
with a request body whose input type is that name: `k + n` entries when there
is no such later operation. -/
theorem parsePath_synthesized_input (fs : Loader) (parseRef : Map → Parsed) (p p' : parser)
    (path key : String) (item m : Any)
    (hnoref : item.Str ["$ref"] = "")
    (hrun : parsePath fs parseRef p path item = .ok (p', none))
    (hkey : key ∈ item.Keys [])
    (hm : m = (item.Get [key]).1)
    (hop : m.Str ["operationId"] ≠ "")
    (hbody : (m.Get ["requestBody"]).2 = false) :
    ∃ (ks1 ks2 : List String) (pre post : List Schema) (params : List Param),
      item.Keys [] = ks1 ++ key :: ks2 ∧
      p'.api.Schemas = pre ++
        { APIName := m.Str ["operationId"]
          GoName := goName (m.Str ["operationId"]) ++ "Input"
          JsName := goName (m.Str ["operationId"]) ++ "Input"
          Params := params ++ (List.replicate
            (bodyCount item (goName (m.Str ["operationId"]) ++ "Input") ks2)
            (sharedParams item)).flatten } :: post ∧
      pre.length = p.api.Schemas.length + (ks1.filter (synthesizes item)).length ∧
      post.length = (ks2.filter (synthesizes item)).length ∧
      params.length = (item.Slice ["parameters"]).length + (m.Slice ["parameters"]).length ∧
      List.Forall₂ (fun v P => parseParam v false = .ok P)
        (item.Slice ["parameters"] ++ m.Slice ["parameters"]) params ∧
      List.Forall₂ (fun v P => parseParam v true = .ok P) (item.Slice ["parameters"])
        (sharedParams item) ∧
      (params ++ (List.replicate
          (bodyCount item (goName (m.Str ["operationId"]) ++ "Input") ks2)
          (sharedParams item)).flatten).length
        = (item.Slice ["parameters"]).length + (m.Slice ["parameters"]).length
          + bodyCount item (goName (m.Str ["operationId"]) ++ "Input") ks2
            * (item.Slice ["parameters"]).length := by
  subst hm
  have hloop := parsePath_loop fs parseRef p p' path item hnoref hrun
  obtain ⟨ks1, ks2, q, q', hks, _, hb, _⟩ := forEach_split _ _ _ _ key hkey hloop
  obtain ⟨_, hcase⟩ := parseMethod_ok _ _ _ _ _ _ hb
  rcases hcase with ⟨h0, _⟩ | ⟨_, _, ⟨hb1, _⟩ | ⟨_, params, hpp, _⟩⟩
  · exact absurd h0 hop
  · rw [hbody] at hb1; cases hb1
  · have hf := parseParams_forall2 false _ _ hpp
    obtain ⟨merged, hmerged⟩ := parseParams_noJSON _ _ _ hpp
    have hfs := sharedParams_forall2 item merged hmerged
    have hsyn : synthesizes item key = true := by simp [synthesizes, hop, hbody]
    have hS : extendBy item ks2 (synthesizedInput path item key) =
        { APIName := (item.Get [key]).1.Str ["operationId"]
          GoName := goName ((item.Get [key]).1.Str ["operationId"]) ++ "Input"
          JsName := goName ((item.Get [key]).1.Str ["operationId"]) ++ "Input"
          Params := params ++ (List.replicate
            (bodyCount item (goName ((item.Get [key]).1.Str ["operationId"]) ++ "Input") ks2)
            (sharedParams item)).flatten } := by
      unfold extendBy synthesizedInput buildInputSchema buildMethod
      dsimp only
      rw [hpp, inputType_noBody _ hbody]
      rfl
    have hall := parseMethods_schemas path item _ p p' hloop
    refine ⟨ks1, ks2,
      p.api.Schemas.map (extendBy item (item.Keys [])) ++
        (synthesizedBy path item ks1).map (extendBy item (key :: ks2)),
      synthesizedBy path item ks2, params, hks, ?_, ?_, synthesizedBy_length path item ks2,
      ?_, hf, hfs, ?_⟩
    · rw [hall, ← hS]
      conv_lhs => rw [hks, synthesizedBy_append, synthesizedBy, if_pos hsyn]
      simp only [List.append_assoc, List.singleton_append]
      rw [← hks]
    · rw [List.length_append, List.length_map, List.length_map, synthesizedBy_length]
    · rw [← hf.length_eq, List.length_append]
    · rw [List.length_append, List.length_flatten, List.map_replicate, List.sum_replicate,
        ← hf.length_eq, List.length_append, ← hfs.length_eq]
      rfl

/-- The amended claim C2 at a path entry with two shared parameters and an
operation with one parameter of its own: the synthesized schema lists shared
#1, shared #2, own. -/
theorem parsePath_synthesized_input_witness :
    schemaParamsIn (stateOf (startOf []) (parsePath noFiles (fun _ => .error .outOfFuel)
      (startOf []) "/widgets" sharedParamsItem))
      = [("ListWidgetsInput", ["tenant", "region", "limit"])] ∧
    ∃ (ks1 ks2 : List String) (pre post : List Schema) (params : List Param),
      Any.Keys sharedParamsItem [] = ks1 ++ "get" :: ks2 ∧
      (stateOf (startOf []) (parsePath noFiles (fun _ => .error .outOfFuel)
        (startOf []) "/widgets" sharedParamsItem)).api.Schemas = pre ++
        { APIName := "ListWidgets", GoName := goName "ListWidgets" ++ "Input",
          JsName := goName "ListWidgets" ++ "Input",
          Params := params ++ (List.replicate
            (bodyCount sharedParamsItem (goName "ListWidgets" ++ "Input") ks2)
            (sharedParams sharedParamsItem)).flatten } :: post ∧
      params.length = 2 + 1 := by
  refine ⟨by decide!, ?_⟩
  obtain ⟨ks1, ks2, pre, post, params, h1, h2, _, _, h5, _⟩ :=
    parsePath_synthesized_input noFiles (fun _ => .error .outOfFuel) (startOf [])
      (stateOf (startOf []) (parsePath noFiles (fun _ => .error .outOfFuel)
        (startOf []) "/widgets" sharedParamsItem))
      "/widgets" "get" sharedParamsItem listWidgets
      (by decide!) (returnedOk_eq _ _ (by decide!)) (by decide!) rfl (by decide!) (by decide!)
  exact ⟨ks1, ks2, pre, post, params, h1, h2, h5⟩

/-! ## String enumerations: the last registration stands -/

theorem parseConst_registers (p : parser) (n : String) (v : Any)
    (h : (v.Slice ["enum"]).length ≠ 0) :
    (parseConst p n v).consts
      = mapInsert (goName n) { Name := goName n, Values := constValues v } p.consts := by
  unfold parseConst constValues
  dsimp only
  rw [if_neg h]

theorem constValues_apiNames (v : Any) :
    (constValues v).map (fun c => c.APIName) =
      if (v.Get ["custom-enum"]).2 then (v.Get ["custom-enum"]).1.Keys ["options"]
      else (v.Slice ["enum"]).map fun val => val.Str [] := by
  unfold constValues
  split_ifs
  · rw [List.map_map]
    exact List.map_id _
  · rw [List.map_map]
    rfl

theorem strictAsc_after (l : List String) (hl : StrictAsc l) (ks1 ks2 : List String)
    (name : String) (h : l = ks1 ++ name :: ks2) :
    ∀ k ∈ ks2, ltChars name.data k.data = true := by
  subst h
  unfold StrictAsc at hl
  have h2 := (List.pairwise_append.1 hl).2.1
  exact (List.pairwise_cons.1 h2).1

/-- Claim C12, as stated, fails, in two ways.  The entry `Status` is of type
string, its enum list has three values, and its constant has the one value of
its `custom-enum` options.  And the entry `Color` is of type string with two
enum values, but the property `color` of the later entry `Widget` registers
its one value under the same Go name, which replaces the constant. -/
theorem custom_enum_value_count_counterexample :
    ((Any.Slice (Map.Get customEnumDoc ["components", "schemas", "Status"]).1 ["enum"]).length
        = 3 ∧
      constNamesOf (ParseDoc noFiles 0 customEnumDoc)
        = some [("Status", [("active", "StatusActive", "ACTIVE")])]) ∧
    ((Map.Get overwrittenEnumDoc ["components", "schemas", "Color"]).1.Str ["type"] = "string" ∧
      (Any.Slice (Map.Get overwrittenEnumDoc ["components", "schemas", "Color"]).1
        ["enum"]).length = 2 ∧
      constNamesOf (ParseDoc noFiles 0 overwrittenEnumDoc)
        = some [("Color", [("blue", "ColorBlue", "BLUE")])]) :=
  ⟨by decide!, by decide!, by decide!, by decide!⟩

/-- Claim C12, amended: when `ParseDoc` returns without error, an entry of
`components.schemas` of type string with a non-empty enum list, after which no
node registers a constant under the same Go name, has in the returned
constants a `Const` named `goName` of the entry name; its values are the
values of the enum list, as many as the list is long, when the entry has no
`custom-enum`, and the option keys of its `custom-enum`, as many as there are,
when it has one; the entry is no object entry, and the loop of `parseSchemas`
builds no `Schema` from it. -/
theorem ParseDoc_string_enum_const (fs : Loader) (fuel : Nat) (doc : Map) (api : API)
    (name : String) (s : Any)
    (hdoc : ParseDoc fs fuel doc = .ok (api, none))
    (hname : name ∈ doc.Keys ["components", "schemas"])
    (hs : s = (doc.Get ["components", "schemas", name]).1)
    (htype : s.Str ["type"] = "string")
    (henum : (s.Slice ["enum"]).length ≠ 0)
    (hlater : NoLaterRegistration doc name) :
    (∃ c ∈ api.Consts, c.Name = goName name ∧
      c.Values.map (fun v => v.APIName) =
        (if (s.Get ["custom-enum"]).2 then (s.Get ["custom-enum"]).1.Keys ["options"]
         else (s.Slice ["enum"]).map fun val => val.Str []) ∧
      c.Values.length =
        (if (s.Get ["custom-enum"]).2 then ((s.Get ["custom-enum"]).1.Keys ["options"]).length
         else (s.Slice ["enum"]).length)) ∧
    name ∉ objectNames doc ∧
    ∀ p p' : parser, p.doc = doc → parseSchemaEntry p name = .ok p' →
      p'.api.Schemas = p.api.Schemas := by
  subst hs
  have hnotobj : (doc.Get ["components", "schemas", name]).1.Str ["type"] ≠ "object" := by
    rw [htype]; decide
  refine ⟨?_, ?_, ?_⟩
  · obtain ⟨parseRef, p0, p1, p2, hd0, _, _, _, _, h1, h2, hapi⟩ :=
      ParseDoc_run fs fuel doc api none hdoc
    dsimp only at hapi
    subst hapi
    unfold parseSchemas at h1
    rw [hd0] at h1
    obtain ⟨ks1, ks2, q, q', hks, ha, hb, hc⟩ := forEach_split _ _ _ _ name hname h1
    have hq : q.doc = doc :=
      (forEach_ext _ (fun a k b hb => parseSchemaEntry_ext a b k hb) _ _ _ ha).doc.trans hd0
    have hq' : q'.doc = doc := (parseSchemaEntry_ext _ _ _ hb).doc.trans hq
    -- the constant the entry registers
    let C : Const :=
      { Name := goName name
        Values := constValues (doc.Get ["components", "schemas", name]).1 }
    have hother : ∀ (p : parser) (n : String) (node : Any), goName n ≠ goName name →
        p.consts.lookup (goName name) = some C →
        (parseConst p n node).consts.lookup (goName name) = some C := by
      intro p n node hne hl
      rcases parseConst_consts p n node with ⟨_, hcs⟩ | ⟨_, vals, _, hcs⟩
      · rw [hcs]; exact hl
      · rw [hcs, lookup_mapInsert_ne _ _ _ (fun e => hne e.symm)]
        exact hl
    have hempty : ∀ (p : parser) (n : String) (node : Any), (node.Slice ["enum"]).length = 0 →
        p.consts.lookup (goName name) = some C →
        (parseConst p n node).consts.lookup (goName name) = some C := by
      intro p n node h0 hl
      rcases parseConst_consts p n node with ⟨_, hcs⟩ | ⟨hn0, _⟩
      · rw [hcs]; exact hl
      · exact absurd h0 hn0
    have hq'C : q'.consts.lookup (goName name) = some C := by
      unfold parseSchemaEntry at hb
      dsimp only at hb
      rw [hq, if_neg hnotobj, if_pos htype] at hb
      cases hb
      rw [parseConst_registers q name _ henum]
      exact lookup_mapInsert_self _ _ _
    have hks2 : ∀ k ∈ ks2, k ∈ doc.Keys ["components", "schemas"] := by
      intro k hk
      rw [hks]
      exact List.mem_append_right _ (List.mem_cons_of_mem _ hk)
    have hlt : ∀ k ∈ ks2, ltChars name.data k.data = true :=
      strictAsc_after _ (docKeys_strictAsc doc _) ks1 ks2 name hks
    have hinv := forEach_pres parseSchemaEntry
      (fun st => st.doc = doc ∧ st.consts.lookup (goName name) = some C) ks2
      (fun st k st' hk hI hstep => by
        refine ⟨(parseSchemaEntry_ext _ _ _ hstep).doc.trans hI.1, ?_⟩
        obtain ⟨hstr, hobj⟩ := hlater k (hks2 k hk) (hlt k hk)
        refine parseSchemaEntry_consts st st' k
          (fun cs => cs.lookup (goName name) = some C) ?_ ?_ hstep hI.2
        · rw [hI.1]
          intro ho r pn hpn hr
          by_cases h0 : (((doc.Get ["components", "schemas", k]).1.Get
              ["properties", pn]).1.Slice ["enum"]).length = 0
          · exact hempty r pn _ h0 hr
          · exact hother r pn _ (hobj ho pn hpn h0) hr
        · rw [hI.1]
          intro hst hr
          by_cases h0 : ((doc.Get ["components", "schemas", k]).1.Slice ["enum"]).length = 0
          · exact hempty st k _ h0 hr
          · exact hother st k _ (hstr hst h0) hr)
      q' p1 ⟨hq', hq'C⟩ hc
    have hp2 : p2.consts.lookup (goName name) = some C := by
      unfold parsePaths at h2
      rw [parsePathsLoop_consts _ _ _ _ _ _ h2]
      exact hinv.2
    have hnames : ((constValues (doc.Get ["components", "schemas", name]).1).map
        (nameValue (goName name))).map (fun v => v.APIName) =
        (if ((doc.Get ["components", "schemas", name]).1.Get ["custom-enum"]).2 then
          ((doc.Get ["components", "schemas", name]).1.Get ["custom-enum"]).1.Keys ["options"]
         else ((doc.Get ["components", "schemas", name]).1.Slice ["enum"]).map
          fun val => val.Str []) := by
      rw [← constValues_apiNames, List.map_map]
      apply List.map_congr_left
      intro v _
      exact nameValue_apiName _ _
    refine ⟨_, parseEnums_mem p2 (goName name) C hp2, rfl, hnames, ?_⟩
    have hl := congrArg List.length hnames
    rw [List.length_map] at hl
    rw [hl]
    split_ifs
    · rfl
    · rw [List.length_map]
  · intro hmem
    unfold objectNames at hmem
    have := (List.mem_filter.1 hmem).2
    simp only [decide_eq_true_eq] at this
    exact hnotobj this
  · intro p p' hp hstep
    unfold parseSchemaEntry at hstep
    dsimp only at hstep
    rw [hp, if_neg hnotobj, if_pos htype] at hstep
    cases hstep
    rw [parseConst_api]

/-- The amended claim C12 at the entry `Color` of the document whose earlier
object entry `Apple` has an enum property `color`: the constant `Color` has the
two values of the entry; and at the entry `Status` with a `custom-enum` of one
option. -/
theorem ParseDoc_string_enum_const_witness :
    constNamesOf (ParseDoc noFiles 0 earlierEnumDoc)
      = some [("Color", [("red", "ColorRed", "RED"), ("green", "ColorGreen", "GREEN")])] ∧
    (∃ c ∈ (apiOf (ParseDoc noFiles 0 earlierEnumDoc)).Consts, c.Name = goName "Color" ∧
      c.Values.map (fun v => v.APIName) =
        (if (Any.Get colorEnum ["custom-enum"]).2 then
          (Any.Get colorEnum ["custom-enum"]).1.Keys ["options"]
         else (Any.Slice colorEnum ["enum"]).map fun val => val.Str []) ∧
      c.Values.length =
        (if (Any.Get colorEnum ["custom-enum"]).2 then
          ((Any.Get colorEnum ["custom-enum"]).1.Keys ["options"]).length
         else (Any.Slice colorEnum ["enum"]).length)) ∧
    (Any.Slice colorEnum ["enum"]).length = 2 :=
  ⟨by decide!,
    (ParseDoc_string_enum_const noFiles 0 earlierEnumDoc
      (apiOf (ParseDoc noFiles 0 earlierEnumDoc))
      "Color" colorEnum (parsedOk_eq _ (by decide!)) (by decide!) rfl (by decide!) (by decide!)
      (by decide!)).1, by decide!⟩

end Traverser
